import Mathlib

/-!
Verification of the arbi trade-ledger / HMRC tax-lot matching core.

Shallow embedding of:
  * the valuation resolver (`resolveDerived`, `convertFeeToGBP` from the
    TradeLedger worker),
  * the matching engine (`computeHmrc` and its passes from
    svc-arbi-dash/app/src/lib/hmrc.ts),
  * the ledger storage engine (`TradeLedger.putTrade`, `deleteTrade`,
    `listTrades`, `loadAllTrades`, `handleList`).

Modelling conventions:
  * JS numbers are modelled as exact rationals (`ℚ`); timestamps as `ℤ`
    (milliseconds).  None of the verified properties depend on binary
    floating-point rounding.
  * JS truthiness tests on optional numbers (`!x`) are modelled by
    `truthyQ`, which is false exactly for `none` and `some 0` (`NaN`
    cannot arise in exact arithmetic).
  * The Europe/London civil-day decomposition performed via luxon is an
    external collaborator; it is passed in as a parameter
    `dayOf : ℤ → ℤ` mapping a millisecond timestamp to its London
    civil-day number.  Luxon's `startOf('day')` difference in calendar
    days is then `dayOf b - dayOf s` (the `Math.floor` in `dayDiff` is
    the identity on such calendar differences).
  * The external Frankfurter FX provider is a parameter
    `prov : String → Option ℚ` (date key → rate); the London calendar
    date key of a timestamp is a parameter `dateKey : ℤ → String`.
    Each model of a fallible external call also counts how many
    provider calls it performed, so that "no external call" claims are
    expressible.
  * Thrown JS exceptions are modelled with `Except String`.
-/

namespace Arbi

inductive Asset
  | BTC
  | ETH
  | USDT
deriving DecidableEq

inductive Side
  | BUY
  | SELL
deriving DecidableEq

/-- `Money['currency']` from types.ts. -/
inductive Currency
  | GBP
  | ZAR
  | ASSET
  | USD
deriving DecidableEq

structure Money where
  amount : ℚ
  currency : Currency
deriving DecidableEq

inductive FxSource
  | USER
  | FRANKFURTER
  | NONE
deriving DecidableEq

/-- `Trade['derived']` from types.ts. -/
structure Derived where
  perUnitGBP : ℚ
  gbpProceedsOrCost : ℚ
  feeGBP : Option ℚ
  fxSource : Option FxSource
deriving DecidableEq

/-- `Trade` from types.ts (the `venue`/`notes` metadata fields, which no
verified operation reads, are omitted). -/
structure Trade where
  id : String
  ts : ℤ
  asset : Asset
  side : Side
  quantity : ℚ
  priceGBP : Option ℚ := none
  priceZAR : Option ℚ := none
  fx_gbp_zar : Option ℚ := none
  fee : Option Money := none
  derived : Option Derived := none
  locked : Bool := false
deriving DecidableEq

instance : Inhabited Trade :=
  ⟨{ id := "", ts := 0, asset := .BTC, side := .BUY, quantity := 0 }⟩

inductive MatchRule
  | SAME_DAY
  | WITHIN_30_DAYS
  | SECTION_104
deriving DecidableEq

structure MatchLine where
  rule : MatchRule
  buyRef : Option String
  matchedQty : ℚ
  proceedsGBP : ℚ
  allowableCostGBP : ℚ
  gainGBP : ℚ
deriving DecidableEq

structure FlatMatchLine extends MatchLine where
  sellRef : String
  asset : Asset
  ts : ℤ
deriving DecidableEq

structure DisposalReport where
  sellRef : String
  ts : ℤ
  asset : Asset
  quantity : ℚ
  grossProceedsGBP : ℚ
  disposalFeesGBP : ℚ
  netProceedsGBP : ℚ
  -- `matches` in the source; `matches` is reserved in Lean
  matches' : List MatchLine
  totalGainGBP : ℚ
  issues : Option (List String)
deriving DecidableEq

/-- JS truthiness of an optional number: false for `undefined` and `0`. -/
def truthyQ (o : Option ℚ) : Bool := !(o.getD 0 = 0)

/-! ## Valuation resolver (worker/src/index.ts)

`fetchFxForDate` performs the single external Frankfurter call; here the
provider is the pure map `prov` and every function that may call it
additionally returns the number of provider calls it made. -/

/-- `convertFeeToGBP(fee, perUnitGBP, fx, ts)`.  Returns the GBP fee
(`none` when the input fee is absent or has an unconvertible currency)
together with the number of external FX calls made. -/
def convertFeeToGBP (prov : String → Option ℚ) (dateKey : ℤ → String)
    (fee : Option Money) (perUnitGBP : ℚ) (fx : Option ℚ) (ts : ℤ) :
    Except String (Option ℚ × Nat) :=
  match fee with
  | none => .ok (none, 0)
  | some f =>
    if f.currency = .GBP then .ok (some f.amount, 0)
    else if f.currency = .ASSET then .ok (some (f.amount * perUnitGBP), 0)
    else if f.currency = .ZAR then
      if truthyQ fx = false then
        match prov (dateKey ts) with
        | none => .error "Failed to fetch Frankfurter FX"
        | some rate => .ok (some (f.amount / rate), 1)
      else .ok (some (f.amount / fx.getD 0), 0)
    else .ok (none, 0)

/-- `resolveDerived(trade)`.  Returns the enriched trade together with the
number of external FX calls made. -/
def resolveDerived (prov : String → Option ℚ) (dateKey : ℤ → String)
    (t : Trade) : Except String (Trade × Nat) :=
  if truthyQ t.priceGBP = false ∧
      (truthyQ t.priceZAR = false ∨ truthyQ t.fx_gbp_zar = false) then
    .error "GBP valuation required"
  else
    -- `let fx = trade.fx_gbp_zar; if (!priceGBP && priceZAR && !fx) ...`
    let step2 : Except String (Trade × FxSource × Nat) :=
      if truthyQ t.priceGBP = false ∧ truthyQ t.priceZAR = true ∧
          truthyQ t.fx_gbp_zar = false then
        match prov (dateKey t.ts) with
        | none => .error "Failed to fetch Frankfurter FX"
        | some r => .ok ({ t with fx_gbp_zar := some r }, .FRANKFURTER, 1)
      else if truthyQ t.fx_gbp_zar then .ok (t, .USER, 0)
      else .ok (t, .NONE, 0)
    match step2 with
    | .error e => .error e
    | .ok (t, fxSource, n1) =>
      -- `trade.priceGBP ?? (trade.priceZAR! / trade.fx_gbp_zar!)`
      let perUnitGBP : ℚ :=
        match t.priceGBP with
        | some p => p
        | none => t.priceZAR.getD 0 / t.fx_gbp_zar.getD 0
      let proceeds := perUnitGBP * t.quantity
      match convertFeeToGBP prov dateKey t.fee perUnitGBP t.fx_gbp_zar t.ts with
      | .error e => .error e
      | .ok (feeGBP, n2) =>
        .ok ({ t with derived := some { perUnitGBP := perUnitGBP,
                                        gbpProceedsOrCost := proceeds,
                                        feeGBP := feeGBP,
                                        fxSource := some fxSource } }, n1 + n2)

/-! ## Matching engine (app/src/lib/hmrc.ts)

The TS code mutates shared `EnrichedTrade` objects across the three
passes.  The embedding keeps all enriched trades in one list (`State`,
in input order) and addresses them by position; only the fields
`remainingQty`, `matches`, `issues` are ever updated. -/

def DAY_DIFF_LIMIT : ℤ := 30

/-- The `0.0000001` threshold in the Section 104 remainder check. -/
def poolEpsilon : ℚ := 0.0000001

structure ETrade where
  id : String
  ts : ℤ
  asset : Asset
  side : Side
  quantity : ℚ
  remainingQty : ℚ
  perUnitGBP : ℚ
  netProceedsPerUnit : Option ℚ
  grossProceedsGBP : Option ℚ
  netProceedsGBP : Option ℚ
  disposalFeesGBP : Option ℚ
  totalCostPerUnit : Option ℚ
  acquisitionCostGBP : Option ℚ
  -- `matches` in the source; `matches` is reserved in Lean
  matches' : List MatchLine
  issues : List String
deriving DecidableEq

instance : Inhabited ETrade :=
  ⟨{ id := "", ts := 0, asset := .BTC, side := .BUY, quantity := 0,
     remainingQty := 0, perUnitGBP := 0, netProceedsPerUnit := none,
     grossProceedsGBP := none, netProceedsGBP := none,
     disposalFeesGBP := none, totalCostPerUnit := none,
     acquisitionCostGBP := none, matches' := [], issues := [] }⟩

abbrev State := List ETrade

/-- The trade at position `i` (all loops only ever use in-range indices). -/
def tAt (s : State) (i : Nat) : ETrade := List.getD s i default

def setAt (s : State) (i : Nat) (t : ETrade) : State := List.set s i t

/-- `ensureEnriched(trade)`.  The `Number.isFinite(perUnit)` check cannot
fail in exact rational arithmetic and has no branch here. -/
def ensureEnriched (t : Trade) : Except String ETrade :=
  match t.derived with
  | none => .error ("Trade " ++ t.id ++ " missing derived values")
  | some d =>
    let base : ETrade :=
      { id := t.id, ts := t.ts, asset := t.asset, side := t.side,
        quantity := t.quantity, remainingQty := t.quantity,
        perUnitGBP := d.perUnitGBP, netProceedsPerUnit := none,
        grossProceedsGBP := none, netProceedsGBP := none,
        disposalFeesGBP := none, totalCostPerUnit := none,
        acquisitionCostGBP := none, matches' := [], issues := [] }
    if t.side = .BUY then
      let fee := d.feeGBP.getD 0
      let acquisitionCost := d.gbpProceedsOrCost + fee
      .ok { base with acquisitionCostGBP := some acquisitionCost,
                      totalCostPerUnit := some (acquisitionCost / t.quantity) }
    else
      let fee := d.feeGBP.getD 0
      let gross := d.gbpProceedsOrCost
      let net := gross - fee
      .ok { base with disposalFeesGBP := some fee,
                      grossProceedsGBP := some gross,
                      netProceedsGBP := some net,
                      netProceedsPerUnit := some (net / t.quantity) }

def enrichAll : List Trade → Except String (List ETrade)
  | [] => .ok []
  | t :: rest =>
    match ensureEnriched t with
    | .error e => .error e
    | .ok et =>
      match enrichAll rest with
      | .error e => .error e
      | .ok rest' => .ok (et :: rest')

/-- `applyMatch(sell, qty, rule, allowableCostGBP, buy?)`, acting on the
trades at positions `i` (the sell) and `jb` (the optional buy).  The
`!sell.netProceedsPerUnit` truthiness test throws for both an absent and
a zero per-unit net proceeds value. -/
def applyMatchAt (s : State) (i : Nat) (jb : Option Nat) (qty : ℚ)
    (rule : MatchRule) (allowableCostGBP : ℚ) : Except String State :=
  if qty ≤ 0 then .ok s
  else
    let sell := tAt s i
    if truthyQ sell.netProceedsPerUnit = false then
      .error ("Sell trade " ++ sell.id ++ " missing net proceeds")
    else
      let proceeds := sell.netProceedsPerUnit.getD 0 * qty
      let line : MatchLine :=
        { rule := rule, buyRef := jb.map (fun j => (tAt s j).id),
          matchedQty := qty, proceedsGBP := proceeds,
          allowableCostGBP := allowableCostGBP,
          gainGBP := proceeds - allowableCostGBP }
      let s1 := setAt s i
        { sell with matches' := sell.matches' ++ [line],
                    remainingQty := max 0 (sell.remainingQty - qty) }
      match jb with
      | none => .ok s1
      | some j =>
        let buy := tAt s1 j
        .ok (setAt s1 j { buy with remainingQty := max 0 (buy.remainingQty - qty) })

/-! Index bookkeeping.  The grouping keys (asset, side, timestamp, civil
day) are immutable fields, so index lists computed at the start of a
pass remain valid throughout it — exactly as the TS code's precomputed
`byAsset` / `buysByDay` / `sellsByDay` arrays of shared objects do. -/

/-- Ascending-timestamp ordering of state positions; `insertionSort` with
it is stable, like `Array.prototype.sort` with `(a, b) => a.ts - b.ts`. -/
def tsLE (s : State) (i j : Nat) : Prop := (tAt s i).ts ≤ (tAt s j).ts

instance (s : State) : DecidableRel (tsLE s) := fun i j =>
  inferInstanceAs (Decidable ((tAt s i).ts ≤ (tAt s j).ts))

instance (s : State) : IsTotal Nat (tsLE s) :=
  ⟨fun i j => le_total (tAt s i).ts (tAt s j).ts⟩

instance (s : State) : IsTrans Nat (tsLE s) :=
  ⟨fun _ _ _ h1 h2 => le_trans h1 h2⟩

def sortByTs (s : State) (idxs : List Nat) : List Nat :=
  List.insertionSort (tsLE s) idxs

/-- Assets in order of first appearance (the iteration order of the TS
`byAsset` insertion-ordered `Map`). -/
def assetsInOrder (s : State) : List Asset :=
  s.foldl (fun acc t => if t.asset ∈ acc then acc else acc ++ [t.asset]) []

def idxsOfAsset (s : State) (a : Asset) : List Nat :=
  (List.range s.length).filter (fun i => (tAt s i).asset = a)

/-- Civil days in order of first appearance among `idxs` (the iteration
order of the `sellsByDay` insertion-ordered `Map`). -/
def daysInOrder (dayOf : ℤ → ℤ) (s : State) (idxs : List Nat) : List ℤ :=
  idxs.foldl
    (fun acc i =>
      let d := dayOf (tAt s i).ts
      if d ∈ acc then acc else acc ++ [d]) []

/-! ### Pass 1: same-day matching (`matchSameDay`) -/

/-- The inner `for (const buy of buys)` loop for one sell. -/
def sameDayBuyLoop (s : State) (i : Nat) : List Nat → Except String State
  | [] => .ok s
  | j :: rest =>
    if (tAt s i).remainingQty ≤ 0 then .ok s
    else if (tAt s j).remainingQty ≤ 0 then sameDayBuyLoop s i rest
    else
      let qty := min (tAt s i).remainingQty (tAt s j).remainingQty
      let allowable := qty * ((tAt s j).totalCostPerUnit.getD (tAt s j).perUnitGBP)
      match applyMatchAt s i (some j) qty .SAME_DAY allowable with
      | .error e => .error e
      | .ok s' => sameDayBuyLoop s' i rest

/-- The `for (const sell of sells)` loop for one day. -/
def sameDaySellLoop (s : State) (buys : List Nat) : List Nat → Except String State
  | [] => .ok s
  | i :: rest =>
    match sameDayBuyLoop s i buys with
    | .error e => .error e
    | .ok s' => sameDaySellLoop s' buys rest

/-- The `for (const [day, sells] of sellsByDay)` loop over the
precomputed per-day buckets `(day's sells, day's buys)`. -/
def sameDayBuckets (s : State) : List (List Nat × List Nat) → Except String State
  | [] => .ok s
  | (daySells, dayBuys) :: rest =>
    match sameDaySellLoop s dayBuys daySells with
    | .error e => .error e
    | .ok s' => sameDayBuckets s' rest

def matchSameDayAsset (dayOf : ℤ → ℤ) (s : State) (a : Asset) :
    Except String State :=
  -- the per-asset array was sorted by ts in computeHmrc before the passes
  let idxs := sortByTs s (idxsOfAsset s a)
  let buys := idxs.filter (fun i => (tAt s i).side = .BUY)
  let sells := idxs.filter (fun i => (tAt s i).side = .SELL)
  let days := daysInOrder dayOf s sells
  let buckets := days.map (fun d =>
    (sortByTs s (sells.filter (fun i => dayOf (tAt s i).ts = d)),
     sortByTs s (buys.filter (fun i => dayOf (tAt s i).ts = d))))
  sameDayBuckets s buckets

def sameDayAssets (dayOf : ℤ → ℤ) (s : State) : List Asset → Except String State
  | [] => .ok s
  | a :: rest =>
    match matchSameDayAsset dayOf s a with
    | .error e => .error e
    | .ok s' => sameDayAssets dayOf s' rest

def matchSameDay (dayOf : ℤ → ℤ) (s : State) : Except String State :=
  sameDayAssets dayOf s (assetsInOrder s)

/-! ### Pass 2: 30-day matching (`matchThirtyDay`, `dayDiff`) -/

/-- The inner `for (const buy of buys)` loop for one sell. -/
def thirtyDayBuyLoop (dayOf : ℤ → ℤ) (s : State) (i : Nat) :
    List Nat → Except String State
  | [] => .ok s
  | j :: rest =>
    if (tAt s j).remainingQty ≤ 0 then thirtyDayBuyLoop dayOf s i rest
    else if (tAt s j).ts ≤ (tAt s i).ts then thirtyDayBuyLoop dayOf s i rest
    else
      -- dayDiff(sell, buy): London civil-day difference
      let diff := dayOf (tAt s j).ts - dayOf (tAt s i).ts
      if diff ≤ 0 ∨ DAY_DIFF_LIMIT < diff then thirtyDayBuyLoop dayOf s i rest
      else
        let qty := min (tAt s i).remainingQty (tAt s j).remainingQty
        let allowable := qty * ((tAt s j).totalCostPerUnit.getD (tAt s j).perUnitGBP)
        match applyMatchAt s i (some j) qty .WITHIN_30_DAYS allowable with
        | .error e => .error e
        | .ok s' =>
          if (tAt s' i).remainingQty ≤ 0 then .ok s'
          else thirtyDayBuyLoop dayOf s' i rest

def thirtyDaySellLoop (dayOf : ℤ → ℤ) (s : State) (buys : List Nat) :
    List Nat → Except String State
  | [] => .ok s
  | i :: rest =>
    if (tAt s i).remainingQty ≤ 0 then thirtyDaySellLoop dayOf s buys rest
    else
      match thirtyDayBuyLoop dayOf s i buys with
      | .error e => .error e
      | .ok s' => thirtyDaySellLoop dayOf s' buys rest

def matchThirtyDayAsset (dayOf : ℤ → ℤ) (s : State) (a : Asset) :
    Except String State :=
  let idxs := sortByTs s (idxsOfAsset s a)
  let sells := sortByTs s (idxs.filter (fun i => (tAt s i).side = .SELL))
  let buys := sortByTs s (idxs.filter (fun i => (tAt s i).side = .BUY))
  thirtyDaySellLoop dayOf s buys sells

def thirtyDayAssets (dayOf : ℤ → ℤ) (s : State) : List Asset → Except String State
  | [] => .ok s
  | a :: rest =>
    match matchThirtyDayAsset dayOf s a with
    | .error e => .error e
    | .ok s' => thirtyDayAssets dayOf s' rest

def matchThirtyDay (dayOf : ℤ → ℤ) (s : State) : Except String State :=
  thirtyDayAssets dayOf s (assetsInOrder s)

/-! ### Pass 3: Section 104 pooling, snapshots and the report -/

structure PoolState where
  totalQty : ℚ
  totalCostGBP : ℚ
deriving DecidableEq

structure SnapState where
  totalQty : ℚ
  totalCostGBP : ℚ
  avgCostGBP : ℚ
deriving DecidableEq

/-- The per-asset pool map, always populated for all three assets. -/
structure Pools where
  BTC : PoolState
  ETH : PoolState
  USDT : PoolState
deriving DecidableEq

def Pools.get (p : Pools) : Asset → PoolState
  | .BTC => p.BTC
  | .ETH => p.ETH
  | .USDT => p.USDT

def Pools.set (p : Pools) (a : Asset) (st : PoolState) : Pools :=
  match a with
  | .BTC => { p with BTC := st }
  | .ETH => { p with ETH := st }
  | .USDT => { p with USDT := st }

def initPools : Pools :=
  { BTC := ⟨0, 0⟩, ETH := ⟨0, 0⟩, USDT := ⟨0, 0⟩ }

structure Snapshots where
  BTC : SnapState
  ETH : SnapState
  USDT : SnapState
deriving DecidableEq

def Snapshots.get (p : Snapshots) : Asset → SnapState
  | .BTC => p.BTC
  | .ETH => p.ETH
  | .USDT => p.USDT

/-- `clonePoolState(map)`: the pool map always carries all three assets,
so the zero-initialised record is overwritten entrywise. -/
def clonePoolState (p : Pools) : Snapshots :=
  let snap := fun (st : PoolState) =>
    SnapState.mk st.totalQty st.totalCostGBP
      (if 0 < st.totalQty then st.totalCostGBP / st.totalQty else 0)
  { BTC := snap p.BTC, ETH := snap p.ETH, USDT := snap p.USDT }

/-- One iteration of the chronological Section 104 sweep, for the trade
at position `i` (everything except the snapshot update). -/
def sectionStep (s : State) (pools : Pools) (i : Nat) :
    Except String (State × Pools) :=
  let t := tAt s i
  let pool := pools.get t.asset
  if t.side = .BUY then
    if 0 < t.remainingQty then
      let qty := t.remainingQty
      let cost := qty * (t.totalCostPerUnit.getD t.perUnitGBP)
      .ok (setAt s i { t with remainingQty := 0 },
           pools.set t.asset
             ⟨pool.totalQty + qty, pool.totalCostGBP + cost⟩)
    else .ok (s, pools)
  else
    if 0 < t.remainingQty then
      let qty := t.remainingQty
      let availableQty := pool.totalQty
      let avgCost := if 0 < availableQty then pool.totalCostGBP / availableQty else 0
      let matched := min qty availableQty
      let step1 : Except String (State × Pools) :=
        if 0 < matched then
          let allowable := matched * avgCost
          match applyMatchAt s i none matched .SECTION_104 allowable with
          | .error e => .error e
          | .ok s' =>
            .ok (s', pools.set t.asset
              ⟨pool.totalQty - matched, pool.totalCostGBP - allowable⟩)
        else .ok (s, pools)
      match step1 with
      | .error e => .error e
      | .ok (s', pools') =>
        let remainder := (tAt s' i).remainingQty
        if poolEpsilon < remainder then
          match applyMatchAt s' i none remainder .SECTION_104 0 with
          | .error e => .error e
          | .ok s'' =>
            let t'' := tAt s'' i
            .ok (setAt s'' i
              { t'' with
                issues := t''.issues ++
                  ["Section 104 pool exhausted for portion of disposal"],
                remainingQty := 0 }, pools')
        else .ok (s', pools')
    else .ok (s, pools)

/-- The full chronological sweep including the closing-snapshot updates. -/
def sectionLoop (snapAt : Option ℤ) (s : State) (pools : Pools)
    (snap : Option Snapshots) :
    List Nat → Except String (State × Pools × Option Snapshots)
  | [] => .ok (s, pools, snap)
  | i :: rest =>
    match sectionStep s pools i with
    | .error e => .error e
    | .ok (s', pools') =>
      let snap' :=
        match snapAt with
        | some snapTime =>
          if (tAt s' i).ts ≤ snapTime then some (clonePoolState pools') else snap
        | none => snap
      sectionLoop snapAt s' pools' snap' rest

/-! ### Report construction -/

structure Totals where
  BTC : ℚ
  ETH : ℚ
  USDT : ℚ
deriving DecidableEq

def Totals.get (t : Totals) : Asset → ℚ
  | .BTC => t.BTC
  | .ETH => t.ETH
  | .USDT => t.USDT

def Totals.add (t : Totals) (a : Asset) (g : ℚ) : Totals :=
  match a with
  | .BTC => { t with BTC := t.BTC + g }
  | .ETH => { t with ETH := t.ETH + g }
  | .USDT => { t with USDT := t.USDT + g }

structure HmrcOptions where
  windowStart : Option ℤ := none
  windowEnd : Option ℤ := none
  poolSnapshotAt : Option ℤ := none
deriving DecidableEq

structure HmrcComputation where
  disposals : List DisposalReport
  matchLines : List FlatMatchLine
  pools : Snapshots
  overallGainGBP : ℚ
  byAsset : Totals
  issues : List String
deriving DecidableEq

/-- `trade.matches.reduce((acc, m) => acc + m.gainGBP, 0)`. -/
def matchedGainSum (ms : List MatchLine) : ℚ :=
  ms.foldl (fun acc m => acc + m.gainGBP) 0

/-- `trade.ts >= windowStart && trade.ts <= windowEnd` with the absent
bounds defaulting to `-Infinity` / `Infinity`. -/
def inWindow (opts : HmrcOptions) (ts : ℤ) : Bool :=
  (match opts.windowStart with | none => true | some w => decide (w ≤ ts)) &&
  (match opts.windowEnd with | none => true | some w => decide (ts ≤ w))

def buildDisposalReport (t : ETrade) : DisposalReport :=
  { sellRef := t.id, ts := t.ts, asset := t.asset, quantity := t.quantity,
    grossProceedsGBP := t.grossProceedsGBP.getD 0,
    disposalFeesGBP := t.disposalFeesGBP.getD 0,
    netProceedsGBP := t.netProceedsGBP.getD 0,
    matches' := t.matches',
    totalGainGBP := matchedGainSum t.matches',
    issues := if t.issues = [] then none else some t.issues }

/-- The final `for (const trade of enrichedTrades)` reporting loop. -/
def reportLoop (opts : HmrcOptions) (disposals : List DisposalReport)
    (matchLines : List FlatMatchLine) (totalsByAsset : Totals)
    (issues : List String) :
    State → List DisposalReport × List FlatMatchLine × Totals × List String
  | [] => (disposals, matchLines, totalsByAsset, issues)
  | t :: rest =>
    if t.side = .SELL then
      let report := buildDisposalReport t
      let issues' :=
        if t.issues = [] then issues
        else issues ++ t.issues.map (fun text => t.id ++ ": " ++ text)
      if inWindow opts t.ts then
        reportLoop opts (disposals ++ [report])
          (matchLines ++ t.matches'.map (fun m =>
            { toMatchLine := m, sellRef := t.id, asset := t.asset, ts := t.ts }))
          (totalsByAsset.add t.asset report.totalGainGBP) issues' rest
      else
        reportLoop opts disposals matchLines totalsByAsset issues' rest
    else
      reportLoop opts disposals matchLines totalsByAsset issues rest

/-- `computeHmrc(trades, options)`. -/
def computeHmrc (dayOf : ℤ → ℤ) (trades : List Trade) (opts : HmrcOptions) :
    Except String HmrcComputation :=
  match enrichAll trades with
  | .error e => .error e
  | .ok s0 =>
    match matchSameDay dayOf s0 with
    | .error e => .error e
    | .ok s1 =>
      match matchThirtyDay dayOf s1 with
      | .error e => .error e
      | .ok s2 =>
        -- `[...enrichedTrades].sort((a, b) => a.ts - b.ts)`
        let chron := sortByTs s2 (List.range s2.length)
        match sectionLoop opts.poolSnapshotAt s2 initPools none chron with
        | .error e => .error e
        | .ok (s3, pools, snap) =>
          let closing :=
            match snap with
            | some c => c
            | none => clonePoolState pools
          match reportLoop opts [] [] ⟨0, 0, 0⟩ [] s3 with
          | (disposals, matchLines, totalsByAsset, issues) =>
            .ok { disposals := disposals, matchLines := matchLines,
                  pools := closing,
                  overallGainGBP :=
                    totalsByAsset.BTC + totalsByAsset.ETH + totalsByAsset.USDT,
                  byAsset := totalsByAsset, issues := issues }

/-! ## Ledger storage engine (`TradeLedger`, worker/src/index.ts)

The Durable Object storage is an ordered key-value map.  It is modelled
as an association list kept in ascending key order (well-formedness
`StoreWF`); keys are compared in code-unit order (`keyLt`), as the
platform orders them — the embedded keys are all ASCII.  Per spec §4.1,
`list({prefix, reverse: true, startAfter, limit})` resumes the
descending scan strictly after `startAfter` in iteration order. -/

/-- Code-unit (codepoint) lexicographic strict order on strings. -/
def clLt : List Char → List Char → Bool
  | [], [] => false
  | [], _ :: _ => true
  | _ :: _, [] => false
  | a :: as, b :: bs =>
    if a < b then true else if b < a then false else clLt as bs

def keyLt (a b : String) : Bool := clLt a.data b.data

/-- `p` is a prefix of `s` (`String.prototype.startsWith`). -/
def strStartsWith (s p : String) : Bool := p.data.isPrefixOf s.data

inductive StoreVal
  | trade (t : Trade)
  | marker
deriving DecidableEq

abbrev Store := List (String × StoreVal)

/-- A store is well-formed when its keys are strictly ascending (hence
unique), as in the platform's ordered map. -/
def StoreWF (st : Store) : Prop :=
  List.Pairwise (fun e1 e2 => keyLt e1.1 e2.1 = true) st

instance (st : Store) : Decidable (StoreWF st) :=
  inferInstanceAs (Decidable (List.Pairwise _ st))

def storGet : Store → String → Option StoreVal
  | [], _ => none
  | (k', v) :: rest, k => if k' = k then some v else storGet rest k

/-- Point write: replace the value at `k`, or insert it in key order. -/
def storPut : Store → String → StoreVal → Store
  | [], k, v => [(k, v)]
  | (k', v') :: rest, k, v =>
    if keyLt k k' then (k, v) :: (k', v') :: rest
    else if k = k' then (k, v) :: rest
    else (k', v') :: storPut rest k v

def storDelete (st : Store) (k : String) : Store :=
  st.filter (fun e => decide (¬e.1 = k))

/-- `list` with `reverse: true`: the matching keys strictly below
`startAfter` (when given), in descending key order, limited to `lim`. -/
def storageListDesc (st : Store) (pfx : String) (startAfter : Option String)
    (lim : Nat) : List (String × StoreVal) :=
  ((st.filter (fun e =>
    strStartsWith e.1 pfx &&
      match startAfter with
      | none => true
      | some sa => keyLt e.1 sa)).reverse).take lim

/-- `list` in ascending order: matching keys strictly above `startAfter`. -/
def storageListAsc (st : Store) (pfx : String) (startAfter : Option String)
    (lim : Nat) : List (String × StoreVal) :=
  (st.filter (fun e =>
    strStartsWith e.1 pfx &&
      match startAfter with
      | none => true
      | some sa => keyLt sa e.1)).take lim

/-! ### Keys -/

def assetStr : Asset → String
  | .BTC => "BTC"
  | .ETH => "ETH"
  | .USDT => "USDT"

def sideStr : Side → String
  | .BUY => "BUY"
  | .SELL => "SELL"

def digitChar : Nat → Char
  | 0 => '0'
  | 1 => '1'
  | 2 => '2'
  | 3 => '3'
  | 4 => '4'
  | 5 => '5'
  | 6 => '6'
  | 7 => '7'
  | 8 => '8'
  | _ => '9'

def natDigitsAux : Nat → Nat → List Char
  | 0, _ => []
  | fuel + 1, n =>
    if n < 10 then [digitChar n]
    else natDigitsAux fuel (n / 10) ++ [digitChar (n % 10)]

/-- Decimal rendering of an integer (`Number.prototype.toString`). -/
def intToString (i : ℤ) : String :=
  if i < 0 then "-" ++ String.mk (natDigitsAux ((-i).toNat + 1) (-i).toNat)
  else String.mk (natDigitsAux (i.toNat + 1) i.toNat)

/-- `String.prototype.padStart(len, c)`. -/
def padStart (s : String) (len : Nat) (c : Char) : String :=
  String.mk (List.replicate (len - s.data.length) c) ++ s

/-- `padTs(ts)`: `ts.toString().padStart(13, '0')`. -/
def padTs (ts : ℤ) : String := padStart (intToString ts) 13 '0'

/-- `computeTaxYearLabel(trade)`.  The London civil year/month of a
timestamp comes from the luxon collaborator, passed in as
`lYM : ts → (year, month)`; JS `%` is truncated remainder (`Int.tmod`). -/
def computeTaxYearLabel (lYM : ℤ → ℤ × ℤ) (ts : ℤ) : String :=
  let y := (lYM ts).1
  let m := (lYM ts).2
  let year := if 4 ≤ m then y else y - 1
  intToString year ++ "-" ++ padStart (intToString (Int.tmod (year + 1) 100)) 2 '0'

def tradeKey (id : String) : String := "trade:" ++ id

def byAssetKey (t : Trade) : String :=
  "by-asset:" ++ assetStr t.asset ++ ":" ++ padTs t.ts ++ ":" ++ t.id

def byTaxyearKey (lYM : ℤ → ℤ × ℤ) (t : Trade) : String :=
  "by-taxyear:" ++ computeTaxYearLabel lYM t.ts ++ ":" ++ padTs t.ts ++ ":" ++ t.id

/-- `lastKey.replace('trade:', '')`: on the reachable inputs (keys with
the `trade:` prefix) this strips the prefix. -/
def stripTradePfx (k : String) : String :=
  if strStartsWith k "trade:" then String.mk (k.data.drop 6) else k

/-! ### Ledger operations -/

/-- `deleteTrade(id)`: silently succeeds when the id is absent; throws
`"Trade locked"` on a locked trade; otherwise removes the primary record
and both index entries.  (Keys under the `trade:` prefix always hold
trade values; a marker there is unreachable and treated as absent.) -/
def deleteTrade (lYM : ℤ → ℤ × ℤ) (st : Store) (id : String) :
    Except String Store :=
  match storGet st (tradeKey id) with
  | some (.trade t) =>
    if t.locked then .error "Trade locked"
    else
      .ok (storDelete (storDelete (storDelete st (tradeKey id))
            (byAssetKey t)) (byTaxyearKey lYM t))
  | _ => .ok st

/-- `putTrade(trade, previous?)`. -/
def putTrade (lYM : ℤ → ℤ × ℤ) (st : Store) (t : Trade)
    (previous : Option Trade) : Except String Store :=
  if t.id = "" then .error "Trade id missing"
  else
    let cleaned : Except String Store :=
      match previous with
      | some p => if p.id ≠ t.id then deleteTrade lYM st p.id else .ok st
      | none => .ok st
    match cleaned with
    | .error e => .error e
    | .ok st1 =>
      .ok (storPut (storPut (storPut st1 (tradeKey t.id) (.trade t))
            (byAssetKey t) .marker) (byTaxyearKey lYM t) .marker)

/-- The list filters (asset and side travel as raw query strings). -/
structure Filters where
  asset : Option String := none
  side : Option String := none
  -- `from` / `to` in the source; `from` is reserved in Lean
  fromTs : Option ℤ := none
  toTs : Option ℤ := none
deriving DecidableEq

/-- `matchesFilters(trade, filters)` with JS truthiness: an empty-string
asset/side filter and a zero time bound are inactive. -/
def matchesFilters (tr : Trade) (f : Filters) : Bool :=
  (match f.asset with
   | none => true
   | some a => !((a != "") && (assetStr tr.asset != a))) &&
  (match f.side with
   | none => true
   | some sd => !((sd != "") && (sideStr tr.side != sd))) &&
  (match f.fromTs with
   | none => true
   | some v => !((v != 0) && decide (tr.ts < v))) &&
  (match f.toTs with
   | none => true
   | some v => !((v != 0) && decide (v < tr.ts)))

/-- The `for (const [key, trade] of page)` body of `listTrades`: pushes
matching rows until `limit` is reached, tracking the last visited key
(which the loop also uses as the next `startAfter`). -/
def procPage (f : Filters) (limit : ℤ) :
    List (String × StoreVal) → List Trade → Option String →
    List Trade × Option String
  | [], acc, lk => (acc, lk)
  | (k, v) :: rest, acc, _ =>
    match v with
    | .trade tr =>
      if matchesFilters tr f then
        let acc' := acc ++ [tr]
        if (acc'.length : ℤ) = limit then (acc', some k)
        else procPage f limit rest acc' (some k)
      else procPage f limit rest acc (some k)
    | .marker => procPage f limit rest acc (some k)

/-- The `while (result.length < limit)` loop of `listTrades`; the fuel
`st.length + 1` suffices because every continuing iteration consumes a
full page of distinct keys. -/
def listLoop (st : Store) (f : Filters) (limit : ℤ) (pageSize : Nat) :
    Nat → Option String → List Trade → Option String →
    List Trade × Option String
  | 0, _, acc, lk => (acc, lk)
  | fuel + 1, startAfter, acc, lk =>
    if (acc.length : ℤ) < limit then
      let page := storageListDesc st "trade:" startAfter pageSize
      if page.length = 0 then (acc, lk)
      else
        match procPage f limit page acc lk with
        | (acc', lk') =>
          if page.length < pageSize then (acc', lk')
          else listLoop st f limit pageSize fuel lk' acc' lk'
    else (acc, lk)

/-- `listTrades(filters, limit, cursor)`. -/
def listTrades (st : Store) (f : Filters) (limit : ℤ) (cursor : Option String) :
    List Trade × Option String :=
  let startAfter := cursor.map (fun c => "trade:" ++ c)
  let pageSize := (limit * 3).toNat
  match listLoop st f limit pageSize (st.length + 1) startAfter [] none with
  | (result, lastKey) =>
    let nextCursor :=
      if (result.length : ℤ) = limit then
        match lastKey with
        | some k => some (stripTradePfx k)
        | none => none
      else none
    (result, nextCursor)

/-- Stable ascending-timestamp sort of trades
(`trades.sort((a, b) => a.ts - b.ts)`). -/
def tradeTsLE (a b : Trade) : Prop := a.ts ≤ b.ts

instance : DecidableRel tradeTsLE := fun a b =>
  inferInstanceAs (Decidable (a.ts ≤ b.ts))

instance : IsTotal Trade tradeTsLE := ⟨fun a b => le_total a.ts b.ts⟩

instance : IsTrans Trade tradeTsLE := ⟨fun _ _ _ h1 h2 => le_trans h1 h2⟩

/-- The `while (true)` loop of `loadAllTrades` (pages of 256, ascending). -/
def loadLoop (st : Store) : Nat → Option String → List Trade → List Trade
  | 0, _, acc => acc
  | fuel + 1, cursor, acc =>
    let page := storageListAsc st "trade:" cursor 256
    if page.length = 0 then acc
    else
      let acc' := acc ++ page.filterMap (fun e =>
        match e.2 with
        | .trade tr => some tr
        | .marker => none)
      let cursor' := (page.getLast?).map (fun e => e.1)
      if page.length < 256 then acc'
      else loadLoop st fuel cursor' acc'

/-- `loadAllTrades()`. -/
def loadAllTrades (st : Store) : List Trade :=
  List.insertionSort tradeTsLE (loadLoop st (st.length + 1) none [])

structure TradeListResponse where
  count : Nat
  trades : List Trade
  nextCursor : Option String
deriving DecidableEq

/-- `handleList(url)`: the effective limit is
`Math.min(Number(limit ?? '100'), 500)` (the limit parameter is modelled
as an already-parsed integer). -/
def handleList (st : Store) (limitParam : Option ℤ) (cursor : Option String)
    (f : Filters) : TradeListResponse :=
  let limit := min (limitParam.getD 100) 500
  match listTrades st f limit cursor with
  | (trades, nextCursor) =>
    { count := trades.length, trades := trades, nextCursor := nextCursor }

/-- `computeWindow(from, to)` up to the `HmrcComputation` it derives its
response from (the response is a field-by-field projection plus a label
computed from `from` alone). -/
def computeWindow (dayOf : ℤ → ℤ) (st : Store) (fromTs toTs : ℤ) :
    Except String HmrcComputation :=
  let allTrades := loadAllTrades st
  let trades := allTrades.filter (fun t =>
    decide (fromTs - 30 * 24 * 60 * 60 * 1000 ≤ t.ts) &&
    decide (t.ts ≤ toTs + 30 * 24 * 60 * 60 * 1000))
  computeHmrc dayOf trades
    { windowStart := some fromTs, windowEnd := some toTs,
      poolSnapshotAt := some toTs }

/-! ## Concrete instances for evaluation

Concrete instantiations of the external collaborators (used when
evaluating the verified statements on concrete inputs), and concrete
fixture data. -/

/-- A concrete civil-day function: UTC days (Europe/London coincides with
UTC outside daylight-saving time). -/
def dayOfUTC : ℤ → ℤ := fun ts => ts / 86400000

/-- A concrete London year/month decomposition (constant: June 2024). -/
def lYMconst : ℤ → ℤ × ℤ := fun _ => (2024, 6)

/-- A concrete FX provider quoting GBP→ZAR = 20 for every date. -/
def provConst : String → Option ℚ := fun _ => some 20

/-- A concrete date-key function. -/
def dateKeyConst : ℤ → String := fun _ => "2024-06-01"

/-- The sum of matched quantities of a list of match lines. -/
def matchedQtySum (ms : List MatchLine) : ℚ :=
  (ms.map (fun m => m.matchedQty)).sum

/-- Fixture: an already-resolved sell of 5 BTC with no acquisitions. -/
def sellFive : Trade :=
  { id := "s1", ts := 0, asset := .BTC, side := .SELL, quantity := 5,
    derived := some { perUnitGBP := 100, gbpProceedsOrCost := 500,
                      feeGBP := none, fxSource := some .NONE } }

/-- Fixture: an already-resolved buy of 1 BTC at timestamp 100. -/
def buyOne : Trade :=
  { id := "b1", ts := 100, asset := .BTC, side := .BUY, quantity := 1,
    derived := some { perUnitGBP := 500, gbpProceedsOrCost := 500,
                      feeGBP := none, fxSource := some .NONE } }

/-- Fixture: a ZAR-priced trade without an FX rate. -/
def zarOnlyTrade : Trade :=
  { id := "z1", ts := 0, asset := .ETH, side := .BUY, quantity := 2,
    priceZAR := some 100 }

/-- Fixture: a GBP-priced trade with a ZAR-denominated fee and no FX rate. -/
def gbpZarFeeTrade : Trade :=
  { id := "g1", ts := 0, asset := .BTC, side := .BUY, quantity := 1,
    priceGBP := some 100, fee := some ⟨50, .ZAR⟩ }

def tradeA1 : Trade := { id := "a", ts := 1, asset := .BTC, side := .BUY, quantity := 1 }

def tradeA2 : Trade := { id := "a", ts := 2, asset := .BTC, side := .BUY, quantity := 1 }

/-- Fixture: the store holding exactly `tradeA1` with its two index
entries (the store `putTrade` produces from an empty store). -/
def storeA1 : Store :=
  [("by-asset:BTC:0000000000001:a", .marker),
   ("by-taxyear:2024-25:0000000000001:a", .marker),
   ("trade:a", .trade tradeA1)]

/-- Fixture: a store holding one locked trade. -/
def storeLocked : Store :=
  [("trade:a", .trade { tradeA1 with locked := true })]

/-- Fixture: the primary record of `tradeA1` with no index entries. -/
def storeTradeOnly : Store := [("trade:a", .trade tradeA1)]

def tradeC (i : Nat) : Trade :=
  { id := "c" ++ String.mk [digitChar i], ts := (i : ℤ), asset := .BTC,
    side := .BUY, quantity := 1 }

/-- Fixture: a store of five trades `c0 … c4` (primary records only). -/
def storeFive : Store :=
  [("trade:c0", .trade (tradeC 0)), ("trade:c1", .trade (tradeC 1)),
   ("trade:c2", .trade (tradeC 2)), ("trade:c3", .trade (tradeC 3)),
   ("trade:c4", .trade (tradeC 4))]

/-! ## Invariants and specification-side definitions -/

/-- The fields of an enriched trade that the matching passes never
write (everything except `remainingQty`, `matches`, `issues`). -/
structure CoreFields where
  id : String
  ts : ℤ
  asset : Asset
  side : Side
  quantity : ℚ
  perUnitGBP : ℚ
  netProceedsPerUnit : Option ℚ
  grossProceedsGBP : Option ℚ
  netProceedsGBP : Option ℚ
  disposalFeesGBP : Option ℚ
  totalCostPerUnit : Option ℚ
  acquisitionCostGBP : Option ℚ
deriving DecidableEq

def coreOf (t : ETrade) : CoreFields :=
  ⟨t.id, t.ts, t.asset, t.side, t.quantity, t.perUnitGBP,
   t.netProceedsPerUnit, t.grossProceedsGBP, t.netProceedsGBP,
   t.disposalFeesGBP, t.totalCostPerUnit, t.acquisitionCostGBP⟩

/-- Two states of equal length whose immutable fields agree position by
position. -/
def SameCore (s s' : State) : Prop :=
  s'.length = s.length ∧ ∀ k, coreOf (tAt s' k) = coreOf (tAt s k)

/-- Per-trade accounting invariant: for a sell, the matched quantities
and the remaining quantity always add up to the original quantity, and
no remaining quantity is ever negative. -/
def Accounted (t : ETrade) : Prop :=
  (t.side = .SELL → matchedQtySum t.matches' + t.remainingQty = t.quantity) ∧
  0 ≤ t.remainingQty

def StateOK (s : State) : Prop := ∀ t ∈ s, Accounted t

/-- Every position's Section 104 per-unit acquisition cost
(`totalCostPerUnit ?? perUnitGBP`) is non-negative. -/
def CostOK (s : State) : Prop :=
  ∀ k, 0 ≤ (tAt s k).totalCostPerUnit.getD (tAt s k).perUnitGBP

def PoolsOK (p : Pools) : Prop :=
  ∀ a, 0 ≤ (p.get a).totalQty ∧ 0 ≤ (p.get a).totalCostGBP

def SnapOK (sn : Snapshots) : Prop :=
  ∀ a, 0 ≤ (sn.get a).totalQty ∧ 0 ≤ (sn.get a).totalCostGBP ∧
    0 ≤ (sn.get a).avgCostGBP

def IssuesEmpty (s : State) : Prop := ∀ k, (tAt s k).issues = []

/-- Post-Section-104 state of a disposal: its remaining quantity is at
most the epsilon threshold, and when a pool-exhaustion issue was
recorded the remainder was fully matched (at zero allowable cost) and
zeroed. -/
def SellSettled (t : ETrade) : Prop :=
  t.side = .SELL →
    t.remainingQty ≤ poolEpsilon ∧
    (t.issues ≠ [] → t.remainingQty = 0 ∧
      ∃ m ∈ t.matches', m.rule = .SECTION_104 ∧ m.allowableCostGBP = 0)

/-- The valuation-input sanity bounds under which the pool can never go
negative: non-negative quantity and non-negative derived values. -/
def WellValued (t : Trade) : Prop :=
  0 ≤ t.quantity ∧ ∀ d, t.derived = some d →
    0 ≤ d.perUnitGBP ∧ 0 ≤ d.gbpProceedsOrCost ∧ 0 ≤ d.feeGBP.getD 0

/-- Relation between a pass's input and output state: the accounting
invariant holds, immutable fields are untouched and no issues were
added. -/
def Evolves (s s' : State) : Prop :=
  StateOK s' ∧ SameCore s s' ∧ ∀ k, (tAt s' k).issues = (tAt s k).issues

/-- Any trade carrying an issue has been fully zeroed and carries a
zero-cost SECTION_104 line for the exhausted remainder. -/
def IssuesOK (s : State) : Prop :=
  ∀ k, (tAt s k).issues ≠ [] →
    (tAt s k).remainingQty = 0 ∧
    ∃ m ∈ (tAt s k).matches', m.rule = .SECTION_104 ∧ m.allowableCostGBP = 0

/-- What each match line appended by the 30-day pass satisfies, paired
with the position `j` of the matched buy: the line carries the
WITHIN_30_DAYS rule and the buy's id, the buy's timestamp is strictly
after the sell's, the civil-day difference is in [1, 30], and the
positive matched quantity is bounded by the buy's remaining quantity at
the start of the pass. -/
def ThirtyLines (dayOf : ℤ → ℤ) (s : State) (k : Nat)
    (L : List MatchLine) (js : List Nat) : Prop :=
  List.Forall₂ (fun (m : MatchLine) (j : Nat) =>
    m.rule = .WITHIN_30_DAYS ∧
    m.buyRef = some (tAt s j).id ∧
    (tAt s j).side = .BUY ∧
    (tAt s k).ts < (tAt s j).ts ∧
    0 < dayOf (tAt s j).ts - dayOf (tAt s k).ts ∧
    dayOf (tAt s j).ts - dayOf (tAt s k).ts ≤ DAY_DIFF_LIMIT ∧
    0 < m.matchedQty ∧
    m.matchedQty ≤ (tAt s j).remainingQty) L js

/-- The primary (`trade:`-prefixed) entries of a store. -/
def tradeEntriesOf (st : Store) : List (String × StoreVal) :=
  st.filter (fun e => strStartsWith e.1 "trade:")

/-- The region a reverse listing walks: the primary entries strictly
below `startAfter`, in descending key order. -/
def descRegion (st : Store) (startAfter : Option String) :
    List (String × StoreVal) :=
  (st.filter (fun e =>
    strStartsWith e.1 "trade:" &&
      match startAfter with
      | none => true
      | some sa => keyLt e.1 sa)).reverse

/-- Strictly descending key order (the shape of `descRegion` of a
well-formed store). -/
def DescWF (R : List (String × StoreVal)) : Prop :=
  R.Pairwise (fun e1 e2 => keyLt e2.1 e1.1 = true)

/-- The keyed matching rows of a region under the list filters. -/
def matchEntries (f : Filters) (R : List (String × StoreVal)) :
    List (String × Trade) :=
  R.filterMap (fun e =>
    match e.2 with
    | .trade tr => if matchesFilters tr f then some (e.1, tr) else none
    | .marker => none)

/-- The listing loop replayed over an explicit region list: identical
step structure to `listLoop`, but each page is taken from the front of
the remaining region instead of re-querying storage. -/
def loopSpec (f : Filters) (limit : ℤ) (pageSize : Nat) :
    Nat → List (String × StoreVal) → List Trade → Option String →
    List Trade × Option String
  | 0, _, acc, lk => (acc, lk)
  | fuel + 1, r, acc, lk =>
    if (acc.length : ℤ) < limit then
      let page := r.take pageSize
      if page.length = 0 then (acc, lk)
      else
        match procPage f limit page acc lk with
        | (acc', lk') =>
          if page.length < pageSize then (acc', lk')
          else loopSpec f limit pageSize fuel (r.drop pageSize) acc' lk'
    else (acc, lk)

/-- The region the ascending `loadAllTrades` scan walks. -/
def ascRegion (st : Store) (startAfter : Option String) :
    List (String × StoreVal) :=
  st.filter (fun e =>
    strStartsWith e.1 "trade:" &&
      match startAfter with
      | none => true
      | some sa => keyLt sa e.1)

/-- Strictly ascending key order. -/
def AscWF (R : List (String × StoreVal)) : Prop :=
  R.Pairwise (fun e1 e2 => keyLt e1.1 e2.1 = true)

/-- The trade values of a list of entries. -/
def tradesOfEntries (R : List (String × StoreVal)) : List Trade :=
  R.filterMap (fun e =>
    match e.2 with
    | .trade tr => some tr
    | .marker => none)

/-- Fixture: an enriched 2-BTC sell at timestamp 0. -/
def eSell : ETrade :=
  { id := "es", ts := 0, asset := .BTC, side := .SELL, quantity := 2,
    remainingQty := 2, perUnitGBP := 100, netProceedsPerUnit := some 100,
    grossProceedsGBP := some 200, netProceedsGBP := some 200,
    disposalFeesGBP := some 0, totalCostPerUnit := none,
    acquisitionCostGBP := none, matches' := [], issues := [] }

/-- Fixture: an enriched 1-BTC buy five days (432000000 ms) later. -/
def eBuy : ETrade :=
  { id := "eb", ts := 432000000, asset := .BTC, side := .BUY, quantity := 1,
    remainingQty := 1, perUnitGBP := 90, netProceedsPerUnit := none,
    grossProceedsGBP := none, netProceedsGBP := none,
    disposalFeesGBP := none, totalCostPerUnit := some 90,
    acquisitionCostGBP := some 90, matches' := [], issues := [] }

def thirtyState : State := [eSell, eBuy]

/-- The state `matchThirtyDay dayOfUTC thirtyState` produces: one unit
matched WITHIN_30_DAYS at 90 GBP allowable cost against 100 GBP
proceeds. -/
def thirtyResult : State :=
  [{ eSell with
       matches' := [⟨.WITHIN_30_DAYS, some "eb", 1, 100, 90, 10⟩],
       remainingQty := 1 },
   { eBuy with remainingQty := 0 }]

/-- The computation `computeHmrc dayOfUTC [buyOne] {}` produces: a single
never-disposed acquisition, so no disposals and a closing BTC pool of one
unit at 500 GBP. -/
def buyOneComputation : HmrcComputation :=
  { disposals := [], matchLines := [],
    pools := { BTC := ⟨1, 500, 500⟩, ETH := ⟨0, 0, 0⟩, USDT := ⟨0, 0, 0⟩ },
    overallGainGBP := 0, byAsset := ⟨0, 0, 0⟩, issues := [] }

/-! ## Theorems -/

/-! ### State-manipulation basics -/

theorem setAt_length (s : State) (i : Nat) (x : ETrade) :
    (setAt s i x).length = s.length := List.length_set s i x

theorem tAt_setAt_self (s : State) (i : Nat) (x : ETrade)
    (h : i < s.length) : tAt (setAt s i x) i = x := by
  simp [tAt, setAt, List.getD, List.getElem?_set_self, h]

theorem tAt_setAt_ne (s : State) (i k : Nat) (x : ETrade)
    (h : k ≠ i) : tAt (setAt s i x) k = tAt s k := by
  simp [tAt, setAt, List.getD, List.getElem?_set_ne (fun hh => h hh.symm)]

theorem setAt_oob (s : State) (i : Nat) (x : ETrade)
    (h : s.length ≤ i) : setAt s i x = s :=
  List.set_eq_of_length_le h

theorem tAt_oob (s : State) (i : Nat) (h : s.length ≤ i) :
    tAt s i = default := by
  simp [tAt, List.getD, List.getElem?_eq_none h]

theorem tAt_mem (s : State) (i : Nat) (h : i < s.length) :
    tAt s i ∈ s := by
  simp only [tAt, List.getD, List.get?_eq_getElem?,
    List.getElem?_eq_getElem h, Option.getD_some]
  exact List.getElem_mem h

theorem matchedQtySum_append (ms : List MatchLine) (m : MatchLine) :
    matchedQtySum (ms ++ [m]) = matchedQtySum ms + m.matchedQty := by
  simp [matchedQtySum]

theorem sameCore_refl (s : State) : SameCore s s := ⟨rfl, fun _ => rfl⟩

theorem sameCore_trans {s1 s2 s3 : State} (h1 : SameCore s1 s2)
    (h2 : SameCore s2 s3) : SameCore s1 s3 :=
  ⟨h2.1.trans h1.1, fun k => (h2.2 k).trans (h1.2 k)⟩

theorem accounted_default : Accounted (default : ETrade) := by
  constructor
  · intro hside
    exact absurd hside (by decide)
  · exact le_refl 0

theorem stateOK_iff (s : State) :
    StateOK s ↔ ∀ k, Accounted (tAt s k) := by
  constructor
  · intro h k
    by_cases hk : k < s.length
    · exact h _ (tAt_mem s k hk)
    · rw [tAt_oob s k (le_of_not_lt hk)]
      exact accounted_default
  · intro h t ht
    obtain ⟨n, hn, hget⟩ := List.getElem_of_mem ht
    have : tAt s n = t := by
      simp only [tAt, List.getD, List.get?_eq_getElem?,
        List.getElem?_eq_getElem hn, Option.getD_some]
      exact hget
    rw [← this]
    exact h n

/-! ### `applyMatch` -/

theorem applyMatchAt_nonpos (s : State) (i : Nat) (jb : Option Nat)
    (qty : ℚ) (rule : MatchRule) (allow : ℚ) (h : qty ≤ 0) :
    applyMatchAt s i jb qty rule allow = .ok s := by
  simp [applyMatchAt, h]

/-- Full characterization of a successful positive-quantity
`applyMatch`. -/
theorem applyMatchAt_ok (s s' : State) (i : Nat) (jb : Option Nat)
    (qty : ℚ) (rule : MatchRule) (allow : ℚ)
    (hq : 0 < qty) (hji : jb ≠ some i)
    (h : applyMatchAt s i jb qty rule allow = .ok s') :
    i < s.length ∧ s'.length = s.length ∧
    (tAt s' i).matches' = (tAt s i).matches' ++
      [⟨rule, jb.map (fun j => (tAt s j).id), qty,
        (tAt s i).netProceedsPerUnit.getD 0 * qty, allow,
        (tAt s i).netProceedsPerUnit.getD 0 * qty - allow⟩] ∧
    (tAt s' i).remainingQty = max 0 ((tAt s i).remainingQty - qty) ∧
    (tAt s' i).issues = (tAt s i).issues ∧
    coreOf (tAt s' i) = coreOf (tAt s i) ∧
    (∀ j, jb = some j →
      (tAt s' j).remainingQty = max 0 ((tAt s j).remainingQty - qty) ∧
      (tAt s' j).matches' = (tAt s j).matches' ∧
      (tAt s' j).issues = (tAt s j).issues ∧
      coreOf (tAt s' j) = coreOf (tAt s j)) ∧
    (∀ k, k ≠ i → jb ≠ some k → tAt s' k = tAt s k) := by
  rw [applyMatchAt] at h
  rw [if_neg (not_le.mpr hq)] at h
  by_cases hnp : truthyQ (tAt s i).netProceedsPerUnit = false
  · rw [if_pos hnp] at h
    exact absurd h (by simp)
  · rw [if_neg hnp] at h
    have hi : i < s.length := by
      by_contra hge
      rw [tAt_oob s i (le_of_not_lt hge)] at hnp
      exact hnp rfl
    cases jb with
    | none =>
      simp only [Except.ok.injEq] at h
      subst h
      refine ⟨hi, setAt_length _ _ _, ?_, ?_, ?_, ?_, ?_, ?_⟩
      · rw [tAt_setAt_self _ _ _ hi]
      · rw [tAt_setAt_self _ _ _ hi]
      · rw [tAt_setAt_self _ _ _ hi]
      · rw [tAt_setAt_self _ _ _ hi]
        rfl
      · intro j hj
        exact absurd hj (by simp)
      · intro k hk _
        rw [tAt_setAt_ne _ _ _ _ hk]
    | some j =>
      have hjine : j ≠ i := fun hh => hji (by rw [hh])
      simp only [Except.ok.injEq] at h
      subst h
      by_cases hjlt : j < s.length
      · refine ⟨hi, by rw [setAt_length, setAt_length], ?_, ?_, ?_, ?_, ?_, ?_⟩
        · rw [tAt_setAt_ne _ _ _ _ (Ne.symm hjine), tAt_setAt_self _ _ _ hi]
        · rw [tAt_setAt_ne _ _ _ _ (Ne.symm hjine), tAt_setAt_self _ _ _ hi]
        · rw [tAt_setAt_ne _ _ _ _ (Ne.symm hjine), tAt_setAt_self _ _ _ hi]
        · rw [tAt_setAt_ne _ _ _ _ (Ne.symm hjine), tAt_setAt_self _ _ _ hi]
          rfl
        · intro j2 hj2
          cases Option.some.inj hj2
          rw [tAt_setAt_self _ _ _ (by rw [setAt_length]; exact hjlt),
            tAt_setAt_ne _ _ _ _ hjine]
          exact ⟨rfl, rfl, rfl, rfl⟩
        · intro k hk hkj
          have hkj' : k ≠ j := fun hh => hkj (by rw [hh])
          rw [tAt_setAt_ne _ _ _ _ hkj', tAt_setAt_ne _ _ _ _ hk]
      · rw [setAt_oob _ _ _ (by rw [setAt_length]; exact le_of_not_lt hjlt)]
        refine ⟨hi, setAt_length _ _ _, ?_, ?_, ?_, ?_, ?_, ?_⟩
        · rw [tAt_setAt_self _ _ _ hi]
        · rw [tAt_setAt_self _ _ _ hi]
        · rw [tAt_setAt_self _ _ _ hi]
        · rw [tAt_setAt_self _ _ _ hi]
          rfl
        · intro j2 hj2
          cases Option.some.inj hj2
          rw [tAt_setAt_ne _ _ _ _ hjine,
            tAt_oob _ _ (le_of_not_lt hjlt)]
          refine ⟨?_, rfl, rfl, rfl⟩
          show (default : ETrade).remainingQty = max 0 ((default : ETrade).remainingQty - qty)
          show (0 : ℚ) = max 0 (0 - qty)
          rw [zero_sub, max_eq_left (neg_nonpos.mpr (le_of_lt hq))]
        · intro k hk _
          rw [tAt_setAt_ne _ _ _ _ hk]

/-- `applyMatch` preserves the accounting invariant, the immutable
fields and the issues, provided the matched quantity does not exceed
the sell's remaining quantity and the optional buy is a buy. -/
theorem applyMatchAt_inv (s s' : State) (i : Nat) (jb : Option Nat)
    (qty : ℚ) (rule : MatchRule) (allow : ℚ)
    (h : applyMatchAt s i jb qty rule allow = .ok s')
    (hqle : qty ≤ (tAt s i).remainingQty)
    (hbuy : ∀ j, jb = some j → (tAt s j).side = .BUY)
    (hji : jb ≠ some i)
    (hok : StateOK s) :
    StateOK s' ∧ SameCore s s' ∧
    (∀ k, (tAt s' k).issues = (tAt s k).issues) := by
  by_cases hq : qty ≤ 0
  · rw [applyMatchAt_nonpos s i jb qty rule allow hq] at h
    cases Except.ok.inj h
    exact ⟨hok, sameCore_refl s, fun _ => rfl⟩
  · have hq' : 0 < qty := lt_of_not_le hq
    obtain ⟨hi, hlen, hm, hr, hiss, hcore, hjfacts, hother⟩ :=
      applyMatchAt_ok s s' i jb qty rule allow hq' hji h
    have hcoreAll : ∀ k, coreOf (tAt s' k) = coreOf (tAt s k) := by
      intro k
      by_cases hki : k = i
      · subst hki
        exact hcore
      · by_cases hkj : jb = some k
        · exact (hjfacts k hkj).2.2.2
        · rw [hother k hki hkj]
    refine ⟨?_, ⟨hlen, hcoreAll⟩, ?_⟩
    · rw [stateOK_iff]
      intro k
      have hacc := (stateOK_iff s).mp hok k
      by_cases hki : k = i
      · subst hki
        have hside : (tAt s' k).side = (tAt s k).side :=
          congrArg CoreFields.side hcore
        have hquant : (tAt s' k).quantity = (tAt s k).quantity :=
          congrArg CoreFields.quantity hcore
        constructor
        · intro hsell
          rw [hm, matchedQtySum_append, hr, hquant]
          rw [max_eq_right (by linarith)]
          have := hacc.1 (by rw [← hside]; exact hsell)
          push_cast
          linarith [this]
        · rw [hr]
          exact le_max_left 0 _
      · by_cases hkj : jb = some k
        · obtain ⟨hrj, hmj, _, hcj⟩ := hjfacts k hkj
          have hsidej : (tAt s k).side = .BUY := hbuy k hkj
          constructor
          · intro hsell
            have : (tAt s' k).side = (tAt s k).side :=
              congrArg CoreFields.side hcj
            rw [this, hsidej] at hsell
            exact absurd hsell (by decide)
          · rw [hrj]
            exact le_max_left 0 _
        · rw [hother k hki hkj]
          exact hacc
    · intro k
      by_cases hki : k = i
      · subst hki
        exact hiss
      · by_cases hkj : jb = some k
        · exact (hjfacts k hkj).2.2.1
        · rw [hother k hki hkj]

theorem SameCore.side_eq {s s' : State} (h : SameCore s s') (k : Nat) :
    (tAt s' k).side = (tAt s k).side := congrArg CoreFields.side (h.2 k)

theorem SameCore.ts_eq {s s' : State} (h : SameCore s s') (k : Nat) :
    (tAt s' k).ts = (tAt s k).ts := congrArg CoreFields.ts (h.2 k)

theorem SameCore.asset_eq {s s' : State} (h : SameCore s s') (k : Nat) :
    (tAt s' k).asset = (tAt s k).asset := congrArg CoreFields.asset (h.2 k)

theorem SameCore.quantity_eq {s s' : State} (h : SameCore s s') (k : Nat) :
    (tAt s' k).quantity = (tAt s k).quantity :=
  congrArg CoreFields.quantity (h.2 k)

theorem SameCore.id_eq {s s' : State} (h : SameCore s s') (k : Nat) :
    (tAt s' k).id = (tAt s k).id := congrArg CoreFields.id (h.2 k)

theorem SameCore.tcpu_eq {s s' : State} (h : SameCore s s') (k : Nat) :
    (tAt s' k).totalCostPerUnit = (tAt s k).totalCostPerUnit :=
  congrArg CoreFields.totalCostPerUnit (h.2 k)

theorem SameCore.perUnit_eq {s s' : State} (h : SameCore s s') (k : Nat) :
    (tAt s' k).perUnitGBP = (tAt s k).perUnitGBP :=
  congrArg CoreFields.perUnitGBP (h.2 k)

theorem evolves_refl (s : State) (h : StateOK s) : Evolves s s :=
  ⟨h, sameCore_refl s, fun _ => rfl⟩

theorem evolves_trans {s1 s2 s3 : State} (h1 : Evolves s1 s2)
    (h2 : Evolves s2 s3) : Evolves s1 s3 :=
  ⟨h2.1, sameCore_trans h1.2.1 h2.2.1,
   fun k => (h2.2.2 k).trans (h1.2.2 k)⟩

theorem mem_sortByTs {s : State} {l : List Nat} {i : Nat} :
    i ∈ sortByTs s l ↔ i ∈ l :=
  (List.perm_insertionSort (tsLE s) l).mem_iff

/-! ### Pass invariance: same-day -/

theorem sameDayBuyLoop_inv (i : Nat) :
    ∀ (buys : List Nat) (s s' : State),
      sameDayBuyLoop s i buys = .ok s' →
      (tAt s i).side = .SELL →
      (∀ j ∈ buys, (tAt s j).side = .BUY) →
      StateOK s → Evolves s s' := by
  intro buys
  induction buys with
  | nil =>
    intro s s' h _ _ hok
    cases Except.ok.inj h
    exact evolves_refl s hok
  | cons j rest ih =>
    intro s s' h hsell hbuys hok
    rw [sameDayBuyLoop] at h
    by_cases h1 : (tAt s i).remainingQty ≤ 0
    · rw [if_pos h1] at h
      cases Except.ok.inj h
      exact evolves_refl s hok
    · rw [if_neg h1] at h
      by_cases h2 : (tAt s j).remainingQty ≤ 0
      · rw [if_pos h2] at h
        exact ih s s' h hsell (fun k hk => hbuys k (List.mem_cons_of_mem j hk)) hok
      · rw [if_neg h2] at h
        simp only at h
        rcases hap : applyMatchAt s i (some j)
            (min (tAt s i).remainingQty (tAt s j).remainingQty) .SAME_DAY
            (min (tAt s i).remainingQty (tAt s j).remainingQty *
              ((tAt s j).totalCostPerUnit.getD (tAt s j).perUnitGBP)) with e | s1
        · rw [hap] at h
          exact absurd h (by simp)
        · rw [hap] at h
          have hji : (some j : Option Nat) ≠ some i := by
            intro hh
            have hj := hbuys j (List.mem_cons_self j rest)
            rw [Option.some.inj hh] at hj
            rw [hj] at hsell
            exact absurd hsell (by decide)
          have hinv := applyMatchAt_inv s s1 i (some j) _ _ _ hap
            (min_le_left _ _)
            (fun j2 hj2 =>
              Option.some.inj hj2 ▸ hbuys j (List.mem_cons_self j rest))
            hji hok
          have hev1 : Evolves s s1 := ⟨hinv.1, hinv.2.1, hinv.2.2⟩
          have hev2 := ih s1 s' h
            (by rw [hinv.2.1.side_eq i]; exact hsell)
            (fun k hk => by
              rw [hinv.2.1.side_eq k]
              exact hbuys k (List.mem_cons_of_mem j hk)) hinv.1
          exact evolves_trans hev1 hev2

theorem sameDaySellLoop_inv (buys : List Nat) :
    ∀ (sells : List Nat) (s s' : State),
      sameDaySellLoop s buys sells = .ok s' →
      (∀ i ∈ sells, (tAt s i).side = .SELL) →
      (∀ j ∈ buys, (tAt s j).side = .BUY) →
      StateOK s → Evolves s s' := by
  intro sells
  induction sells with
  | nil =>
    intro s s' h _ _ hok
    cases Except.ok.inj h
    exact evolves_refl s hok
  | cons i rest ih =>
    intro s s' h hsells hbuys hok
    rw [sameDaySellLoop] at h
    rcases hbl : sameDayBuyLoop s i buys with e | s1
    · rw [hbl] at h
      exact absurd h (by simp)
    · rw [hbl] at h
      have hev1 := sameDayBuyLoop_inv i buys s s1 hbl
        (hsells i (List.mem_cons_self i rest)) hbuys hok
      have hev2 := ih s1 s' h
        (fun k hk => by
          rw [hev1.2.1.side_eq k]
          exact hsells k (List.mem_cons_of_mem i hk))
        (fun k hk => by
          rw [hev1.2.1.side_eq k]
          exact hbuys k hk) hev1.1
      exact evolves_trans hev1 hev2

theorem sameDayBuckets_inv :
    ∀ (buckets : List (List Nat × List Nat)) (s s' : State),
      sameDayBuckets s buckets = .ok s' →
      (∀ b ∈ buckets, (∀ i ∈ b.1, (tAt s i).side = .SELL) ∧
        (∀ j ∈ b.2, (tAt s j).side = .BUY)) →
      StateOK s → Evolves s s' := by
  intro buckets
  induction buckets with
  | nil =>
    intro s s' h _ hok
    cases Except.ok.inj h
    exact evolves_refl s hok
  | cons b rest ih =>
    intro s s' h hsides hok
    rcases b with ⟨daySells, dayBuys⟩
    rw [sameDayBuckets] at h
    rcases hsl : sameDaySellLoop s dayBuys daySells with e | s1
    · rw [hsl] at h
      exact absurd h (by simp)
    · rw [hsl] at h
      have hb := hsides _ (List.mem_cons_self _ rest)
      have hev1 := sameDaySellLoop_inv dayBuys daySells s s1 hsl hb.1 hb.2 hok
      have hev2 := ih s1 s' h
        (fun b2 hb2 => by
          have hb2' := hsides b2 (List.mem_cons_of_mem _ hb2)
          exact ⟨fun i hi => by rw [hev1.2.1.side_eq i]; exact hb2'.1 i hi,
                 fun j hj => by rw [hev1.2.1.side_eq j]; exact hb2'.2 j hj⟩)
        hev1.1
      exact evolves_trans hev1 hev2

theorem matchSameDayAsset_inv (dayOf : ℤ → ℤ) (s s' : State) (a : Asset)
    (h : matchSameDayAsset dayOf s a = .ok s') (hok : StateOK s) :
    Evolves s s' := by
  rw [matchSameDayAsset] at h
  refine sameDayBuckets_inv _ s s' h ?_ hok
  intro b hb
  simp only [List.mem_map] at hb
  obtain ⟨d, _, hbd⟩ := hb
  subst hbd
  constructor
  · intro i hi
    rw [mem_sortByTs] at hi
    have hi2 := List.mem_of_mem_filter hi
    have := List.of_mem_filter hi2
    simpa using this
  · intro j hj
    rw [mem_sortByTs] at hj
    have hj2 := List.mem_of_mem_filter hj
    have := List.of_mem_filter hj2
    simpa using this

theorem sameDayAssets_inv (dayOf : ℤ → ℤ) :
    ∀ (assets : List Asset) (s s' : State),
      sameDayAssets dayOf s assets = .ok s' →
      StateOK s → Evolves s s' := by
  intro assets
  induction assets with
  | nil =>
    intro s s' h hok
    cases Except.ok.inj h
    exact evolves_refl s hok
  | cons a rest ih =>
    intro s s' h hok
    rw [sameDayAssets] at h
    rcases ha : matchSameDayAsset dayOf s a with e | s1
    · rw [ha] at h
      exact absurd h (by simp)
    · rw [ha] at h
      have hev1 := matchSameDayAsset_inv dayOf s s1 a ha hok
      exact evolves_trans hev1 (ih s1 s' h hev1.1)

theorem matchSameDay_inv (dayOf : ℤ → ℤ) (s s' : State)
    (h : matchSameDay dayOf s = .ok s') (hok : StateOK s) :
    Evolves s s' :=
  sameDayAssets_inv dayOf (assetsInOrder s) s s' h hok

/-! ### Pass invariance: 30-day -/

theorem thirtyDayBuyLoop_inv (dayOf : ℤ → ℤ) (i : Nat) :
    ∀ (buys : List Nat) (s s' : State),
      thirtyDayBuyLoop dayOf s i buys = .ok s' →
      (tAt s i).side = .SELL →
      (∀ j ∈ buys, (tAt s j).side = .BUY) →
      StateOK s → Evolves s s' := by
  intro buys
  induction buys with
  | nil =>
    intro s s' h _ _ hok
    cases Except.ok.inj h
    exact evolves_refl s hok
  | cons j rest ih =>
    intro s s' h hsell hbuys hok
    rw [thirtyDayBuyLoop] at h
    by_cases h1 : (tAt s j).remainingQty ≤ 0
    · rw [if_pos h1] at h
      exact ih s s' h hsell (fun k hk => hbuys k (List.mem_cons_of_mem j hk)) hok
    · rw [if_neg h1] at h
      by_cases h2 : (tAt s j).ts ≤ (tAt s i).ts
      · rw [if_pos h2] at h
        exact ih s s' h hsell (fun k hk => hbuys k (List.mem_cons_of_mem j hk)) hok
      · rw [if_neg h2] at h
        by_cases h3 : dayOf (tAt s j).ts - dayOf (tAt s i).ts ≤ 0 ∨
            DAY_DIFF_LIMIT < dayOf (tAt s j).ts - dayOf (tAt s i).ts
        · rw [if_pos h3] at h
          exact ih s s' h hsell (fun k hk => hbuys k (List.mem_cons_of_mem j hk)) hok
        · rw [if_neg h3] at h
          simp only at h
          rcases hap : applyMatchAt s i (some j)
              (min (tAt s i).remainingQty (tAt s j).remainingQty) .WITHIN_30_DAYS
              (min (tAt s i).remainingQty (tAt s j).remainingQty *
                ((tAt s j).totalCostPerUnit.getD (tAt s j).perUnitGBP)) with e | s1
          · rw [hap] at h
            exact absurd h (by simp)
          · rw [hap] at h
            have hji : (some j : Option Nat) ≠ some i := by
              intro hh
              have hj := hbuys j (List.mem_cons_self j rest)
              rw [Option.some.inj hh] at hj
              rw [hj] at hsell
              exact absurd hsell (by decide)
            have hinv := applyMatchAt_inv s s1 i (some j) _ _ _ hap
              (min_le_left _ _)
              (fun j2 hj2 =>
                Option.some.inj hj2 ▸ hbuys j (List.mem_cons_self j rest))
              hji hok
            have hev1 : Evolves s s1 := ⟨hinv.1, hinv.2.1, hinv.2.2⟩
            have h' : (if (tAt s1 i).remainingQty ≤ 0 then Except.ok s1
                else thirtyDayBuyLoop dayOf s1 i rest) = Except.ok s' := h
            by_cases h4 : (tAt s1 i).remainingQty ≤ 0
            · rw [if_pos h4] at h'
              cases Except.ok.inj h'
              exact hev1
            · rw [if_neg h4] at h'
              have hev2 := ih s1 s' h'
                (by rw [hinv.2.1.side_eq i]; exact hsell)
                (fun k hk => by
                  rw [hinv.2.1.side_eq k]
                  exact hbuys k (List.mem_cons_of_mem j hk)) hinv.1
              exact evolves_trans hev1 hev2

theorem thirtyDaySellLoop_inv (dayOf : ℤ → ℤ) (buys : List Nat) :
    ∀ (sells : List Nat) (s s' : State),
      thirtyDaySellLoop dayOf s buys sells = .ok s' →
      (∀ i ∈ sells, (tAt s i).side = .SELL) →
      (∀ j ∈ buys, (tAt s j).side = .BUY) →
      StateOK s → Evolves s s' := by
  intro sells
  induction sells with
  | nil =>
    intro s s' h _ _ hok
    cases Except.ok.inj h
    exact evolves_refl s hok
  | cons i rest ih =>
    intro s s' h hsells hbuys hok
    rw [thirtyDaySellLoop] at h
    by_cases h1 : (tAt s i).remainingQty ≤ 0
    · rw [if_pos h1] at h
      exact ih s s' h (fun k hk => hsells k (List.mem_cons_of_mem i hk)) hbuys hok
    · rw [if_neg h1] at h
      rcases hbl : thirtyDayBuyLoop dayOf s i buys with e | s1
      · rw [hbl] at h
        exact absurd h (by simp)
      · rw [hbl] at h
        have hev1 := thirtyDayBuyLoop_inv dayOf i buys s s1 hbl
          (hsells i (List.mem_cons_self i rest)) hbuys hok
        have hev2 := ih s1 s' h
          (fun k hk => by
            rw [hev1.2.1.side_eq k]
            exact hsells k (List.mem_cons_of_mem i hk))
          (fun k hk => by
            rw [hev1.2.1.side_eq k]
            exact hbuys k hk) hev1.1
        exact evolves_trans hev1 hev2

theorem matchThirtyDayAsset_inv (dayOf : ℤ → ℤ) (s s' : State) (a : Asset)
    (h : matchThirtyDayAsset dayOf s a = .ok s') (hok : StateOK s) :
    Evolves s s' := by
  rw [matchThirtyDayAsset] at h
  refine thirtyDaySellLoop_inv dayOf _ _ s s' h ?_ ?_ hok
  · intro i hi
    rw [mem_sortByTs] at hi
    have := List.of_mem_filter hi
    simpa using this
  · intro j hj
    rw [mem_sortByTs] at hj
    have := List.of_mem_filter hj
    simpa using this

theorem thirtyDayAssets_inv (dayOf : ℤ → ℤ) :
    ∀ (assets : List Asset) (s s' : State),
      thirtyDayAssets dayOf s assets = .ok s' →
      StateOK s → Evolves s s' := by
  intro assets
  induction assets with
  | nil =>
    intro s s' h hok
    cases Except.ok.inj h
    exact evolves_refl s hok
  | cons a rest ih =>
    intro s s' h hok
    rw [thirtyDayAssets] at h
    rcases ha : matchThirtyDayAsset dayOf s a with e | s1
    · rw [ha] at h
      exact absurd h (by simp)
    · rw [ha] at h
      have hev1 := matchThirtyDayAsset_inv dayOf s s1 a ha hok
      exact evolves_trans hev1 (ih s1 s' h hev1.1)

theorem matchThirtyDay_inv (dayOf : ℤ → ℤ) (s s' : State)
    (h : matchThirtyDay dayOf s = .ok s') (hok : StateOK s) :
    Evolves s s' :=
  thirtyDayAssets_inv dayOf (assetsInOrder s) s s' h hok

/-! ### 30-day pass: line-level characterization -/

/-- `ThirtyLines` facts transport backwards along an evolution that
keeps the immutable fields and never increases remaining quantities. -/
theorem ThirtyLines_mono (dayOf : ℤ → ℤ) (s s1 : State) (k : Nat)
    (L : List MatchLine) (js : List Nat)
    (h : ThirtyLines dayOf s1 k L js) (hsc : SameCore s s1)
    (hrem : ∀ j, (tAt s1 j).remainingQty ≤ (tAt s j).remainingQty) :
    ThirtyLines dayOf s k L js := by
  refine List.Forall₂.imp ?_ h
  intro m j hm
  obtain ⟨h1, h2, h3, h4, h5, h6, h7, h8⟩ := hm
  rw [SameCore.id_eq hsc j] at h2
  rw [SameCore.side_eq hsc j] at h3
  rw [SameCore.ts_eq hsc j, SameCore.ts_eq hsc k] at h4 h5 h6
  exact ⟨h1, h2, h3, h4, h5, h6, h7, le_trans h8 (hrem j)⟩

/-- What the inner 30-day buy loop appends: lines only on the processed
sell `i`, each pairing `i` with an eligible buy, the buys taken as a
sublist of the traversal list; remaining quantities never increase. -/
theorem thirtyDayBuyLoop_lines (dayOf : ℤ → ℤ) (i : Nat) :
    ∀ (buys : List Nat) (s s' : State),
      thirtyDayBuyLoop dayOf s i buys = .ok s' →
      (tAt s i).side = .SELL →
      (∀ j ∈ buys, (tAt s j).side = .BUY) →
      StateOK s →
      StateOK s' ∧ SameCore s s' ∧
      (∀ k, (tAt s' k).remainingQty ≤ (tAt s k).remainingQty) ∧
      ∃ L js, List.Sublist js buys ∧
        (tAt s' i).matches' = (tAt s i).matches' ++ L ∧
        ThirtyLines dayOf s i L js ∧
        (∀ k, k ≠ i → (tAt s' k).matches' = (tAt s k).matches') := by
  intro buys
  induction buys with
  | nil =>
    intro s s' h _ _ hok
    cases Except.ok.inj h
    exact ⟨hok, sameCore_refl s, fun _ => le_refl _, [], [],
      List.Sublist.refl [], by simp, List.Forall₂.nil, fun _ _ => rfl⟩
  | cons j rest ih =>
    intro s s' h hsell hbuys hok
    rw [thirtyDayBuyLoop] at h
    by_cases h1 : (tAt s j).remainingQty ≤ 0
    · rw [if_pos h1] at h
      obtain ⟨hok', hsc', hrem', L, js, hsub, hm, hTL, hoth⟩ :=
        ih s s' h hsell (fun k hk => hbuys k (List.mem_cons_of_mem j hk)) hok
      exact ⟨hok', hsc', hrem', L, js, hsub.cons j, hm, hTL, hoth⟩
    · rw [if_neg h1] at h
      by_cases h2 : (tAt s j).ts ≤ (tAt s i).ts
      · rw [if_pos h2] at h
        obtain ⟨hok', hsc', hrem', L, js, hsub, hm, hTL, hoth⟩ :=
          ih s s' h hsell (fun k hk => hbuys k (List.mem_cons_of_mem j hk)) hok
        exact ⟨hok', hsc', hrem', L, js, hsub.cons j, hm, hTL, hoth⟩
      · rw [if_neg h2] at h
        by_cases h3 : dayOf (tAt s j).ts - dayOf (tAt s i).ts ≤ 0 ∨
            DAY_DIFF_LIMIT < dayOf (tAt s j).ts - dayOf (tAt s i).ts
        · rw [if_pos h3] at h
          obtain ⟨hok', hsc', hrem', L, js, hsub, hm, hTL, hoth⟩ :=
            ih s s' h hsell (fun k hk => hbuys k (List.mem_cons_of_mem j hk)) hok
          exact ⟨hok', hsc', hrem', L, js, hsub.cons j, hm, hTL, hoth⟩
        · rw [if_neg h3] at h
          simp only at h
          push_neg at h3
          obtain ⟨h3a, h3b⟩ := h3
          rcases hap : applyMatchAt s i (some j)
              (min (tAt s i).remainingQty (tAt s j).remainingQty) .WITHIN_30_DAYS
              (min (tAt s i).remainingQty (tAt s j).remainingQty *
                ((tAt s j).totalCostPerUnit.getD (tAt s j).perUnitGBP)) with e | s1
          · rw [hap] at h
            exact absurd h (by simp)
          · rw [hap] at h
            have hji : (some j : Option Nat) ≠ some i := by
              intro hh
              have hj := hbuys j (List.mem_cons_self j rest)
              rw [Option.some.inj hh] at hj
              rw [hj] at hsell
              exact absurd hsell (by decide)
            have hjnei : j ≠ i := fun hh => hji (by rw [hh])
            have h' : (if (tAt s1 i).remainingQty ≤ 0 then Except.ok s1
                else thirtyDayBuyLoop dayOf s1 i rest) = Except.ok s' := h
            by_cases hq : min (tAt s i).remainingQty (tAt s j).remainingQty ≤ 0
            · rw [applyMatchAt_nonpos s i (some j) _ _ _ hq] at hap
              cases Except.ok.inj hap
              by_cases h4 : (tAt s i).remainingQty ≤ 0
              · rw [if_pos h4] at h'
                cases Except.ok.inj h'
                exact ⟨hok, sameCore_refl s, fun _ => le_refl _, [], [],
                  List.nil_sublist _, by simp, List.Forall₂.nil, fun _ _ => rfl⟩
              · rw [if_neg h4] at h'
                obtain ⟨hok', hsc', hrem', L, js, hsub, hm, hTL, hoth⟩ :=
                  ih s s' h' hsell
                    (fun k hk => hbuys k (List.mem_cons_of_mem j hk)) hok
                exact ⟨hok', hsc', hrem', L, js, hsub.cons j, hm, hTL, hoth⟩
            · have hq' : 0 < min (tAt s i).remainingQty (tAt s j).remainingQty :=
                lt_of_not_le hq
              obtain ⟨hokA, hscA, hissA⟩ := applyMatchAt_inv s s1 i (some j) _ _ _
                hap (min_le_left _ _)
                (fun j2 hj2 =>
                  Option.some.inj hj2 ▸ hbuys j (List.mem_cons_self j rest))
                hji hok
              obtain ⟨hilt, hlenA, hmA, hrA, -, -, hjfacts, hotherA⟩ :=
                applyMatchAt_ok s s1 i (some j) _ _ _ hq' hji hap
              obtain ⟨hjrA, hjmA, -, -⟩ := hjfacts j rfl
              have hstep_rem : ∀ k,
                  (tAt s1 k).remainingQty ≤ (tAt s k).remainingQty := by
                intro k
                by_cases hki : k = i
                · subst hki
                  rw [hrA]
                  exact max_le ((stateOK_iff s).mp hok k).2
                    (sub_le_self _ (le_of_lt hq'))
                · by_cases hkj : k = j
                  · subst hkj
                    rw [hjrA]
                    exact max_le ((stateOK_iff s).mp hok k).2
                      (sub_le_self _ (le_of_lt hq'))
                  · rw [hotherA k hki (fun hh => hkj (Option.some.inj hh).symm)]
              have hstep_oth : ∀ k, k ≠ i →
                  (tAt s1 k).matches' = (tAt s k).matches' := by
                intro k hki
                by_cases hkj : k = j
                · subst hkj
                  exact hjmA
                · rw [hotherA k hki (fun hh => hkj (Option.some.inj hh).symm)]
              have hlineTL : ThirtyLines dayOf s i
                  [⟨.WITHIN_30_DAYS, some (tAt s j).id,
                    min (tAt s i).remainingQty (tAt s j).remainingQty,
                    (tAt s i).netProceedsPerUnit.getD 0 *
                      min (tAt s i).remainingQty (tAt s j).remainingQty,
                    min (tAt s i).remainingQty (tAt s j).remainingQty *
                      ((tAt s j).totalCostPerUnit.getD (tAt s j).perUnitGBP),
                    (tAt s i).netProceedsPerUnit.getD 0 *
                      min (tAt s i).remainingQty (tAt s j).remainingQty -
                      min (tAt s i).remainingQty (tAt s j).remainingQty *
                      ((tAt s j).totalCostPerUnit.getD (tAt s j).perUnitGBP)⟩]
                  [j] := by
                refine List.Forall₂.cons ?_ List.Forall₂.nil
                exact ⟨rfl, rfl, hbuys j (List.mem_cons_self j rest),
                  lt_of_not_le h2, h3a, h3b, hq', min_le_right _ _⟩
              by_cases h4 : (tAt s1 i).remainingQty ≤ 0
              · rw [if_pos h4] at h'
                cases Except.ok.inj h'
                refine ⟨hokA, hscA, hstep_rem, _, [j],
                  (List.nil_sublist rest).cons₂ j, hmA, ?_, hstep_oth⟩
                exact hlineTL
              · rw [if_neg h4] at h'
                obtain ⟨hokR, hscR, hremR, LR, jsR, hsubR, hmR, hTLR, hothR⟩ :=
                  ih s1 s' h'
                    (by rw [hscA.side_eq i]; exact hsell)
                    (fun k hk => by
                      rw [hscA.side_eq k]
                      exact hbuys k (List.mem_cons_of_mem j hk)) hokA
                obtain ⟨line, hmA', hTL1'⟩ :
                    ∃ line, (tAt s1 i).matches' = (tAt s i).matches' ++ [line] ∧
                      ThirtyLines dayOf s i [line] [j] := ⟨_, hmA, hlineTL⟩
                refine ⟨hokR, sameCore_trans hscA hscR,
                  fun k => le_trans (hremR k) (hstep_rem k),
                  line :: LR, j :: jsR, hsubR.cons₂ j, ?_, ?_, ?_⟩
                · rw [hmR, hmA', List.append_assoc]
                  rfl
                · exact List.Forall₂.cons
                    (List.forall₂_cons.mp hTL1').1
                    (ThirtyLines_mono dayOf s s1 i LR jsR hTLR hscA hstep_rem)
                · intro k hk
                  rw [hothR k hk, hstep_oth k hk]

/-- What one whole sell loop appends: each position gets lines drawn
from a sublist of the buy traversal list, and positions outside the
processed (duplicate-free) sell list get none. -/
theorem thirtyDaySellLoop_lines (dayOf : ℤ → ℤ) (buys : List Nat) :
    ∀ (sells : List Nat) (s s' : State),
      thirtyDaySellLoop dayOf s buys sells = .ok s' →
      sells.Nodup →
      (∀ i ∈ sells, (tAt s i).side = .SELL) →
      (∀ j ∈ buys, (tAt s j).side = .BUY) →
      StateOK s →
      StateOK s' ∧ SameCore s s' ∧
      (∀ k, (tAt s' k).remainingQty ≤ (tAt s k).remainingQty) ∧
      ∀ k, ∃ L js, List.Sublist js buys ∧
        (tAt s' k).matches' = (tAt s k).matches' ++ L ∧
        ThirtyLines dayOf s k L js ∧
        (k ∉ sells → L = []) := by
  intro sells
  induction sells with
  | nil =>
    intro s s' h _ _ _ hok
    cases Except.ok.inj h
    exact ⟨hok, sameCore_refl s, fun _ => le_refl _,
      fun k => ⟨[], [], List.nil_sublist _, by simp, List.Forall₂.nil,
        fun _ => rfl⟩⟩
  | cons i rest ih =>
    intro s s' h hnd hsells hbuys hok
    obtain ⟨hir, hndr⟩ := List.nodup_cons.mp hnd
    rw [thirtyDaySellLoop] at h
    by_cases h1 : (tAt s i).remainingQty ≤ 0
    · rw [if_pos h1] at h
      obtain ⟨hok', hsc', hrem', hL⟩ :=
        ih s s' h hndr (fun k hk => hsells k (List.mem_cons_of_mem i hk))
          hbuys hok
      refine ⟨hok', hsc', hrem', fun k => ?_⟩
      obtain ⟨L, js, hsub, hm, hTL, hnone⟩ := hL k
      exact ⟨L, js, hsub, hm, hTL,
        fun hk => hnone (fun hr => hk (List.mem_cons_of_mem i hr))⟩
    · rw [if_neg h1] at h
      rcases hbl : thirtyDayBuyLoop dayOf s i buys with e | s1
      · rw [hbl] at h
        exact absurd h (by simp)
      · rw [hbl] at h
        obtain ⟨hok1, hsc1, hrem1, L1, js1, hsub1, hm1, hTL1, hoth1⟩ :=
          thirtyDayBuyLoop_lines dayOf i buys s s1 hbl
            (hsells i (List.mem_cons_self i rest)) hbuys hok
        obtain ⟨hokR, hscR, hremR, hLR⟩ := ih s1 s' h hndr
          (fun k hk => by
            rw [hsc1.side_eq k]
            exact hsells k (List.mem_cons_of_mem i hk))
          (fun k hk => by
            rw [hsc1.side_eq k]
            exact hbuys k hk) hok1
        refine ⟨hokR, sameCore_trans hsc1 hscR,
          fun k => le_trans (hremR k) (hrem1 k), fun k => ?_⟩
        obtain ⟨L2, js2, hsub2, hm2, hTL2, hnone2⟩ := hLR k
        by_cases hki : k = i
        · subst hki
          have hL2nil : L2 = [] := hnone2 hir
          subst hL2nil
          refine ⟨L1, js1, hsub1, ?_, hTL1,
            fun hk => absurd (List.mem_cons_self k rest) hk⟩
          rw [hm2, hm1, List.append_nil]
        · refine ⟨L2, js2, hsub2, ?_,
            ThirtyLines_mono dayOf s s1 k L2 js2 hTL2 hsc1 hrem1,
            fun hk => hnone2 (fun hr => hk (List.mem_cons_of_mem i hr))⟩
          rw [hm2, hoth1 k hki]

/-- What one per-asset 30-day pass appends: every appended line pairs an
eligible buy of that asset, in ascending buy-timestamp order, and only
sells of that asset receive lines. -/
theorem matchThirtyDayAsset_lines (dayOf : ℤ → ℤ) (s s' : State) (a : Asset)
    (h : matchThirtyDayAsset dayOf s a = .ok s') (hok : StateOK s) :
    StateOK s' ∧ SameCore s s' ∧
    (∀ k, (tAt s' k).remainingQty ≤ (tAt s k).remainingQty) ∧
    ∀ k, ∃ L js,
      (tAt s' k).matches' = (tAt s k).matches' ++ L ∧
      ThirtyLines dayOf s k L js ∧
      List.Pairwise (fun x y => (tAt s x).ts ≤ (tAt s y).ts) js ∧
      (∀ j ∈ js, (tAt s j).asset = a) ∧
      (L ≠ [] → (tAt s k).side = .SELL ∧ (tAt s k).asset = a) := by
  simp only [matchThirtyDayAsset] at h
  have hselld : ∀ i ∈ sortByTs s ((sortByTs s (idxsOfAsset s a)).filter
      (fun i => decide ((tAt s i).side = .SELL))),
      (tAt s i).side = .SELL := by
    intro i hi
    rw [mem_sortByTs] at hi
    have := List.of_mem_filter hi
    simpa using this
  have hbuyd : ∀ j ∈ sortByTs s ((sortByTs s (idxsOfAsset s a)).filter
      (fun i => decide ((tAt s i).side = .BUY))),
      (tAt s j).side = .BUY := by
    intro j hj
    rw [mem_sortByTs] at hj
    have := List.of_mem_filter hj
    simpa using this
  have hassetmem : ∀ j ∈ sortByTs s (idxsOfAsset s a),
      (tAt s j).asset = a := by
    intro j hj
    rw [mem_sortByTs] at hj
    have := List.of_mem_filter hj
    simpa using this
  have hnd : (sortByTs s ((sortByTs s (idxsOfAsset s a)).filter
      (fun i => decide ((tAt s i).side = .SELL)))).Nodup := by
    refine (List.perm_insertionSort _ _).nodup_iff.mpr ?_
    refine List.Nodup.filter _ ?_
    refine (List.perm_insertionSort _ _).nodup_iff.mpr ?_
    exact List.Nodup.filter _ (List.nodup_range _)
  have hsorted : List.Pairwise (tsLE s) (sortByTs s
      ((sortByTs s (idxsOfAsset s a)).filter
        (fun i => decide ((tAt s i).side = .BUY)))) :=
    List.sorted_insertionSort (tsLE s) _
  obtain ⟨hok', hsc', hrem', hL⟩ :=
    thirtyDaySellLoop_lines dayOf _ _ s s' h hnd hselld hbuyd hok
  refine ⟨hok', hsc', hrem', fun k => ?_⟩
  obtain ⟨L, js, hsub, hm, hTL, hnone⟩ := hL k
  refine ⟨L, js, hm, hTL, ?_, ?_, ?_⟩
  · exact List.Pairwise.sublist hsub hsorted
  · intro j hj
    have hjb := hsub.subset hj
    rw [mem_sortByTs] at hjb
    exact hassetmem j (List.mem_of_mem_filter hjb)
  · intro hLne
    by_cases hks : k ∈ sortByTs s ((sortByTs s (idxsOfAsset s a)).filter
        (fun i => decide ((tAt s i).side = .SELL)))
    · refine ⟨hselld k hks, ?_⟩
      rw [mem_sortByTs] at hks
      exact hassetmem k (List.mem_of_mem_filter hks)
    · exact absurd (hnone hks) hLne

/-- The `assetsInOrder` iteration list never repeats an asset. -/
theorem assetsInOrder_nodup (s : State) : (assetsInOrder s).Nodup := by
  have key : ∀ (l : List ETrade) (acc : List Asset), acc.Nodup →
      (l.foldl (fun acc t =>
        if t.asset ∈ acc then acc else acc ++ [t.asset]) acc).Nodup := by
    intro l
    induction l with
    | nil => intro acc h; exact h
    | cons t rest ih =>
      intro acc h
      simp only [List.foldl_cons]
      by_cases hm : t.asset ∈ acc
      · rw [if_pos hm]
        exact ih acc h
      · rw [if_neg hm]
        refine ih _ ?_
        simp [List.nodup_append, h, hm]
  exact key s [] List.nodup_nil

/-- The per-asset results compose over a duplicate-free asset list. -/
theorem thirtyDayAssets_lines (dayOf : ℤ → ℤ) :
    ∀ (alist : List Asset) (s s' : State),
      thirtyDayAssets dayOf s alist = .ok s' →
      alist.Nodup →
      StateOK s →
      StateOK s' ∧ SameCore s s' ∧
      (∀ k, (tAt s' k).remainingQty ≤ (tAt s k).remainingQty) ∧
      ∀ k, ∃ L js,
        (tAt s' k).matches' = (tAt s k).matches' ++ L ∧
        ThirtyLines dayOf s k L js ∧
        List.Pairwise (fun x y => (tAt s x).ts ≤ (tAt s y).ts) js ∧
        (∀ j ∈ js, (tAt s j).asset = (tAt s k).asset) ∧
        (L ≠ [] → (tAt s k).side = .SELL ∧ (tAt s k).asset ∈ alist) := by
  intro alist
  induction alist with
  | nil =>
    intro s s' h _ hok
    cases Except.ok.inj h
    exact ⟨hok, sameCore_refl s, fun _ => le_refl _,
      fun k => ⟨[], [], by simp, List.Forall₂.nil, List.Pairwise.nil,
        by simp, fun hk => absurd rfl hk⟩⟩
  | cons a rest ih =>
    intro s s' h hnd hok
    obtain ⟨har, hndr⟩ := List.nodup_cons.mp hnd
    rw [thirtyDayAssets] at h
    rcases ha : matchThirtyDayAsset dayOf s a with e | s1
    · rw [ha] at h
      exact absurd h (by simp)
    · rw [ha] at h
      obtain ⟨hok1, hsc1, hrem1, hL1⟩ :=
        matchThirtyDayAsset_lines dayOf s s1 a ha hok
      obtain ⟨hokR, hscR, hremR, hLR⟩ := ih s1 s' h hndr hok1
      refine ⟨hokR, sameCore_trans hsc1 hscR,
        fun k => le_trans (hremR k) (hrem1 k), fun k => ?_⟩
      obtain ⟨L1k, js1, hm1, hTL1, hpw1, hass1, hsa1⟩ := hL1 k
      obtain ⟨L2, js2, hm2, hTL2, hpw2, hass2, hsa2⟩ := hLR k
      by_cases hak : (tAt s k).asset = a
      · have hL2nil : L2 = [] := by
          by_cases hL2 : L2 = []
          · exact hL2
          · obtain ⟨-, hmem⟩ := hsa2 hL2
            rw [hsc1.asset_eq k, hak] at hmem
            exact absurd hmem har
        subst hL2nil
        refine ⟨L1k, js1, ?_, hTL1, hpw1, ?_, ?_⟩
        · rw [hm2, hm1, List.append_nil]
        · intro j hj
          rw [hak]
          exact hass1 j hj
        · intro hLne
          exact ⟨(hsa1 hLne).1, hak ▸ List.mem_cons_self a rest⟩
      · have hL1nil : L1k = [] := by
          by_cases hL1' : L1k = []
          · exact hL1'
          · exact absurd (hsa1 hL1').2 hak
        subst hL1nil
        refine ⟨L2, js2, ?_,
          ThirtyLines_mono dayOf s s1 k L2 js2 hTL2 hsc1 hrem1, ?_, ?_, ?_⟩
        · rw [hm2, hm1, List.append_nil]
        · refine hpw2.imp ?_
          intro x y hxy
          rw [SameCore.ts_eq hsc1 x, SameCore.ts_eq hsc1 y] at hxy
          exact hxy
        · intro j hj
          have := hass2 j hj
          rw [SameCore.asset_eq hsc1 j, SameCore.asset_eq hsc1 k] at this
          exact this
        · intro hLne
          obtain ⟨hside2, hmem2⟩ := hsa2 hLne
          rw [hsc1.side_eq k] at hside2
          rw [hsc1.asset_eq k] at hmem2
          exact ⟨hside2, List.mem_cons_of_mem a hmem2⟩

/-! ### Pass invariance: Section 104 -/

theorem Pools.get_set_self (p : Pools) (a : Asset) (st : PoolState) :
    (p.set a st).get a = st := by
  cases a <;> rfl

theorem Pools.get_set_other (p : Pools) (a b : Asset) (st : PoolState)
    (h : b ≠ a) : (p.set a st).get b = p.get b := by
  cases a <;> cases b <;> first
    | rfl
    | exact absurd rfl h

theorem poolsOK_set (p : Pools) (a : Asset) (st : PoolState)
    (hp : PoolsOK p) (hq : 0 ≤ st.totalQty) (hc : 0 ≤ st.totalCostGBP) :
    PoolsOK (p.set a st) := by
  intro b
  by_cases hb : b = a
  · subst hb
    rw [Pools.get_set_self]
    exact ⟨hq, hc⟩
  · rw [Pools.get_set_other p a b st hb]
    exact hp b

theorem poolEpsilon_pos : (0 : ℚ) < poolEpsilon := by
  norm_num [poolEpsilon]

theorem snapshots_get_clone (p : Pools) (a : Asset) :
    (clonePoolState p).get a = ⟨(p.get a).totalQty, (p.get a).totalCostGBP,
      if 0 < (p.get a).totalQty then
        (p.get a).totalCostGBP / (p.get a).totalQty
      else 0⟩ := by
  cases a <;> rfl

theorem clonePoolState_ok (p : Pools) (hp : PoolsOK p) :
    SnapOK (clonePoolState p) := by
  intro a
  rw [snapshots_get_clone]
  refine ⟨(hp a).1, (hp a).2, ?_⟩
  by_cases hq : 0 < (p.get a).totalQty
  · rw [if_pos hq]
    exact div_nonneg (hp a).2 (le_of_lt hq)
  · rw [if_neg hq]

theorem default_remainingQty : (default : ETrade).remainingQty = 0 := rfl

theorem costOK_of_sameCore {s s' : State} (hsc : SameCore s s')
    (hc : CostOK s) : CostOK s' := by
  intro k
  rw [hsc.tcpu_eq k, hsc.perUnit_eq k]
  exact hc k

theorem side_not_buy {t : ETrade} (h : ¬t.side = .BUY) :
    t.side = .SELL := by
  cases hs : t.side
  · exact absurd hs h
  · rfl

/-- Common tail of the Section 104 sell step: the pool-exhaustion
remainder check and its zero-cost match. -/
theorem sectionStep_tail_inv (sA s' : State) (pools1 pools' : Pools)
    (i : Nat)
    (h : (if poolEpsilon < (tAt sA i).remainingQty then
            (match applyMatchAt sA i none (tAt sA i).remainingQty
                MatchRule.SECTION_104 0 with
            | Except.error e => Except.error e
            | Except.ok s2 =>
              Except.ok (setAt s2 i { tAt s2 i with
                    issues := (tAt s2 i).issues ++
                      ["Section 104 pool exhausted for portion of disposal"],
                    remainingQty := 0 }, pools1))
          else Except.ok (sA, pools1)) = Except.ok (s', pools'))
    (hokA : StateOK sA) (hissA : IssuesOK sA)
    (hsideA : (tAt sA i).side = .SELL) :
    StateOK s' ∧ SameCore sA s' ∧ pools' = pools1 ∧ IssuesOK s' ∧
    ((tAt s' i).remainingQty ≤ poolEpsilon) ∧
    (∀ k, k ≠ i → tAt s' k = tAt sA k) := by
  by_cases hx : poolEpsilon < (tAt sA i).remainingQty
  · rw [if_pos hx] at h
    have hq : (0 : ℚ) < (tAt sA i).remainingQty :=
      lt_trans poolEpsilon_pos hx
    rcases hap : applyMatchAt sA i none (tAt sA i).remainingQty
        MatchRule.SECTION_104 0 with e | s2
    · rw [hap] at h
      exact absurd h (by simp)
    · rw [hap] at h
      simp only [Except.ok.injEq, Prod.mk.injEq] at h
      obtain ⟨he1, he2⟩ := h
      subst he1
      subst he2
      obtain ⟨hi, hlen2, hm2, hr2, hiss2, hcore2, -, hother2⟩ :=
        applyMatchAt_ok sA s2 i none _ _ _ hq (by simp) hap
      have hinv2 := applyMatchAt_inv sA s2 i none _ _ _ hap (le_refl _)
        (fun j hj => absurd hj (by simp)) (by simp) hokA
      have hi2 : i < s2.length := by
        rw [hinv2.2.1.1]
        exact hi
      have hrem2 : (tAt s2 i).remainingQty = 0 := by
        rw [hr2, sub_self, max_self]
      have hti : tAt (setAt s2 i { tAt s2 i with
          issues := (tAt s2 i).issues ++
            ["Section 104 pool exhausted for portion of disposal"],
          remainingQty := 0 }) i = { tAt s2 i with
          issues := (tAt s2 i).issues ++
            ["Section 104 pool exhausted for portion of disposal"],
          remainingQty := 0 } := tAt_setAt_self s2 i _ hi2
      refine ⟨?_, ?_, rfl, ?_, ?_, ?_⟩
      · rw [stateOK_iff]
        intro k
        by_cases hk : k = i
        · subst hk
          rw [hti]
          have hacc2 := (stateOK_iff s2).mp hinv2.1 k
          constructor
          · intro hside2
            have := hacc2.1 hside2
            rw [hrem2] at this
            simpa using this
          · exact le_refl 0
        · rw [tAt_setAt_ne _ _ _ _ hk]
          exact (stateOK_iff s2).mp hinv2.1 k
      · refine sameCore_trans hinv2.2.1 ⟨setAt_length _ _ _, fun k => ?_⟩
        by_cases hk : k = i
        · subst hk
          rw [hti]
          rfl
        · rw [tAt_setAt_ne _ _ _ _ hk]
      · intro k hk
        by_cases hki : k = i
        · subst hki
          rw [hti] at hk ⊢
          refine ⟨rfl, ?_⟩
          refine ⟨⟨MatchRule.SECTION_104, none,
            (tAt sA k).remainingQty,
            (tAt sA k).netProceedsPerUnit.getD 0 * (tAt sA k).remainingQty, 0,
            (tAt sA k).netProceedsPerUnit.getD 0 * (tAt sA k).remainingQty - 0⟩,
            ?_, rfl, rfl⟩
          rw [hm2]
          simp
        · rw [tAt_setAt_ne _ _ _ _ hki] at hk ⊢
          rw [hother2 k hki (by simp)] at hk ⊢
          exact hissA k hk
      · rw [hti]
        exact le_of_lt poolEpsilon_pos
      · intro k hk
        rw [tAt_setAt_ne _ _ _ _ hk, hother2 k hk (by simp)]
  · rw [if_neg hx] at h
    simp only [Except.ok.injEq, Prod.mk.injEq] at h
    obtain ⟨he1, he2⟩ := h
    subst he1
    subst he2
    exact ⟨hokA, sameCore_refl sA, rfl, hissA, le_of_not_lt hx,
      fun _ _ => rfl⟩

/-- The Section 104 sell step with positive remaining quantity. -/
theorem sectionStep_sell_inv (s s' : State) (pools pools' : Pools) (i : Nat)
    (h : sectionStep s pools i = .ok (s', pools'))
    (hok : StateOK s) (hcost : CostOK s) (hpool : PoolsOK pools)
    (hiss : IssuesOK s)
    (hsell : (tAt s i).side = .SELL)
    (hrem : 0 < (tAt s i).remainingQty) :
    StateOK s' ∧ SameCore s s' ∧ PoolsOK pools' ∧ IssuesOK s' ∧
    ((tAt s' i).side = .SELL → (tAt s' i).remainingQty ≤ poolEpsilon) ∧
    (∀ k, k ≠ i → tAt s' k = tAt s k) := by
  have hside : ¬(tAt s i).side = .BUY := by
    rw [hsell]
    intro hh
    simp at hh
  have hsfin : ∀ (res : StateOK s' ∧ SameCore s s' ∧ PoolsOK pools' ∧
      IssuesOK s' ∧ ((tAt s' i).remainingQty ≤ poolEpsilon) ∧
      (∀ k, k ≠ i → tAt s' k = tAt s k)),
      StateOK s' ∧ SameCore s s' ∧ PoolsOK pools' ∧ IssuesOK s' ∧
      ((tAt s' i).side = .SELL → (tAt s' i).remainingQty ≤ poolEpsilon) ∧
      (∀ k, k ≠ i → tAt s' k = tAt s k) :=
    fun res => ⟨res.1, res.2.1, res.2.2.1, res.2.2.2.1,
      fun _ => res.2.2.2.2.1, res.2.2.2.2.2⟩
  simp only [sectionStep] at h
  rw [if_neg hside, if_pos hrem] at h
  by_cases hm : 0 < min (tAt s i).remainingQty
      (Pools.get pools (tAt s i).asset).totalQty
  · rw [if_pos hm] at h
    have havail : 0 < (Pools.get pools (tAt s i).asset).totalQty :=
      lt_of_lt_of_le hm (min_le_right _ _)
    rcases hap : applyMatchAt s i none
        (min (tAt s i).remainingQty
          (Pools.get pools (tAt s i).asset).totalQty) MatchRule.SECTION_104
        (min (tAt s i).remainingQty
            (Pools.get pools (tAt s i).asset).totalQty *
          (if 0 < (Pools.get pools (tAt s i).asset).totalQty then
            (Pools.get pools (tAt s i).asset).totalCostGBP /
              (Pools.get pools (tAt s i).asset).totalQty
          else 0)) with e | sA
    · rw [hap] at h
      exact absurd h (by simp)
    · rw [hap] at h
      have h' : (if poolEpsilon < (tAt sA i).remainingQty then
          (match applyMatchAt sA i none (tAt sA i).remainingQty
              MatchRule.SECTION_104 0 with
          | Except.error e => Except.error e
          | Except.ok s2 =>
            Except.ok (setAt s2 i { tAt s2 i with
                  issues := (tAt s2 i).issues ++
                    ["Section 104 pool exhausted for portion of disposal"],
                  remainingQty := 0 },
              Pools.set pools (tAt s i).asset
                ⟨(Pools.get pools (tAt s i).asset).totalQty -
                  min (tAt s i).remainingQty
                    (Pools.get pools (tAt s i).asset).totalQty,
                 (Pools.get pools (tAt s i).asset).totalCostGBP -
                  min (tAt s i).remainingQty
                      (Pools.get pools (tAt s i).asset).totalQty *
                    (if 0 < (Pools.get pools (tAt s i).asset).totalQty then
                      (Pools.get pools (tAt s i).asset).totalCostGBP /
                        (Pools.get pools (tAt s i).asset).totalQty
                    else 0)⟩))
        else Except.ok (sA,
          Pools.set pools (tAt s i).asset
            ⟨(Pools.get pools (tAt s i).asset).totalQty -
              min (tAt s i).remainingQty
                (Pools.get pools (tAt s i).asset).totalQty,
             (Pools.get pools (tAt s i).asset).totalCostGBP -
              min (tAt s i).remainingQty
                  (Pools.get pools (tAt s i).asset).totalQty *
                (if 0 < (Pools.get pools (tAt s i).asset).totalQty then
                  (Pools.get pools (tAt s i).asset).totalCostGBP /
                    (Pools.get pools (tAt s i).asset).totalQty
                else 0)⟩)) = Except.ok (s', pools') := h
      have hinvA := applyMatchAt_inv s sA i none _ _ _ hap (min_le_left _ _)
        (fun j hj => absurd hj (by simp)) (by simp) hok
      have hissA : IssuesOK sA := by
        intro k hk
        rw [hinvA.2.2 k] at hk
        have hbase := hiss k hk
        by_cases hki : k = i
        · subst hki
          rw [hbase.1] at hrem
          exact absurd hrem (by norm_num)
        · obtain ⟨-, -, -, -, -, -, -, hotherA⟩ :=
            applyMatchAt_ok s sA i none _ _ _ hm (by simp) hap
          rw [hotherA k hki (by simp)]
          exact hbase
      have htail := sectionStep_tail_inv sA s' _ pools' i h' hinvA.1 hissA
        (by rw [hinvA.2.1.side_eq i]; exact hsell)
      obtain ⟨hok', hsc', hp', hiss', hrem', hoth'⟩ := htail
      have hpools1 : PoolsOK (Pools.set pools (tAt s i).asset
          ⟨(Pools.get pools (tAt s i).asset).totalQty -
            min (tAt s i).remainingQty
              (Pools.get pools (tAt s i).asset).totalQty,
           (Pools.get pools (tAt s i).asset).totalCostGBP -
            min (tAt s i).remainingQty
                (Pools.get pools (tAt s i).asset).totalQty *
              (if 0 < (Pools.get pools (tAt s i).asset).totalQty then
                (Pools.get pools (tAt s i).asset).totalCostGBP /
                  (Pools.get pools (tAt s i).asset).totalQty
              else 0)⟩) := by
        refine poolsOK_set _ _ _ hpool ?_ ?_
        · have := min_le_right (tAt s i).remainingQty
            (Pools.get pools (tAt s i).asset).totalQty
          simp only [sub_nonneg]
          exact this
        · rw [if_pos havail]
          have hc := (hpool (tAt s i).asset).2
          have hmle := min_le_right (tAt s i).remainingQty
            (Pools.get pools (tAt s i).asset).totalQty
          have hdivnn : 0 ≤ (Pools.get pools (tAt s i).asset).totalCostGBP /
              (Pools.get pools (tAt s i).asset).totalQty :=
            div_nonneg hc (le_of_lt havail)
          have hmul : min (tAt s i).remainingQty
                (Pools.get pools (tAt s i).asset).totalQty *
                ((Pools.get pools (tAt s i).asset).totalCostGBP /
                  (Pools.get pools (tAt s i).asset).totalQty) ≤
              (Pools.get pools (tAt s i).asset).totalQty *
                ((Pools.get pools (tAt s i).asset).totalCostGBP /
                  (Pools.get pools (tAt s i).asset).totalQty) :=
            mul_le_mul_of_nonneg_right hmle hdivnn
          rw [mul_div_cancel₀ _ (ne_of_gt havail)] at hmul
          simp only [sub_nonneg]
          exact hmul
      refine hsfin ⟨hok', sameCore_trans hinvA.2.1 hsc', ?_, hiss', hrem', ?_⟩
      · rw [hp']
        exact hpools1
      · intro k hk
        rw [hoth' k hk]
        obtain ⟨-, -, -, -, -, -, -, hotherA⟩ :=
          applyMatchAt_ok s sA i none _ _ _ hm (by simp) hap
        exact hotherA k hk (by simp)
  · rw [if_neg hm] at h
    have h' : (if poolEpsilon < (tAt s i).remainingQty then
        (match applyMatchAt s i none (tAt s i).remainingQty
            MatchRule.SECTION_104 0 with
        | Except.error e => Except.error e
        | Except.ok s2 =>
          Except.ok (setAt s2 i { tAt s2 i with
                issues := (tAt s2 i).issues ++
                  ["Section 104 pool exhausted for portion of disposal"],
                remainingQty := 0 }, pools))
      else Except.ok (s, pools)) = Except.ok (s', pools') := h
    have htail := sectionStep_tail_inv s s' pools pools' i h' hok hiss hsell
    obtain ⟨hok', hsc', hp', hiss', hrem', hoth'⟩ := htail
    refine hsfin ⟨hok', hsc', ?_, hiss', hrem', hoth'⟩
    rw [hp']
    exact hpool

/-- One Section 104 step preserves all invariants, changes no other
position, and leaves the stepped position (when it is a sell) with at
most `poolEpsilon` remaining. -/
theorem sectionStep_inv (s s' : State) (pools pools' : Pools) (i : Nat)
    (h : sectionStep s pools i = .ok (s', pools'))
    (hok : StateOK s) (hcost : CostOK s) (hpool : PoolsOK pools)
    (hiss : IssuesOK s) :
    StateOK s' ∧ SameCore s s' ∧ PoolsOK pools' ∧ IssuesOK s' ∧
    ((tAt s' i).side = .SELL → (tAt s' i).remainingQty ≤ poolEpsilon) ∧
    (∀ k, k ≠ i → tAt s' k = tAt s k) := by
  have h0 := h
  simp only [sectionStep] at h
  by_cases hside : (tAt s i).side = .BUY
  · rw [if_pos hside] at h
    by_cases hrem : 0 < (tAt s i).remainingQty
    · rw [if_pos hrem] at h
      have hi : i < s.length := by
        by_contra hge
        rw [tAt_oob s i (le_of_not_lt hge), default_remainingQty] at hrem
        exact absurd hrem (by norm_num)
      simp only [Except.ok.injEq, Prod.mk.injEq] at h
      obtain ⟨he1, he2⟩ := h
      subst he1
      subst he2
      have hti : tAt (setAt s i { tAt s i with remainingQty := 0 }) i =
          { tAt s i with remainingQty := 0 } := tAt_setAt_self s i _ hi
      refine ⟨?_, ?_, ?_, ?_, ?_, ?_⟩
      · rw [stateOK_iff]
        intro k
        by_cases hk : k = i
        · subst hk
          rw [hti]
          constructor
          · intro hsell2
            rw [hside] at hsell2
            simp at hsell2
          · exact le_refl 0
        · rw [tAt_setAt_ne _ _ _ _ hk]
          exact (stateOK_iff s).mp hok k
      · refine ⟨setAt_length _ _ _, fun k => ?_⟩
        by_cases hk : k = i
        · subst hk
          rw [hti]
          rfl
        · rw [tAt_setAt_ne _ _ _ _ hk]
      · refine poolsOK_set _ _ _ hpool ?_ ?_
        · have h1 := (hpool (tAt s i).asset).1
          have h2 := le_of_lt hrem
          positivity
        · have h1 := (hpool (tAt s i).asset).2
          have h2 := hcost i
          have h3 := le_of_lt hrem
          positivity
      · intro k hk
        by_cases hki : k = i
        · subst hki
          rw [hti] at hk ⊢
          have := hiss k hk
          exact ⟨rfl, this.2⟩
        · rw [tAt_setAt_ne _ _ _ _ hki] at hk ⊢
          exact hiss k hk
      · intro hsell2
        rw [hti] at hsell2 ⊢
        rw [hside] at hsell2
        simp at hsell2
      · intro k hk
        rw [tAt_setAt_ne _ _ _ _ hk]
    · rw [if_neg hrem] at h
      simp only [Except.ok.injEq, Prod.mk.injEq] at h
      obtain ⟨he1, he2⟩ := h
      subst he1
      subst he2
      refine ⟨hok, sameCore_refl s, hpool, hiss, ?_, fun _ _ => rfl⟩
      intro _
      calc (tAt s i).remainingQty ≤ 0 := le_of_not_lt hrem
        _ ≤ poolEpsilon := le_of_lt poolEpsilon_pos
  · have hsell : (tAt s i).side = .SELL := side_not_buy hside
    rw [if_neg hside] at h
    by_cases hrem : 0 < (tAt s i).remainingQty
    · exact sectionStep_sell_inv s s' pools pools' i h0 hok hcost hpool hiss
        hsell hrem
    · rw [if_neg hrem] at h
      simp only [Except.ok.injEq, Prod.mk.injEq] at h
      obtain ⟨he1, he2⟩ := h
      subst he1
      subst he2
      refine ⟨hok, sameCore_refl s, hpool, hiss, ?_, fun _ _ => rfl⟩
      intro _
      calc (tAt s i).remainingQty ≤ 0 := le_of_not_lt hrem
        _ ≤ poolEpsilon := le_of_lt poolEpsilon_pos

/-- The chronological Section 104 sweep: all invariants are preserved,
every processed sell ends with at most `poolEpsilon` remaining, every
snapshot taken is non-negative, and unprocessed positions are
untouched. -/
theorem sectionLoop_inv (snapAt : Option ℤ) :
    ∀ (idxs : List Nat) (s : State) (pools : Pools)
      (snap : Option Snapshots) (s' : State) (pools' : Pools)
      (snap' : Option Snapshots),
      sectionLoop snapAt s pools snap idxs = .ok (s', pools', snap') →
      StateOK s → CostOK s → PoolsOK pools → IssuesOK s →
      (∀ c, snap = some c → SnapOK c) →
      StateOK s' ∧ SameCore s s' ∧ PoolsOK pools' ∧ IssuesOK s' ∧
      (∀ c, snap' = some c → SnapOK c) ∧
      (∀ i ∈ idxs, (tAt s' i).side = .SELL →
        (tAt s' i).remainingQty ≤ poolEpsilon) ∧
      (∀ k, k ∉ idxs → tAt s' k = tAt s k) := by
  intro idxs
  induction idxs with
  | nil =>
    intro s pools snap s' pools' snap' h hok hcost hpool hiss hsnap
    simp only [sectionLoop, Except.ok.injEq, Prod.mk.injEq] at h
    obtain ⟨he1, he2, he3⟩ := h
    subst he1
    subst he2
    subst he3
    exact ⟨hok, sameCore_refl s, hpool, hiss, hsnap, by simp,
      fun _ _ => rfl⟩
  | cons i rest ih =>
    intro s pools snap s' pools' snap' h hok hcost hpool hiss hsnap
    rw [sectionLoop] at h
    rcases hst : sectionStep s pools i with e | v
    · rw [hst] at h
      exact absurd h (by simp)
    · rcases v with ⟨s1, pools1⟩
      rw [hst] at h
      have hstep := sectionStep_inv s s1 pools pools1 i hst hok hcost hpool hiss
      obtain ⟨hok1, hsc1, hpool1, hiss1, hsett1, hoth1⟩ := hstep
      have hsnap1 : ∀ c, (match snapAt with
          | some snapTime =>
            if (tAt s1 i).ts ≤ snapTime then some (clonePoolState pools1)
            else snap
          | none => snap) = some c → SnapOK c := by
        intro c hc
        cases snapAt with
        | none => exact hsnap c hc
        | some snapTime =>
          have hc' : (if (tAt s1 i).ts ≤ snapTime then
              some (clonePoolState pools1) else snap) = some c := hc
          by_cases hts : (tAt s1 i).ts ≤ snapTime
          · rw [if_pos hts] at hc'
            cases Option.some.inj hc'
            exact clonePoolState_ok pools1 hpool1
          · rw [if_neg hts] at hc'
            exact hsnap c hc'
      have hrec := ih s1 pools1 _ s' pools' snap' h hok1
        (costOK_of_sameCore hsc1 hcost) hpool1 hiss1 hsnap1
      obtain ⟨hok', hsc', hpool', hiss', hsnap', hsett', hoth'⟩ := hrec
      refine ⟨hok', sameCore_trans hsc1 hsc', hpool', hiss', hsnap', ?_, ?_⟩
      · intro j hj hsellj
        rcases List.mem_cons.mp hj with hji | hjr
        · subst hji
          by_cases hjrest : j ∈ rest
          · exact hsett' j hjrest hsellj
          · rw [hoth' j hjrest] at hsellj ⊢
            exact hsett1 hsellj
        · exact hsett' j hjr hsellj
      · intro k hk
        have hk1 : k ∉ rest := fun hh => hk (List.mem_cons_of_mem i hh)
        have hki : k ≠ i := fun hh => hk (hh ▸ List.mem_cons_self i rest)
        rw [hoth' k hk1, hoth1 k hki]

/-! ### Enrichment and reporting -/

/-- What `ensureEnriched` guarantees about its output. -/
theorem ensureEnriched_ok (t : Trade) (e : ETrade)
    (h : ensureEnriched t = .ok e) :
    e.id = t.id ∧ e.ts = t.ts ∧ e.asset = t.asset ∧ e.side = t.side ∧
    e.quantity = t.quantity ∧ e.remainingQty = t.quantity ∧
    e.matches' = [] ∧ e.issues = [] ∧
    ∃ d, t.derived = some d ∧ e.perUnitGBP = d.perUnitGBP ∧
      (t.side = .BUY →
        e.totalCostPerUnit =
          some ((d.gbpProceedsOrCost + d.feeGBP.getD 0) / t.quantity)) ∧
      (t.side = .SELL → e.totalCostPerUnit = none) := by
  cases hd : t.derived with
  | none =>
    rw [ensureEnriched, hd] at h
    exact absurd h (by simp)
  | some d =>
    simp only [ensureEnriched, hd] at h
    by_cases hside : t.side = .BUY
    · rw [if_pos hside] at h
      simp only [Except.ok.injEq] at h
      subst h
      refine ⟨rfl, rfl, rfl, rfl, rfl, rfl, rfl, rfl, d, rfl, rfl,
        fun _ => rfl, fun hs => ?_⟩
      rw [hside] at hs
      simp at hs
    · rw [if_neg hside] at h
      simp only [Except.ok.injEq] at h
      subst h
      exact ⟨rfl, rfl, rfl, rfl, rfl, rfl, rfl, rfl, d, rfl, rfl,
        fun hs => absurd hs hside, fun _ => rfl⟩

/-- Index-wise characterization of a successful `enrichAll`. -/
theorem enrichAll_ok : ∀ (trades : List Trade) (s0 : State),
    enrichAll trades = .ok s0 →
    s0.length = trades.length ∧
    ∀ k, k < trades.length →
      ensureEnriched (trades.getD k default) = .ok (tAt s0 k) := by
  intro trades
  induction trades with
  | nil =>
    intro s0 h
    simp only [enrichAll, Except.ok.injEq] at h
    subst h
    exact ⟨rfl, fun k hk => absurd hk (by simp)⟩
  | cons t rest ih =>
    intro s0 h
    rw [enrichAll] at h
    rcases he : ensureEnriched t with e | et
    · rw [he] at h
      exact absurd h (by simp)
    · rw [he] at h
      rcases hr : enrichAll rest with e | rest'
      · rw [hr] at h
        exact absurd h (by simp)
      · rw [hr] at h
        simp only [Except.ok.injEq] at h
        subst h
        obtain ⟨hlen, hidx⟩ := ih rest' hr
        refine ⟨by simp [hlen], fun k hk => ?_⟩
        cases k with
        | zero =>
          simpa [tAt] using he
        | succ k2 =>
          have hk2 : k2 < rest.length := by simpa using hk
          simpa [tAt] using hidx k2 hk2

theorem enrichAll_stateOK (trades : List Trade) (s0 : State)
    (h : enrichAll trades = .ok s0)
    (hq : ∀ t ∈ trades, 0 ≤ t.quantity) : StateOK s0 := by
  obtain ⟨hlen, hidx⟩ := enrichAll_ok trades s0 h
  rw [stateOK_iff]
  intro k
  by_cases hk : k < s0.length
  · have hk2 : k < trades.length := hlen ▸ hk
    have he := hidx k hk2
    obtain ⟨-, -, -, -, hq5, hr6, hm7, -, -⟩ :=
      ensureEnriched_ok _ _ he
    have hmem : trades.getD k default ∈ trades := by
      rw [List.getD_eq_getElem?_getD, List.getElem?_eq_getElem hk2]
      exact List.getElem_mem hk2
    constructor
    · intro _
      rw [hm7, hr6, hq5]
      show matchedQtySum [] + _ = _
      rw [show matchedQtySum [] = 0 from rfl, zero_add]
    · rw [hr6]
      exact hq _ hmem
  · rw [tAt_oob s0 k (le_of_not_lt hk)]
    exact accounted_default

theorem enrichAll_issuesOK (trades : List Trade) (s0 : State)
    (h : enrichAll trades = .ok s0) : IssuesOK s0 := by
  obtain ⟨hlen, hidx⟩ := enrichAll_ok trades s0 h
  intro k hk
  by_cases hklt : k < s0.length
  · have he := hidx k (hlen ▸ hklt)
    obtain ⟨-, -, -, -, -, -, -, hi8, -⟩ := ensureEnriched_ok _ _ he
    exact absurd hi8 hk
  · rw [tAt_oob s0 k (le_of_not_lt hklt)] at hk
    exact absurd rfl hk

theorem enrichAll_costOK (trades : List Trade) (s0 : State)
    (h : enrichAll trades = .ok s0)
    (hv : ∀ t ∈ trades, WellValued t) : CostOK s0 := by
  obtain ⟨hlen, hidx⟩ := enrichAll_ok trades s0 h
  intro k
  by_cases hklt : k < s0.length
  · have hk2 : k < trades.length := hlen ▸ hklt
    have he := hidx k hk2
    have hmem : trades.getD k default ∈ trades := by
      rw [List.getD_eq_getElem?_getD, List.getElem?_eq_getElem hk2]
      exact List.getElem_mem hk2
    obtain ⟨hq0, hd0⟩ := hv _ hmem
    obtain ⟨-, -, -, -, -, -, -, -, d, hd, hpu, hbuy, hsell⟩ :=
      ensureEnriched_ok _ _ he
    obtain ⟨hd1, hd2, hd3⟩ := hd0 d hd
    cases hside : (trades.getD k default).side with
    | BUY =>
      rw [hbuy hside]
      show (0 : ℚ) ≤ (d.gbpProceedsOrCost + d.feeGBP.getD 0) / _
      positivity
    | SELL =>
      rw [hsell hside, Option.getD_none, hpu]
      exact hd1
  · rw [tAt_oob s0 k (le_of_not_lt hklt)]
    show (0 : ℚ) ≤ (none : Option ℚ).getD 0
    norm_num
/-- Every reported disposal is built from a sell in the final state. -/
theorem reportLoop_disposals_mem (opts : HmrcOptions) :
    ∀ (l : State) (ds : List DisposalReport) (ms : List FlatMatchLine)
      (tt : Totals) (iss : List String) (d : DisposalReport),
      d ∈ (reportLoop opts ds ms tt iss l).1 →
      d ∈ ds ∨ ∃ t ∈ l, t.side = .SELL ∧ d = buildDisposalReport t := by
  intro l
  induction l with
  | nil =>
    intro ds ms tt iss d hd
    exact Or.inl hd
  | cons t rest ih =>
    intro ds ms tt iss d hd
    rw [reportLoop] at hd
    by_cases hside : t.side = .SELL
    · rw [if_pos hside] at hd
      by_cases hw : inWindow opts t.ts
      · rw [if_pos hw] at hd
        rcases ih _ _ _ _ d hd with hin | ⟨t2, ht2, hs2, hd2⟩
        · rcases List.mem_append.mp hin with hin2 | hin2
          · exact Or.inl hin2
          · refine Or.inr ⟨t, List.mem_cons_self t rest, hside, ?_⟩
            simpa using hin2
        · exact Or.inr ⟨t2, List.mem_cons_of_mem t ht2, hs2, hd2⟩
      · rw [if_neg hw] at hd
        rcases ih _ _ _ _ d hd with hin | ⟨t2, ht2, hs2, hd2⟩
        · exact Or.inl hin
        · exact Or.inr ⟨t2, List.mem_cons_of_mem t ht2, hs2, hd2⟩
    · rw [if_neg hside] at hd
      rcases ih _ _ _ _ d hd with hin | ⟨t2, ht2, hs2, hd2⟩
      · exact Or.inl hin
      · exact Or.inr ⟨t2, List.mem_cons_of_mem t ht2, hs2, hd2⟩

/-- Destructuring of a successful `computeHmrc` run into its stages. -/
theorem computeHmrc_ok_elim (dayOf : ℤ → ℤ) (trades : List Trade)
    (opts : HmrcOptions) (c : HmrcComputation)
    (h : computeHmrc dayOf trades opts = .ok c) :
    ∃ s0 s1 s2 s3 pools snap,
      enrichAll trades = .ok s0 ∧ matchSameDay dayOf s0 = .ok s1 ∧
      matchThirtyDay dayOf s1 = .ok s2 ∧
      sectionLoop opts.poolSnapshotAt s2 initPools none
        (sortByTs s2 (List.range s2.length)) = .ok (s3, pools, snap) ∧
      c.pools = (match snap with
                 | some cc => cc
                 | none => clonePoolState pools) ∧
      c.disposals = (reportLoop opts [] [] ⟨0, 0, 0⟩ [] s3).1 := by
  rw [computeHmrc] at h
  rcases h0 : enrichAll trades with e | s0
  · rw [h0] at h
    exact absurd h (by simp)
  · rw [h0] at h
    dsimp only [] at h
    rcases h1 : matchSameDay dayOf s0 with e | s1
    · rw [h1] at h
      exact absurd h (by simp)
    · rw [h1] at h
      dsimp only [] at h
      rcases h2 : matchThirtyDay dayOf s1 with e | s2
      · rw [h2] at h
        exact absurd h (by simp)
      · rw [h2] at h
        dsimp only [] at h
        rcases h3 : sectionLoop opts.poolSnapshotAt s2 initPools none
            (sortByTs s2 (List.range s2.length)) with e | v
        · rw [h3] at h
          exact absurd h (by simp)
        · rcases v with ⟨s3, pools, snap⟩
          rw [h3] at h
          dsimp only [] at h
          refine ⟨s0, s1, s2, s3, pools, snap, ?_, h1, h2, h3, ?_, ?_⟩
          · first
            | rfl
            | exact h0
          · rcases hrl : reportLoop opts [] [] ⟨0, 0, 0⟩ [] s3 with
              ⟨ds, ms, tt, iss⟩
            rw [hrl] at h
            dsimp only [] at h
            rw [← Except.ok.inj h]
          · rcases hrl : reportLoop opts [] [] ⟨0, 0, 0⟩ [] s3 with
              ⟨ds, ms, tt, iss⟩
            rw [hrl] at h
            dsimp only [] at h
            rw [← Except.ok.inj h]

/-- C1 (amended): for every disposal reported by `computeHmrc` (on
trades with non-negative quantities and valuations), the sum of matched
quantities across its SAME_DAY, WITHIN_30_DAYS and SECTION_104 lines
equals the sell's original quantity minus a remainder `r` with
`0 ≤ r ≤ 0.0000001` (the dust threshold), and the closing pool
quantities, costs and average costs are never negative.  When a
pool-exhaustion issue is recorded on the disposal, however, the
remainder IS matched — the code emits an extra zero-allowable-cost
SECTION_104 line for it and zeroes the remainder — so the matched sum
equals the full quantity (`r = 0`), contrary to the claim that the sum
then falls short by the unmatched remainder. -/
theorem computeHmrc_disposal_accounting (dayOf : ℤ → ℤ)
    (trades : List Trade) (opts : HmrcOptions) (c : HmrcComputation)
    (h : computeHmrc dayOf trades opts = .ok c)
    (hv : ∀ t ∈ trades, WellValued t) :
    SnapOK c.pools ∧
    ∀ d ∈ c.disposals, ∃ r : ℚ,
      matchedQtySum d.matches' + r = d.quantity ∧
      0 ≤ r ∧ r ≤ poolEpsilon ∧
      (d.issues ≠ none → r = 0 ∧
        ∃ m ∈ d.matches', m.rule = .SECTION_104 ∧ m.allowableCostGBP = 0) := by
  obtain ⟨s0, s1, s2, s3, pools, snap, hs0, h1, h2, h3, hpools, hdisp⟩ :=
    computeHmrc_ok_elim dayOf trades opts c h
  have hq : ∀ t ∈ trades, 0 ≤ t.quantity := fun t ht => (hv t ht).1
  have hok0 : StateOK s0 := enrichAll_stateOK trades s0 hs0 hq
  have hcost0 : CostOK s0 := enrichAll_costOK trades s0 hs0 hv
  have hie0 : ∀ k, (tAt s0 k).issues = [] := by
    obtain ⟨hlen, hidx⟩ := enrichAll_ok trades s0 hs0
    intro k
    by_cases hklt : k < s0.length
    · obtain ⟨-, -, -, -, -, -, -, hi8, -⟩ :=
        ensureEnriched_ok _ _ (hidx k (hlen ▸ hklt))
      exact hi8
    · rw [tAt_oob s0 k (le_of_not_lt hklt)]
      rfl
  obtain ⟨hok1, hsc1, hie1⟩ := matchSameDay_inv dayOf s0 s1 h1 hok0
  obtain ⟨hok2, hsc2, hie2⟩ := matchThirtyDay_inv dayOf s1 s2 h2 hok1
  have hcost2 : CostOK s2 :=
    costOK_of_sameCore (sameCore_trans hsc1 hsc2) hcost0
  have hie2' : ∀ k, (tAt s2 k).issues = [] :=
    fun k => ((hie2 k).trans (hie1 k)).trans (hie0 k)
  have hiss2 : IssuesOK s2 := by
    intro k hk
    rw [hie2' k] at hk
    exact absurd rfl hk
  have hpoolInit : PoolsOK initPools := by
    intro a
    cases a <;> exact ⟨le_refl 0, le_refl 0⟩
  obtain ⟨hok3, hsc3, hpool3, hiss3, hsnap3, hsett3, -⟩ :=
    sectionLoop_inv opts.poolSnapshotAt
      (sortByTs s2 (List.range s2.length)) s2 initPools none s3 pools snap
      h3 hok2 hcost2 hpoolInit hiss2 (fun cc hc => nomatch hc)
  refine ⟨?_, ?_⟩
  · rw [hpools]
    cases snap with
    | none => exact clonePoolState_ok pools hpool3
    | some cc => exact hsnap3 cc rfl
  · intro d hd
    rw [hdisp] at hd
    rcases reportLoop_disposals_mem opts s3 [] [] ⟨0, 0, 0⟩ [] d hd with
      hnil | ⟨t, ht, hsell, hdt⟩
    · exact absurd hnil (by simp)
    · obtain ⟨k, hk, hkt⟩ := List.getElem_of_mem ht
      have htk : tAt s3 k = t := by
        rw [tAt, List.getD_eq_getElem?_getD, List.getElem?_eq_getElem hk]
        simpa using hkt
      have hk2 : k < s2.length := hsc3.1 ▸ hk
      have hrem : t.remainingQty ≤ poolEpsilon := by
        rw [← htk]
        exact hsett3 k (mem_sortByTs.mpr (List.mem_range.mpr hk2))
          (htk ▸ hsell)
      obtain ⟨hacc, hnn⟩ := hok3 t ht
      refine ⟨t.remainingQty, ?_, hnn, hrem, ?_⟩
      · rw [hdt]
        exact hacc hsell
      · intro hdi
        have hti : t.issues ≠ [] := by
          intro hti0
          rw [hdt] at hdi
          exact hdi (by simp [buildDisposalReport, hti0])
        have hz := hiss3 k (htk ▸ hti)
        rw [htk] at hz
        exact ⟨hz.1, by rw [hdt]; exact hz.2⟩

/-- C1 witness: on a single one-BTC acquisition the theorem's hypotheses
hold and the conclusion is verified on the concrete output: no disposals
and a non-negative closing pool. -/
theorem computeHmrc_disposal_accounting_witness :
    SnapOK buyOneComputation.pools ∧
    ∀ d ∈ buyOneComputation.disposals, ∃ r : ℚ,
      matchedQtySum d.matches' + r = d.quantity ∧
      0 ≤ r ∧ r ≤ poolEpsilon ∧
      (d.issues ≠ none → r = 0 ∧
        ∃ m ∈ d.matches', m.rule = .SECTION_104 ∧ m.allowableCostGBP = 0) :=
  computeHmrc_disposal_accounting dayOfUTC [buyOne] {} buyOneComputation
    (by with_unfolding_all rfl)
    (by
      intro t ht
      rw [List.mem_singleton] at ht
      subst ht
      refine ⟨by norm_num [buyOne], fun d hd => ?_⟩
      rw [show buyOne.derived =
        some ⟨500, 500, none, some .NONE⟩ from rfl] at hd
      rw [← Option.some.inj hd]
      refine ⟨by norm_num, by norm_num, ?_⟩
      show (0 : ℚ) ≤ (none : Option ℚ).getD 0
      norm_num)

/-- C1 counterexample: a 5-BTC disposal against an empty Section 104
pool gets a pool-exhaustion issue, yet its matched-quantity sum equals
the FULL original quantity 5 — the exhausted remainder is matched by a
zero-cost SECTION_104 line rather than left unmatched — refuting the
claimed "the sum falls short by exactly the unmatched remainder (the
remainder is not matched, so no match line is produced for it)". -/
theorem computeHmrc_issue_fully_matched :
    (computeHmrc dayOfUTC [sellFive] {}).map (fun c =>
        c.disposals.map (fun d =>
          (d.issues.isSome, matchedQtySum d.matches', d.quantity))) =
      .ok [(true, 5, 5)] := by
  with_unfolding_all rfl

/-- When the snapshot time precedes every processed trade's timestamp,
the sweep never takes a snapshot, and the run coincides with the
no-snapshot-option run. -/
theorem sectionLoop_snap_none (snapT : ℤ) :
    ∀ (idxs : List Nat) (s : State) (pools : Pools)
      (s' : State) (pools' : Pools) (snap' : Option Snapshots),
      sectionLoop (some snapT) s pools none idxs = .ok (s', pools', snap') →
      StateOK s → CostOK s → PoolsOK pools → IssuesOK s →
      (∀ i ∈ idxs, snapT < (tAt s i).ts) →
      snap' = none ∧
      sectionLoop none s pools none idxs = .ok (s', pools', none) := by
  intro idxs
  induction idxs with
  | nil =>
    intro s pools s' pools' snap' h hok hcost hpool hiss hts
    simp only [sectionLoop, Except.ok.injEq, Prod.mk.injEq] at h
    obtain ⟨he1, he2, he3⟩ := h
    subst he1
    subst he2
    subst he3
    exact ⟨rfl, rfl⟩
  | cons i rest ih =>
    intro s pools s' pools' snap' h hok hcost hpool hiss hts
    rw [sectionLoop] at h
    rcases hst : sectionStep s pools i with e | v
    · rw [hst] at h
      exact absurd h (by simp)
    · rcases v with ⟨s1, pools1⟩
      rw [hst] at h
      dsimp only [] at h
      obtain ⟨hok1, hsc1, hpool1, hiss1, -, -⟩ :=
        sectionStep_inv s s1 pools pools1 i hst hok hcost hpool hiss
      have hts_i : snapT < (tAt s1 i).ts := by
        rw [SameCore.ts_eq hsc1 i]
        exact hts i (List.mem_cons_self i rest)
      rw [if_neg (not_le.mpr hts_i)] at h
      have hcost1 : CostOK s1 := costOK_of_sameCore hsc1 hcost
      have hts1 : ∀ j ∈ rest, snapT < (tAt s1 j).ts := by
        intro j hj
        rw [SameCore.ts_eq hsc1 j]
        exact hts j (List.mem_cons_of_mem i hj)
      obtain ⟨hsn, hrun⟩ :=
        ih s1 pools1 s' pools' snap' h hok1 hcost1 hpool1 hiss1 hts1
      refine ⟨hsn, ?_⟩
      rw [sectionLoop, hst]
      exact hrun

/-- C2 (amended): for every trade set (with non-negative quantities and
valuations) and every snapshot time that strictly precedes the
timestamps of all trades, `computeHmrc` does NOT return the
empty/zeroed pool state: the sweep never records a snapshot, the code
falls back to cloning the pools at the END of the chronological sweep,
and the returned pools are exactly those of the run with no snapshot
option at all. -/
theorem computeHmrc_snapshot_before_all (dayOf : ℤ → ℤ)
    (trades : List Trade) (opts : HmrcOptions) (snapT : ℤ)
    (c : HmrcComputation)
    (hopt : opts.poolSnapshotAt = some snapT)
    (hts : ∀ t ∈ trades, snapT < t.ts)
    (hv : ∀ t ∈ trades, WellValued t)
    (h : computeHmrc dayOf trades opts = .ok c) :
    ∃ c', computeHmrc dayOf trades
        { opts with poolSnapshotAt := none } = .ok c' ∧
      c.pools = c'.pools := by
  obtain ⟨s0, s1, s2, s3, pools, snap, hs0, h1, h2, h3, hpools, -⟩ :=
    computeHmrc_ok_elim dayOf trades opts c h
  have hq : ∀ t ∈ trades, 0 ≤ t.quantity := fun t ht => (hv t ht).1
  have hok0 : StateOK s0 := enrichAll_stateOK trades s0 hs0 hq
  have hcost0 : CostOK s0 := enrichAll_costOK trades s0 hs0 hv
  have hie0 : ∀ k, (tAt s0 k).issues = [] := by
    obtain ⟨hlen, hidx⟩ := enrichAll_ok trades s0 hs0
    intro k
    by_cases hklt : k < s0.length
    · obtain ⟨-, -, -, -, -, -, -, hi8, -⟩ :=
        ensureEnriched_ok _ _ (hidx k (hlen ▸ hklt))
      exact hi8
    · rw [tAt_oob s0 k (le_of_not_lt hklt)]
      rfl
  obtain ⟨hok1, hsc1, hie1⟩ := matchSameDay_inv dayOf s0 s1 h1 hok0
  obtain ⟨hok2, hsc2, hie2⟩ := matchThirtyDay_inv dayOf s1 s2 h2 hok1
  have hsc02 : SameCore s0 s2 := sameCore_trans hsc1 hsc2
  have hcost2 : CostOK s2 := costOK_of_sameCore hsc02 hcost0
  have hiss2 : IssuesOK s2 := by
    intro k hk
    rw [(hie2 k).trans ((hie1 k).trans (hie0 k))] at hk
    exact absurd rfl hk
  have hpoolInit : PoolsOK initPools := by
    intro a
    cases a <;> exact ⟨le_refl 0, le_refl 0⟩
  rw [hopt] at h3
  have hts2 : ∀ i ∈ sortByTs s2 (List.range s2.length),
      snapT < (tAt s2 i).ts := by
    intro i hi
    have hi2 : i < s2.length := List.mem_range.mp (mem_sortByTs.mp hi)
    obtain ⟨hlen, hidx⟩ := enrichAll_ok trades s0 hs0
    have hi0 : i < s0.length := hsc02.1 ▸ hi2
    have hitr : i < trades.length := hlen ▸ hi0
    obtain ⟨-, hts0, -⟩ := ensureEnriched_ok _ _ (hidx i hitr)
    have hmem : trades.getD i default ∈ trades := by
      rw [List.getD_eq_getElem?_getD, List.getElem?_eq_getElem hitr]
      exact List.getElem_mem hitr
    rw [SameCore.ts_eq hsc02 i, hts0]
    exact hts _ hmem
  obtain ⟨hsn, hrun⟩ := sectionLoop_snap_none snapT
    (sortByTs s2 (List.range s2.length)) s2 initPools s3 pools snap
    h3 hok2 hcost2 hpoolInit hiss2 hts2
  rcases hrl : reportLoop { opts with poolSnapshotAt := none }
      [] [] ⟨0, 0, 0⟩ [] s3 with ⟨ds, ms, tt, iss⟩
  refine ⟨{ disposals := ds, matchLines := ms,
            pools := clonePoolState pools,
            overallGainGBP := tt.BTC + tt.ETH + tt.USDT,
            byAsset := tt, issues := iss }, ?_, ?_⟩
  · rw [computeHmrc, hs0]
    dsimp only []
    rw [h1]
    dsimp only []
    rw [h2]
    dsimp only []
    rw [hrun]
    dsimp only []
    rw [hrl]
  · rw [hpools, hsn]

/-- C2 witness: on the single acquisition `buyOne` (timestamp 100) with
snapshot time 50, the theorem applies and the no-snapshot run returns
the same (end-of-sweep, non-zero) pools. -/
theorem computeHmrc_snapshot_before_all_witness :
    ∃ c', computeHmrc dayOfUTC [buyOne]
        { ({ poolSnapshotAt := some 50 } : HmrcOptions) with
          poolSnapshotAt := none } = .ok c' ∧
      buyOneComputation.pools = c'.pools :=
  computeHmrc_snapshot_before_all dayOfUTC [buyOne]
    { poolSnapshotAt := some 50 } 50 buyOneComputation rfl
    (by
      intro t ht
      rw [List.mem_singleton] at ht
      subst ht
      norm_num [buyOne])
    (by
      intro t ht
      rw [List.mem_singleton] at ht
      subst ht
      refine ⟨by norm_num [buyOne], fun d hd => ?_⟩
      rw [show buyOne.derived =
        some ⟨500, 500, none, some .NONE⟩ from rfl] at hd
      rw [← Option.some.inj hd]
      refine ⟨by norm_num, by norm_num, ?_⟩
      show (0 : ℚ) ≤ (none : Option ℚ).getD 0
      norm_num)
    (by with_unfolding_all rfl)

/-- C2 counterexample: with the snapshot time 50 preceding the only
trade's timestamp 100, the returned BTC pool is the END-of-sweep pool
(one unit, 500 GBP cost, 500 GBP average cost) — not the claimed
empty/zeroed pool state. -/
theorem computeHmrc_snapshot_before_all_nonzero :
    (computeHmrc dayOfUTC [buyOne]
        { poolSnapshotAt := some 50 }).map (fun c => c.pools.BTC) =
      .ok ⟨1, 500, 500⟩ := by
  with_unfolding_all rfl

/-- C4: every match line the 30-day pass appends to a position pairs
that (sell) position with a buy of the same asset whose timestamp is
strictly after the sell's and whose civil-day difference is in [1, 30];
the lines appear in ascending buy-timestamp order; each matched
quantity is positive (so buys fully consumed by the same-day pass,
whose remaining quantity is zero, are skipped) and bounded by the
buy's remaining quantity at the start of the pass (partially consumed
buys contribute only their remaining quantity); and only sells receive
lines. -/
theorem matchThirtyDay_within30 (dayOf : ℤ → ℤ) (s s' : State)
    (h : matchThirtyDay dayOf s = .ok s') (hok : StateOK s) :
    ∀ k, ∃ (L : List MatchLine) (js : List Nat),
      (tAt s' k).matches' = (tAt s k).matches' ++ L ∧
      ThirtyLines dayOf s k L js ∧
      List.Pairwise (fun x y => (tAt s x).ts ≤ (tAt s y).ts) js ∧
      (∀ j ∈ js, (tAt s j).asset = (tAt s k).asset) ∧
      (L ≠ [] → (tAt s k).side = .SELL) := by
  obtain ⟨-, -, -, hL⟩ := thirtyDayAssets_lines dayOf (assetsInOrder s)
    s s' h (assetsInOrder_nodup s) hok
  intro k
  obtain ⟨L, js, hm, hTL, hpw, hass, hsa⟩ := hL k
  exact ⟨L, js, hm, hTL, hpw, hass, fun hne => (hsa hne).1⟩

/-- C4 witness: on a 2-BTC sell followed five days later by a 1-BTC
buy, the pass appends a single eligible WITHIN_30_DAYS line and the
theorem's conclusion is verified at the sell's position. -/
theorem matchThirtyDay_within30_witness :
    ∃ (L : List MatchLine) (js : List Nat),
      (tAt thirtyResult 0).matches' = (tAt thirtyState 0).matches' ++ L ∧
      ThirtyLines dayOfUTC thirtyState 0 L js ∧
      List.Pairwise (fun x y =>
        (tAt thirtyState x).ts ≤ (tAt thirtyState y).ts) js ∧
      (∀ j ∈ js, (tAt thirtyState j).asset = (tAt thirtyState 0).asset) ∧
      (L ≠ [] → (tAt thirtyState 0).side = .SELL) :=
  matchThirtyDay_within30 dayOfUTC thirtyState thirtyResult
    (by with_unfolding_all rfl)
    (by
      intro t ht
      rcases List.mem_cons.mp ht with h | h
      · subst h
        refine ⟨fun _ => ?_, by norm_num [eSell]⟩
        show matchedQtySum [] + (2 : ℚ) = 2
        norm_num [matchedQtySum]
      · rw [List.mem_singleton] at h
        subst h
        refine ⟨fun hs => absurd hs (by decide), by norm_num [eBuy]⟩)
    0

/-- C3: contrary to the specified behaviour, a trade with `priceGBP`
absent, `priceZAR` present and `fx_gbp_zar` absent is REJECTED: the
entry guard `!priceGBP && (!priceZAR || !fx_gbp_zar)` throws
`"GBP valuation required"` whenever the FX rate is missing, regardless
of `priceZAR` and regardless of what the external FX provider would
return, so the provider-lookup branch of `resolveDerived` is
unreachable. -/
theorem resolveDerived_zar_only_rejected (prov : String → Option ℚ)
    (dateKey : ℤ → String) (t : Trade)
    (hg : t.priceGBP = none) (hfx : t.fx_gbp_zar = none) :
    resolveDerived prov dateKey t = .error "GBP valuation required" := by
  simp [resolveDerived, hg, hfx, truthyQ]

/-- C3 witness: the concrete ZAR-only trade is rejected even though the
concrete provider has a rate for every date. -/
theorem resolveDerived_zar_only_rejected_witness :
    resolveDerived provConst dateKeyConst zarOnlyTrade =
      .error "GBP valuation required" :=
  resolveDerived_zar_only_rejected provConst dateKeyConst zarOnlyTrade rfl rfl

/-- On the non-throwing path with `priceGBP` present, `resolveDerived`
reduces to a fee conversion: the FX-lookup branch is unreachable and the
derived fields are computed from the trade's own fields. -/
theorem resolveDerived_gbp_char (prov : String → Option ℚ)
    (dateKey : ℤ → String) (t : Trade) (p : ℚ)
    (hp : t.priceGBP = some p)
    (hG : ¬(truthyQ t.priceGBP = false ∧
            (truthyQ t.priceZAR = false ∨ truthyQ t.fx_gbp_zar = false))) :
    resolveDerived prov dateKey t =
      match convertFeeToGBP prov dateKey t.fee p t.fx_gbp_zar t.ts with
      | .error e => .error e
      | .ok (r, n2) =>
        .ok ({ t with derived := some ⟨p, p * t.quantity, r,
                some (if truthyQ t.fx_gbp_zar then .USER else .NONE)⟩ }, n2) := by
  have hC : ¬(truthyQ t.priceGBP = false ∧ truthyQ t.priceZAR = true ∧
      truthyQ t.fx_gbp_zar = false) := by
    rintro ⟨h1, _, h3⟩
    exact hG ⟨h1, Or.inr h3⟩
  rw [resolveDerived, if_neg hG]
  simp only [if_neg hC]
  by_cases hfx : truthyQ t.fx_gbp_zar
  · simp only [if_pos hfx, hp]
    cases hcv : convertFeeToGBP prov dateKey t.fee p t.fx_gbp_zar t.ts with
    | error e => simp [hcv]
    | ok v => cases v with
      | mk r n2 => simp [hcv, hfx]
  · simp only [if_neg hfx, hp]
    cases hcv : convertFeeToGBP prov dateKey t.fee p t.fx_gbp_zar t.ts with
    | error e => simp [hcv]
    | ok v => cases v with
      | mk r n2 => simp [hcv, hfx]

/-- A successful fee conversion makes at most one external call, and
makes one exactly when the fee is ZAR-denominated and no (nonzero) FX
rate is on the trade. -/
theorem convertFeeToGBP_calls (prov : String → Option ℚ)
    (dateKey : ℤ → String) (fee : Option Money) (pu : ℚ) (fx : Option ℚ)
    (ts : ℤ) (r : Option ℚ) (n2 : Nat)
    (h : convertFeeToGBP prov dateKey fee pu fx ts = .ok (r, n2)) :
    n2 ≤ 1 ∧
    (n2 = 0 ↔ ¬(∃ f, fee = some f ∧ f.currency = .ZAR ∧ truthyQ fx = false)) := by
  cases fee with
  | none =>
    simp [convertFeeToGBP] at h
    obtain ⟨-, h2⟩ := h
    subst h2
    simp
  | some f =>
    rcases f with ⟨amt, cur⟩
    cases cur <;> simp [convertFeeToGBP] at h
    · -- GBP
      obtain ⟨-, h2⟩ := h
      subst h2
      simp
    · -- ZAR
      by_cases hfx : truthyQ fx = false
      · rw [if_pos hfx] at h
        cases hpr : prov (dateKey ts) with
        | none => rw [hpr] at h; simp at h
        | some rate =>
          rw [hpr] at h
          simp at h
          obtain ⟨-, h2⟩ := h
          subst h2
          simp [hfx]
      · rw [if_neg hfx] at h
        simp at h
        obtain ⟨-, h2⟩ := h
        subst h2
        simp [hfx]
    · -- ASSET
      obtain ⟨-, h2⟩ := h
      subst h2
      simp
    · -- USD
      obtain ⟨-, h2⟩ := h
      subst h2
      simp

/-- Updating a record field to the value it already holds is the
identity. -/
theorem Trade.update_derived_self (t : Trade) (d : Option Derived)
    (h : t.derived = d) : { t with derived := d } = t := by
  cases t
  cases h
  rfl

/-- A trade `u` whose valuation inputs agree with `t` and whose derived
fields are exactly what resolving `t` (with `priceGBP = p`) produces
resolves to itself with the same call count. -/
theorem resolveDerived_second (prov : String → Option ℚ)
    (dateKey : ℤ → String) (t u : Trade) (p : ℚ) (r : Option ℚ) (n2 : Nat)
    (hpt : t.priceGBP = some p)
    (hpu : u.priceGBP = some p)
    (hpz : u.priceZAR = t.priceZAR) (hfx : u.fx_gbp_zar = t.fx_gbp_zar)
    (hfee : u.fee = t.fee) (hts : u.ts = t.ts) (hq : u.quantity = t.quantity)
    (hder : u.derived = some ⟨p, p * t.quantity, r,
        some (if truthyQ t.fx_gbp_zar then .USER else .NONE)⟩)
    (hG : ¬(truthyQ t.priceGBP = false ∧
            (truthyQ t.priceZAR = false ∨ truthyQ t.fx_gbp_zar = false)))
    (hcv : convertFeeToGBP prov dateKey t.fee p t.fx_gbp_zar t.ts =
        .ok (r, n2)) :
    resolveDerived prov dateKey u = .ok (u, n2) := by
  have hG' : ¬(truthyQ u.priceGBP = false ∧
      (truthyQ u.priceZAR = false ∨ truthyQ u.fx_gbp_zar = false)) := by
    rw [hpt] at hG
    rw [hpu, hpz, hfx]
    exact hG
  rw [resolveDerived_gbp_char prov dateKey u p hpu hG']
  rw [hfee, hfx, hts, hcv]
  dsimp only
  rw [← hfee, ← hfx, ← hts]
  have hder' : u.derived = some ⟨p, p * u.quantity, r,
      some (if truthyQ u.fx_gbp_zar then .USER else .NONE)⟩ := by
    rw [hq, hfx]
    exact hder
  rw [Trade.update_derived_self u _ hder']

/-- C8 (amended): for a trade with `priceGBP` set, resolution is
idempotent — re-resolving the resolved trade returns it unchanged with
identical derived fields — and it makes at most one external FX call;
it makes none unless the trade carries a ZAR-denominated fee with no FX
rate, in which case EVERY resolution (the first and each re-resolution)
performs one external call, because the rate fetched for the fee is not
stored back on the trade. -/
theorem resolveDerived_gbp_idempotent (prov : String → Option ℚ)
    (dateKey : ℤ → String) (t : Trade) (p : ℚ) (t' : Trade) (n : Nat)
    (hp : t.priceGBP = some p)
    (h : resolveDerived prov dateKey t = .ok (t', n)) :
    resolveDerived prov dateKey t' = .ok (t', n) ∧ n ≤ 1 ∧
    (n = 0 ↔ ¬(∃ f, t.fee = some f ∧ f.currency = .ZAR ∧
                    truthyQ t.fx_gbp_zar = false)) := by
  by_cases hG : (truthyQ t.priceGBP = false ∧
      (truthyQ t.priceZAR = false ∨ truthyQ t.fx_gbp_zar = false))
  · rw [resolveDerived, if_pos hG] at h
    exact absurd h (by simp)
  · rw [resolveDerived_gbp_char prov dateKey t p hp hG] at h
    cases hcv : convertFeeToGBP prov dateKey t.fee p t.fx_gbp_zar t.ts with
    | error e => rw [hcv] at h; exact absurd h (by simp)
    | ok v =>
      rcases v with ⟨r, n2⟩
      rw [hcv] at h
      simp only [Except.ok.injEq, Prod.mk.injEq] at h
      obtain ⟨ht', hn⟩ := h
      subst hn
      have hcalls := convertFeeToGBP_calls prov dateKey t.fee p t.fx_gbp_zar
        t.ts r n2 hcv
      refine ⟨?_, hcalls.1, hcalls.2⟩
      exact resolveDerived_second prov dateKey t t' p r n2 hp
        (by rw [← ht']; exact hp) (by rw [← ht']) (by rw [← ht'])
        (by rw [← ht']) (by rw [← ht']) (by rw [← ht']) (by rw [← ht'])
        hG hcv

/-- C8 witness: the fixture GBP-priced trade with a ZAR fee re-resolves
to itself, with exactly one external call per resolution. -/
theorem resolveDerived_gbp_idempotent_witness :
    resolveDerived provConst dateKeyConst
        { gbpZarFeeTrade with derived := some ⟨100, 100, some (5/2), some .NONE⟩ } =
      .ok ({ gbpZarFeeTrade with
             derived := some ⟨100, 100, some (5/2), some .NONE⟩ }, 1) ∧
    (1 : Nat) ≤ 1 := by
  refine ⟨(resolveDerived_gbp_idempotent provConst dateKeyConst gbpZarFeeTrade
    100 _ 1 rfl ?_).1, le_refl 1⟩
  with_unfolding_all rfl

/-- C8 counterexample: resolving a trade with `priceGBP` set CAN make an
external FX call — the concrete GBP-priced trade with a ZAR fee and no
FX rate performs one provider call on every resolution (the rate is not
cached on the trade), refuting "makes no external FX call". -/
theorem resolveDerived_gbp_makes_external_call :
    resolveDerived provConst dateKeyConst gbpZarFeeTrade =
      .ok ({ gbpZarFeeTrade with
             derived := some ⟨100, 100, some (5/2), some .NONE⟩ }, 1) ∧
    (1 : Nat) ≠ 0 := by
  constructor
  · with_unfolding_all rfl
  · exact one_ne_zero

/-- Point lookup after a point write at the same key. -/
theorem storGet_storPut_self (st : Store) (k : String) (v : StoreVal) :
    storGet (storPut st k v) k = some v := by
  induction st with
  | nil => simp [storPut, storGet]
  | cons e rest ih =>
    rcases e with ⟨k', v'⟩
    by_cases hlt : keyLt k k'
    · simp [storPut, hlt, storGet]
    · by_cases heq : k = k'
      · subst heq
        simp [storPut, hlt, storGet]
      · have hne' : ¬k' = k := fun h => heq h.symm
        simp [storPut, hlt, heq, storGet, hne', ih]

/-- Point lookup after a point write at a different key. -/
theorem storGet_storPut_ne (st : Store) (k k2 : String) (v : StoreVal)
    (hne : k2 ≠ k) : storGet (storPut st k v) k2 = storGet st k2 := by
  have hne' : ¬k = k2 := Ne.symm hne
  induction st with
  | nil => simp [storPut, storGet, hne']
  | cons e rest ih =>
    rcases e with ⟨k', v'⟩
    by_cases hlt : keyLt k k'
    · simp [storPut, hlt, storGet, hne']
    · by_cases heq : k = k'
      · subst heq
        simp [storPut, hlt, storGet, hne']
      · simp [storPut, hlt, heq, storGet, ih]

/-- C5 (amended): `putTrade` removes prior records/index entries only in
the rename case (`previous.id !== trade.id`).  An update that keeps the
id — the only kind `handleUpdate` performs — removes nothing: it only
(re)writes the primary record and the two index entries keyed from the
NEW asset/timestamp/tax-year, so index entries keyed from the previous
timestamp/asset/tax-year survive at their old keys and a trade id can be
left with two by-asset (and two by-taxyear) entries. -/
theorem putTrade_same_id (lYM : ℤ → ℤ × ℤ) (st : Store) (t p : Trade)
    (hid : p.id = t.id) (hne : t.id ≠ "") :
    putTrade lYM st t (some p) =
      .ok (storPut (storPut (storPut st (tradeKey t.id) (.trade t))
            (byAssetKey t) .marker) (byTaxyearKey lYM t) .marker) ∧
    ∀ k, k ≠ tradeKey t.id → k ≠ byAssetKey t → k ≠ byTaxyearKey lYM t →
      storGet (storPut (storPut (storPut st (tradeKey t.id) (.trade t))
          (byAssetKey t) .marker) (byTaxyearKey lYM t) .marker) k =
        storGet st k := by
  constructor
  · simp [putTrade, hne, hid]
  · intro k h1 h2 h3
    rw [storGet_storPut_ne _ _ _ _ h3, storGet_storPut_ne _ _ _ _ h2,
      storGet_storPut_ne _ _ _ _ h1]

/-- C5 witness: the same-id update of the fixture trade (timestamp 1 →
timestamp 2) performs exactly the three writes and no removal. -/
theorem putTrade_same_id_witness :
    putTrade lYMconst storeA1 tradeA2 (some tradeA1) =
      .ok (storPut (storPut (storPut storeA1 (tradeKey tradeA2.id)
            (.trade tradeA2)) (byAssetKey tradeA2) .marker)
            (byTaxyearKey lYMconst tradeA2) .marker) :=
  (putTrade_same_id lYMconst storeA1 tradeA2 tradeA1 rfl
    (by decide)).1

/-- C5 counterexample: after the same-id update that changes the
timestamp, BOTH the stale by-asset entry (old timestamp) and the fresh
one exist for trade id `a` — not "exactly one by-asset entry". -/
theorem putTrade_same_id_stale_index :
    (putTrade lYMconst storeA1 tradeA2 (some tradeA1)).toOption.map
        (fun st => (storGet st "by-asset:BTC:0000000000001:a",
                    storGet st "by-asset:BTC:0000000000002:a")) =
      some (some .marker, some .marker) ∧
    ("by-asset:BTC:0000000000001:a" : String) ≠ "by-asset:BTC:0000000000002:a" := by
  constructor
  · with_unfolding_all rfl
  · decide

/-- The page-processing loop never collects more than `limit` rows. -/
theorem procPage_length_le (f : Filters) (limit : ℤ)
    (page : List (String × StoreVal)) :
    ∀ (acc : List Trade) (lk : Option String), (acc.length : ℤ) < limit →
      ((procPage f limit page acc lk).1.length : ℤ) ≤ limit := by
  induction page with
  | nil =>
    intro acc lk h
    exact le_of_lt h
  | cons e rest ih =>
    intro acc lk h
    rcases e with ⟨k, v⟩
    cases v with
    | marker => exact ih acc (some k) h
    | trade tr =>
      by_cases hm : matchesFilters tr f
      · by_cases hl : ((acc ++ [tr]).length : ℤ) = limit
        · simp only [procPage, hm, if_pos hl]
          exact le_of_eq hl
        · simp only [procPage, hm, if_pos, if_neg hl]
          apply ih
          have : ((acc ++ [tr]).length : ℤ) = (acc.length : ℤ) + 1 := by
            simp
          omega
      · simp only [procPage, hm]
        exact ih acc (some k) h

/-- The listing loop never returns more than `max limit acc.length`
rows. -/
theorem listLoop_length_le (st : Store) (f : Filters) (limit : ℤ)
    (ps : Nat) :
    ∀ (fuel : Nat) (sa : Option String) (acc : List Trade)
      (lk : Option String),
      ((listLoop st f limit ps fuel sa acc lk).1.length : ℤ) ≤
        max limit (acc.length : ℤ) := by
  intro fuel
  induction fuel with
  | zero =>
    intro sa acc lk
    simp [listLoop]
  | succ fuel ih =>
    intro sa acc lk
    by_cases hcond : (acc.length : ℤ) < limit
    · simp only [listLoop, if_pos hcond]
      by_cases hpage :
          (storageListDesc st "trade:" sa ps).length = 0
      · simp [hpage, le_max_right]
      · simp only [hpage, if_neg]
        have hproc := procPage_length_le f limit
          (storageListDesc st "trade:" sa ps) acc lk hcond
        rcases hpp : procPage f limit (storageListDesc st "trade:" sa ps)
          acc lk with ⟨acc', lk'⟩
        rw [hpp] at hproc
        by_cases hsmall : (storageListDesc st "trade:" sa ps).length < ps
        · simp only [if_pos hsmall]
          exact le_max_of_le_left hproc
        · simp only [if_neg hsmall]
          refine le_trans (ih lk' acc' lk') ?_
          simp only [max_le_iff]
          constructor
          · exact le_max_left _ _
          · exact le_max_of_le_left hproc
    · simp only [listLoop, if_neg hcond]
      exact le_max_right _ _

/-- `listTrades` returns at most `limit` rows (and none for
non-positive limits). -/
theorem listTrades_length_le (st : Store) (f : Filters) (limit : ℤ)
    (cursor : Option String) :
    ((listTrades st f limit cursor).1.length : ℤ) ≤ max limit 0 := by
  rw [listTrades]
  rcases hll : listLoop st f limit (limit * 3).toNat (st.length + 1)
      (cursor.map (fun c => "trade:" ++ c)) [] none with ⟨result, lastKey⟩
  have := listLoop_length_le st f limit (limit * 3).toNat (st.length + 1)
    (cursor.map (fun c => "trade:" ++ c)) [] none
  rw [hll] at this
  simpa using this

/-! ### Key order and scan regions -/

theorem clLt_irrefl : ∀ l : List Char, clLt l l = false
  | [] => rfl
  | a :: rest => by
    rw [clLt]
    rw [if_neg (lt_irrefl a), if_neg (lt_irrefl a)]
    exact clLt_irrefl rest

theorem clLt_asymm : ∀ a b : List Char, clLt a b = true → clLt b a = false
  | [], [], h => by simpa [clLt] using h
  | [], _ :: _, _ => rfl
  | _ :: _, [], h => by simpa [clLt] using h
  | x :: xs, y :: ys, h => by
    rw [clLt] at h ⊢
    by_cases h1 : x < y
    · rw [if_neg (lt_asymm h1), if_pos h1]
    · rw [if_neg h1] at h
      by_cases h2 : y < x
      · rw [if_pos h2] at h
        exact absurd h (by simp)
      · rw [if_neg h2] at h
        rw [if_neg h2, if_neg h1]
        exact clLt_asymm xs ys h

theorem clLt_trans : ∀ a b c : List Char,
    clLt a b = true → clLt b c = true → clLt a c = true
  | [], [], [], h1, _ => by simpa [clLt] using h1
  | [], _ :: _, [], _, h2 => by simpa [clLt] using h2
  | [], _, _ :: _, _, _ => rfl
  | _ :: _, [], _, h1, _ => by simpa [clLt] using h1
  | _ :: _, _ :: _, [], _, h2 => by simpa [clLt] using h2
  | x :: xs, y :: ys, z :: zs, h1, h2 => by
    rw [clLt] at h1 h2 ⊢
    by_cases hxy : x < y
    · by_cases hyz : y < z
      · rw [if_pos (lt_trans hxy hyz)]
      · rw [if_neg hyz] at h2
        by_cases hzy : z < y
        · rw [if_pos hzy] at h2
          exact absurd h2 (by simp)
        · have hyzeq : y = z := le_antisymm (le_of_not_lt hzy) (le_of_not_lt hyz)
          rw [if_pos (hyzeq ▸ hxy)]
    · rw [if_neg hxy] at h1
      by_cases hyx : y < x
      · rw [if_pos hyx] at h1
        exact absurd h1 (by simp)
      · have hxyeq : x = y := le_antisymm (le_of_not_lt hyx) (le_of_not_lt hxy)
        rw [if_neg hyx] at h1
        subst hxyeq
        by_cases hyz : x < z
        · rw [if_pos hyz]
        · rw [if_neg hyz] at h2 ⊢
          by_cases hzy : z < x
          · rw [if_pos hzy] at h2
            exact absurd h2 (by simp)
          · rw [if_neg hzy] at h2 ⊢
            exact clLt_trans xs ys zs h1 h2

theorem keyLt_irrefl (k : String) : keyLt k k = false := clLt_irrefl k.data

theorem keyLt_asymm (a b : String) (h : keyLt a b = true) :
    keyLt b a = false := clLt_asymm a.data b.data h

theorem keyLt_trans (a b c : String) (h1 : keyLt a b = true)
    (h2 : keyLt b c = true) : keyLt a c = true :=
  clLt_trans a.data b.data c.data h1 h2

/-- The reverse-scan region of a well-formed store is strictly
descending. -/
theorem descRegion_wf (st : Store) (hwf : StoreWF st) (sa : Option String) :
    DescWF (descRegion st sa) := by
  rw [descRegion, DescWF, List.pairwise_reverse]
  exact List.Pairwise.filter _ hwf

theorem ascRegion_wf (st : Store) (hwf : StoreWF st) (sa : Option String) :
    AscWF (ascRegion st sa) :=
  List.Pairwise.filter _ hwf

/-- Restarting the reverse scan at a key already inside the region
restricts the region to the entries strictly below that key. -/
theorem descRegion_advance_filter (st : Store) (sa : Option String)
    (k : String)
    (hcomp : ∀ x : String, keyLt x k = true →
      (match sa with | none => true | some s => keyLt x s) = true) :
    descRegion st (some k) =
      (descRegion st sa).filter (fun e => keyLt e.1 k) := by
  rw [descRegion, descRegion, List.filter_reverse, List.filter_filter]
  congr 1
  refine List.filter_congr ?_
  intro e _
  cases hpk : keyLt e.1 k with
  | false => simp [hpk]
  | true =>
    have := hcomp e.1 hpk
    cases hpfx : strStartsWith e.1 "trade:" <;> simp [hpk, hpfx, this]

theorem ascRegion_advance_filter (st : Store) (sa : Option String)
    (k : String)
    (hcomp : ∀ x : String, keyLt k x = true →
      (match sa with | none => true | some s => keyLt s x) = true) :
    ascRegion st (some k) =
      (ascRegion st sa).filter (fun e => keyLt k e.1) := by
  rw [ascRegion, ascRegion, List.filter_filter]
  refine List.filter_congr ?_
  intro e _
  cases hpk : keyLt k e.1 with
  | false => simp [hpk]
  | true =>
    have := hcomp e.1 hpk
    cases hpfx : strStartsWith e.1 "trade:" <;> simp [hpk, hpfx, this]

/-- In a strictly descending list, the entries strictly below the entry
at position `p` are exactly the entries after position `p`. -/
theorem desc_filter_drop :
    ∀ (R : List (String × StoreVal)), DescWF R →
      ∀ (p : Nat) (hp : p < R.length),
        R.filter (fun e => keyLt e.1 (R.get ⟨p, hp⟩).1) = R.drop (p + 1) := by
  intro R
  induction R with
  | nil =>
    intro _ p hp
    exact absurd hp (by simp)
  | cons x rest ih =>
    intro hwf p hp
    obtain ⟨hx, hrest⟩ := List.pairwise_cons.mp hwf
    cases p with
    | zero =>
      show (x :: rest).filter (fun e => keyLt e.1 x.1) = rest
      rw [List.filter_cons, if_neg (by rw [keyLt_irrefl]; simp)]
      exact List.filter_eq_self.mpr (fun e he => hx e he)
    | succ p2 =>
      have hp2 : p2 < rest.length := by simpa using hp
      show (x :: rest).filter
          (fun e => keyLt e.1 (rest.get ⟨p2, hp2⟩).1) = rest.drop (p2 + 1)
      rw [List.filter_cons,
        if_neg (by
          rw [keyLt_asymm _ _ (hx _ (rest.get_mem p2 hp2))]
          simp)]
      exact ih hrest p2 hp2

/-- In a strictly ascending list, the entries strictly above the entry
at position `p` are exactly the entries after position `p`. -/
theorem asc_filter_drop :
    ∀ (R : List (String × StoreVal)), AscWF R →
      ∀ (p : Nat) (hp : p < R.length),
        R.filter (fun e => keyLt (R.get ⟨p, hp⟩).1 e.1) = R.drop (p + 1) := by
  intro R
  induction R with
  | nil =>
    intro _ p hp
    exact absurd hp (by simp)
  | cons x rest ih =>
    intro hwf p hp
    obtain ⟨hx, hrest⟩ := List.pairwise_cons.mp hwf
    cases p with
    | zero =>
      show (x :: rest).filter (fun e => keyLt x.1 e.1) = rest
      rw [List.filter_cons, if_neg (by rw [keyLt_irrefl]; simp)]
      exact List.filter_eq_self.mpr (fun e he => hx e he)
    | succ p2 =>
      have hp2 : p2 < rest.length := by simpa using hp
      show (x :: rest).filter
          (fun e => keyLt (rest.get ⟨p2, hp2⟩).1 e.1) = rest.drop (p2 + 1)
      rw [List.filter_cons,
        if_neg (by
          rw [keyLt_asymm _ _ (hx _ (rest.get_mem p2 hp2))]
          simp)]
      exact ih hrest p2 hp2

theorem option_or_assoc {α : Type} (a b c : Option α) :
    (a.or b).or c = a.or (b.or c) := by
  cases a <;> rfl

theorem option_map_or {α β : Type} (g : α → β) (a b : Option α) :
    (a.or b).map g = (a.map g).or (b.map g) := by
  cases a <;> rfl

theorem getLast?_cons_or {α : Type} (a : α) (l : List α) :
    (a :: l).getLast? = l.getLast?.or (some a) := by
  cases l with
  | nil => rfl
  | cons b bs =>
    rw [List.getLast?_cons_cons]
    rcases hgl : (b :: bs).getLast? with _ | e
    · rw [List.getLast?_eq_none_iff] at hgl
      exact absurd hgl (by simp)
    · rfl

/-- The inner page loop, characterized: it returns the first
`limit - acc.length` matching rows of the page appended to the
accumulator, with the last visited key as the new cursor position —
the key of the final pushed row when the limit is reached inside the
page, the page's own last key otherwise. -/
theorem procPage_char (f : Filters) (limit : ℤ) (hlim : 1 ≤ limit) :
    ∀ (page : List (String × StoreVal)) (acc : List Trade)
      (lk : Option String),
      acc.length < limit.toNat →
      ((limit.toNat - acc.length ≤ (matchEntries f page).length →
        procPage f limit page acc lk =
          (acc ++ ((matchEntries f page).map Prod.snd).take
              (limit.toNat - acc.length),
           some ((matchEntries f page).getD
              (limit.toNat - acc.length - 1) ("", default)).1)) ∧
       ((matchEntries f page).length < limit.toNat - acc.length →
        procPage f limit page acc lk =
          (acc ++ (matchEntries f page).map Prod.snd,
           (page.getLast?.map Prod.fst).or lk))) := by
  intro page
  induction page with
  | nil =>
    intro acc lk hacc
    constructor
    · intro h
      rw [show matchEntries f [] = [] from rfl] at h
      simp only [List.length_nil] at h
      omega
    · intro _
      simp [procPage, matchEntries]
  | cons e rest ih =>
    intro acc lk hacc
    rcases e with ⟨k, v⟩
    cases v with
    | marker =>
      have hME : matchEntries f ((k, .marker) :: rest) =
          matchEntries f rest := by simp [matchEntries]
      obtain ⟨ihA, ihB⟩ := ih acc (some k) hacc
      constructor
      · intro h
        rw [hME] at h ⊢
        simp only [procPage]
        exact ihA h
      · intro h
        rw [hME] at h ⊢
        simp only [procPage]
        rw [ihB h, getLast?_cons_or, option_map_or, option_or_assoc]
        rfl
    | trade tr =>
      by_cases hm : matchesFilters tr f
      · have hME : matchEntries f ((k, .trade tr) :: rest) =
            (k, tr) :: matchEntries f rest := by simp [matchEntries, hm]
        by_cases hl : ((acc ++ [tr]).length : ℤ) = limit
        · have hl' : ((acc.length : ℤ) + 1 : ℤ) = limit := by
            simpa using hl
          have hneed : limit.toNat - acc.length = 1 := by omega
          constructor
          · intro _
            simp only [procPage, hm, if_pos hl]
            rw [hME, hneed]
            simp
          · intro h
            rw [hME, hneed] at h
            simp at h
        · have hl' : ¬((acc.length : ℤ) + 1 = limit) := by
            intro hh
            exact hl (by simpa using hh)
          have hacc' : (acc ++ [tr]).length < limit.toNat := by
            simp only [List.length_append, List.length_singleton]
            omega
          obtain ⟨ihA, ihB⟩ := ih (acc ++ [tr]) (some k) hacc'
          have hlen' : (acc ++ [tr]).length = acc.length + 1 := by simp
          constructor
          · intro h
            rw [hME] at h ⊢
            simp only [List.length_cons] at h
            have hneed2 : 2 ≤ limit.toNat - acc.length := by omega
            obtain ⟨m2, hm2⟩ : ∃ m2, limit.toNat - acc.length = m2 + 2 :=
              ⟨limit.toNat - acc.length - 2, by omega⟩
            have hA := ihA (by rw [hlen']; omega)
            have e1 : limit.toNat - (acc ++ [tr]).length = m2 + 1 := by
              rw [hlen']; omega
            have e2 : limit.toNat - (acc ++ [tr]).length - 1 = m2 := by
              rw [hlen']; omega
            have e4 : limit.toNat - acc.length - 1 = m2 + 1 := by omega
            rw [e2, e1] at hA
            simp only [procPage, hm, if_neg hl, if_true]
            rw [hA, e4, hm2]
            simp only [List.map_cons, List.take_succ_cons,
              List.getD_cons_succ, Prod.mk.injEq]
            exact ⟨by simp, trivial⟩
          · intro h
            rw [hME] at h ⊢
            simp only [List.length_cons] at h
            have hB := ihB (by rw [hlen']; omega)
            simp only [procPage, hm, if_neg hl, if_true]
            rw [hB, getLast?_cons_or, option_map_or, option_or_assoc]
            simp only [List.map_cons, Prod.mk.injEq]
            exact ⟨by simp, rfl⟩
      · have hME : matchEntries f ((k, .trade tr) :: rest) =
            matchEntries f rest := by simp [matchEntries, hm]
        obtain ⟨ihA, ihB⟩ := ih acc (some k) hacc
        constructor
        · intro h
          rw [hME] at h ⊢
          simp only [procPage, hm]
          exact ihA h
        · intro h
          rw [hME] at h ⊢
          simp only [procPage, hm]
          rw [ihB h, getLast?_cons_or, option_map_or, option_or_assoc]
          rfl

theorem matchEntries_append (f : Filters) (a b : List (String × StoreVal)) :
    matchEntries f (a ++ b) = matchEntries f a ++ matchEntries f b := by
  rw [matchEntries, matchEntries, matchEntries, List.filterMap_append]

/-- Every entry of a resumed reverse region lies strictly below the
resumption key. -/
theorem descRegion_mem_lt (st : Store) (s : String)
    (e : String × StoreVal) (he : e ∈ descRegion st (some s)) :
    keyLt e.1 s = true := by
  rw [descRegion, List.mem_reverse] at he
  have hpred := List.of_mem_filter he
  simp only [Bool.and_eq_true] at hpred
  exact hpred.2

/-- Every entry of a resumed ascending region lies strictly above the
resumption key. -/
theorem ascRegion_mem_gt (st : Store) (s : String)
    (e : String × StoreVal) (he : e ∈ ascRegion st (some s)) :
    keyLt s e.1 = true := by
  rw [ascRegion] at he
  have hpred := List.of_mem_filter he
  simp only [Bool.and_eq_true] at hpred
  exact hpred.2

theorem loopSpec_full (f : Filters) (limit : ℤ) (pageSize fuel : Nat)
    (R : List (String × StoreVal)) (acc : List Trade) (lk : Option String)
    (h : ¬((acc.length : ℤ) < limit)) :
    loopSpec f limit pageSize fuel R acc lk = (acc, lk) := by
  cases fuel with
  | zero => rfl
  | succ n => simp [loopSpec, h]

theorem listLoop_full (st : Store) (f : Filters) (limit : ℤ)
    (pageSize fuel : Nat) (sa : Option String) (acc : List Trade)
    (lk : Option String) (h : ¬((acc.length : ℤ) < limit)) :
    listLoop st f limit pageSize fuel sa acc lk = (acc, lk) := by
  cases fuel with
  | zero => rfl
  | succ n => simp [listLoop, h]

theorem getLast?_take_full {α : Type} (R : List α) (n : Nat)
    (hn : n ≤ R.length) (h1 : 1 ≤ n) :
    ∃ hp : n - 1 < R.length,
      (R.take n).getLast? = some (R.get ⟨n - 1, hp⟩) := by
  have hp : n - 1 < R.length := by omega
  refine ⟨hp, ?_⟩
  rw [List.getLast?_eq_getElem?, List.length_take]
  have hmin : min n R.length = n := by omega
  rw [hmin, List.getElem?_take, if_pos (by omega : n - 1 < n),
    List.getElem?_eq_getElem hp]
  rfl

/-- The paging loop, characterized over its scan region: starting below
the limit with enough fuel, it returns the first `limit - acc.length`
matching rows of the region appended to the accumulator, and — when the
limit is reached — the key of the final returned row as the last
visited key. -/
theorem loopSpec_char (f : Filters) (limit : ℤ) (pageSize : Nat)
    (hlim : 1 ≤ limit) (hps : 1 ≤ pageSize) :
    ∀ (fuel : Nat) (R : List (String × StoreVal)) (acc : List Trade)
      (lk : Option String),
      acc.length < limit.toNat →
      R.length + 1 ≤ fuel * pageSize →
      (loopSpec f limit pageSize fuel R acc lk).1 =
        acc ++ ((matchEntries f R).map Prod.snd).take
          (limit.toNat - acc.length) ∧
      (limit.toNat - acc.length ≤ (matchEntries f R).length →
        (loopSpec f limit pageSize fuel R acc lk).2 =
          some ((matchEntries f R).getD
            (limit.toNat - acc.length - 1) ("", default)).1) := by
  intro fuel
  induction fuel with
  | zero =>
    intro R acc lk hacc hfuel
    rw [Nat.zero_mul] at hfuel
    omega
  | succ fuel ih =>
    intro R acc lk hacc hfuel
    have hacci : (acc.length : ℤ) < limit := by omega
    simp only [loopSpec, if_pos hacci]
    by_cases hpz : (R.take pageSize).length = 0
    · rw [if_pos hpz]
      have hR : R = [] := by
        rw [List.length_take] at hpz
        exact List.length_eq_zero.mp (by omega)
      subst hR
      constructor
      · simp [matchEntries]
      · intro h
        rw [show matchEntries f ([] : List (String × StoreVal)) = []
          from rfl] at h
        simp only [List.length_nil] at h
        omega
    · rw [if_neg hpz]
      rcases hpp : procPage f limit (R.take pageSize) acc lk with ⟨acc', lk'⟩
      dsimp only []
      have hsplit : matchEntries f R =
          matchEntries f (R.take pageSize) ++
          matchEntries f (R.drop pageSize) := by
        conv_lhs => rw [← List.take_append_drop pageSize R]
        exact matchEntries_append f _ _
      by_cases hsmall : (R.take pageSize).length < pageSize
      · rw [if_pos hsmall]
        have hRsh : R.length < pageSize := by
          rw [List.length_take] at hsmall
          omega
        have hpage : R.take pageSize = R :=
          List.take_of_length_le (by omega)
        rw [hpage] at hpp
        obtain ⟨pA, pB⟩ := procPage_char f limit hlim R acc lk hacc
        by_cases hA : limit.toNat - acc.length ≤ (matchEntries f R).length
        · have hres := pA hA
          rw [hpp] at hres
          exact ⟨congrArg Prod.fst hres,
            fun _ => congrArg Prod.snd hres⟩
        · have hres := pB (by omega)
          rw [hpp] at hres
          constructor
          · rw [congrArg Prod.fst hres]
            congr 1
            rw [List.take_of_length_le (by simp; omega)]
          · intro h
            omega
      · rw [if_neg hsmall]
        have hplen : (R.take pageSize).length = pageSize := by
          rw [List.length_take] at hsmall ⊢
          omega
        have hpsle : pageSize ≤ R.length := by
          rw [List.length_take] at hplen
          omega
        obtain ⟨pA, pB⟩ :=
          procPage_char f limit hlim (R.take pageSize) acc lk hacc
        by_cases hcaseA : limit.toNat - acc.length ≤
            (matchEntries f (R.take pageSize)).length
        · have hres := pA hcaseA
          rw [hpp] at hres
          have ha' := congrArg Prod.fst hres
          have hlk' := congrArg Prod.snd hres
          dsimp only [] at ha' hlk'
          have hlenacc' : acc'.length = limit.toNat := by
            rw [ha', List.length_append, List.length_take, List.length_map,
              min_eq_left hcaseA]
            omega
          have hnotlt : ¬((acc'.length : ℤ) < limit) := by
            rw [hlenacc']
            omega
          rw [loopSpec_full f limit pageSize fuel _ acc' lk' hnotlt]
          have hz : limit.toNat - acc.length -
              ((matchEntries f (R.take pageSize)).map Prod.snd).length
              = 0 := by
            rw [List.length_map]
            omega
          constructor
          · show acc' = _
            rw [ha', hsplit, List.map_append,
              List.take_append_eq_append_take, hz,
              List.take_zero, List.append_nil]
          · intro _
            show lk' = _
            rw [hlk', hsplit, List.getD_append _ _ _ _ (by omega)]
        · have hres := pB (by omega)
          rw [hpp] at hres
          have ha' := congrArg Prod.fst hres
          have hlk' := congrArg Prod.snd hres
          dsimp only [] at ha' hlk'
          have hlenacc' : acc'.length =
              acc.length + (matchEntries f (R.take pageSize)).length := by
            rw [ha']
            simp
          have hacc'lt : acc'.length < limit.toNat := by omega
          have hfuel' : (R.drop pageSize).length + 1 ≤ fuel * pageSize := by
            have hkey : R.length + 1 ≤ fuel * pageSize + pageSize := by
              rw [Nat.succ_mul] at hfuel
              exact hfuel
            have e5 : (R.drop pageSize).length + 1 ≤
                R.length + 1 - pageSize := by
              rw [List.length_drop]
              omega
            exact le_trans e5 (Nat.sub_le_iff_le_add.mpr hkey)
          obtain ⟨ih1, ih2⟩ := ih (R.drop pageSize) acc' lk' hacc'lt hfuel'
          constructor
          · rw [ih1, ha', List.append_assoc]
            congr 1
            have hcnt : limit.toNat -
                (acc ++ (matchEntries f (R.take pageSize)).map
                  Prod.snd).length =
                limit.toNat - acc.length -
                ((matchEntries f (R.take pageSize)).map Prod.snd).length := by
              simp only [List.length_append]
              omega
            rw [hcnt]
            conv_rhs => rw [hsplit]
            rw [List.map_append, List.take_append_eq_append_take,
              List.take_of_length_le (show
                ((matchEntries f (R.take pageSize)).map Prod.snd).length ≤
                  limit.toNat - acc.length from by
                simp only [List.length_map]
                omega)]
          · intro h
            rw [hsplit] at h
            simp only [List.length_append] at h
            have hneed' : limit.toNat - acc'.length ≤
                (matchEntries f (R.drop pageSize)).length := by omega
            have hidx : limit.toNat - acc'.length - 1 =
                limit.toNat - acc.length - 1 -
                (matchEntries f (R.take pageSize)).length := by omega
            rw [ih2 hneed', hidx, hsplit,
              List.getD_append_right _ _ _ _ (by omega)]

/-- Running the listing loop against storage is running it over the
explicit scan region: each page the storage returns is the front of the
remaining region, and resuming after the page's last key drops exactly
that page. -/
theorem listLoop_eq_loopSpec (st : Store) (f : Filters) (limit : ℤ)
    (pageSize : Nat) (hwf : StoreWF st) (hlim : 1 ≤ limit)
    (hps : 1 ≤ pageSize) :
    ∀ (fuel : Nat) (sa : Option String) (acc : List Trade)
      (lk : Option String),
      listLoop st f limit pageSize fuel sa acc lk =
        loopSpec f limit pageSize fuel (descRegion st sa) acc lk := by
  intro fuel
  induction fuel with
  | zero =>
    intro sa acc lk
    rfl
  | succ fuel ih =>
    intro sa acc lk
    by_cases hcond : (acc.length : ℤ) < limit
    · simp only [listLoop, loopSpec, if_pos hcond]
      have hpage : storageListDesc st "trade:" sa pageSize =
          (descRegion st sa).take pageSize := rfl
      rw [hpage]
      by_cases hpz : ((descRegion st sa).take pageSize).length = 0
      · rw [if_pos hpz, if_pos hpz]
      · rw [if_neg hpz, if_neg hpz]
        rcases hpp : procPage f limit ((descRegion st sa).take pageSize)
            acc lk with ⟨acc', lk'⟩
        dsimp only []
        by_cases hsmall : ((descRegion st sa).take pageSize).length < pageSize
        · rw [if_pos hsmall, if_pos hsmall]
        · rw [if_neg hsmall, if_neg hsmall]
          rw [ih lk' acc' lk']
          by_cases hfull : (acc'.length : ℤ) < limit
          · have haccN : acc.length < limit.toNat := by omega
            have hplen : ((descRegion st sa).take pageSize).length =
                pageSize := by
              rw [List.length_take] at hsmall ⊢
              omega
            have hpsle : pageSize ≤ (descRegion st sa).length := by
              rw [List.length_take] at hplen
              omega
            obtain ⟨pA, pB⟩ := procPage_char f limit hlim
              ((descRegion st sa).take pageSize) acc lk haccN
            have hB : (matchEntries f
                ((descRegion st sa).take pageSize)).length <
                limit.toNat - acc.length := by
              by_contra hA
              have hres := pA (by omega)
              rw [hpp] at hres
              have := congrArg Prod.fst hres
              dsimp only [] at this
              have hlen : acc'.length = limit.toNat := by
                rw [this]
                simp only [List.length_append, List.length_take,
                  List.length_map]
                omega
              omega
            have hres := pB hB
            rw [hpp] at hres
            have hlk' := congrArg Prod.snd hres
            dsimp only [] at hlk'
            obtain ⟨hp, hgl⟩ := getLast?_take_full (descRegion st sa)
              pageSize hpsle hps
            rw [hgl] at hlk'
            have hlk'2 : lk' =
                some ((descRegion st sa).get ⟨pageSize - 1, hp⟩).1 := by
              rw [hlk']
              rfl
            rw [hlk'2]
            have hadv : descRegion st
                (some ((descRegion st sa).get ⟨pageSize - 1, hp⟩).1) =
                (descRegion st sa).drop pageSize := by
              rw [descRegion_advance_filter st sa _ ?_]
              · rw [desc_filter_drop (descRegion st sa)
                  (descRegion_wf st hwf sa) (pageSize - 1) hp]
                congr 1
                omega
              · intro x hx
                have he : (descRegion st sa).get ⟨pageSize - 1, hp⟩ ∈
                    descRegion st sa := List.get_mem _ _ _
                cases sa with
                | none => rfl
                | some s =>
                  exact keyLt_trans _ _ _ hx (descRegion_mem_lt st s _ he)
            rw [hadv]
          · rw [loopSpec_full f limit pageSize fuel _ acc' lk' hfull,
              loopSpec_full f limit pageSize fuel _ acc' lk' hfull]
    · simp only [listLoop, loopSpec, if_neg hcond]

/-- `listTrades`, characterized: it returns the first `limit` matching
rows of the scan region (all primary entries strictly below the cursor
key, newest first), and a next cursor — the id of the `limit`-th
matching row — exactly when `limit` rows were found. -/
theorem listTrades_char (st : Store) (f : Filters) (limit : ℤ)
    (cursor : Option String) (hwf : StoreWF st) (hlim : 1 ≤ limit) :
    listTrades st f limit cursor =
      (((matchEntries f (descRegion st
          (cursor.map (fun c => "trade:" ++ c)))).map Prod.snd).take
          limit.toNat,
       if limit.toNat ≤ (matchEntries f (descRegion st
            (cursor.map (fun c => "trade:" ++ c)))).length then
         some (stripTradePfx ((matchEntries f (descRegion st
            (cursor.map (fun c => "trade:" ++ c)))).getD
            (limit.toNat - 1) ("", default)).1)
       else none) := by
  have hps : 1 ≤ (limit * 3).toNat := by omega
  have hRlen : (descRegion st (cursor.map (fun c => "trade:" ++ c))).length
      ≤ st.length := by
    rw [descRegion, List.length_reverse]
    exact List.length_filter_le _ _
  have hfuel : (descRegion st
      (cursor.map (fun c => "trade:" ++ c))).length + 1 ≤
      (st.length + 1) * (limit * 3).toNat := by
    have h2 : st.length + 1 ≤ (st.length + 1) * (limit * 3).toNat :=
      Nat.le_mul_of_pos_right _ (by omega)
    omega
  obtain ⟨hc1, hc2⟩ := loopSpec_char f limit (limit * 3).toNat hlim hps
    (st.length + 1) (descRegion st (cursor.map (fun c => "trade:" ++ c)))
    [] none (by simp; omega) hfuel
  rw [listTrades]
  dsimp only []
  rw [listLoop_eq_loopSpec st f limit (limit * 3).toNat hwf hlim hps
    (st.length + 1) (cursor.map (fun c => "trade:" ++ c)) [] none]
  rcases hls : loopSpec f limit (limit * 3).toNat (st.length + 1)
      (descRegion st (cursor.map (fun c => "trade:" ++ c))) [] none
    with ⟨result, lastKey⟩
  rw [hls] at hc1 hc2
  dsimp only [] at hc1 hc2 ⊢
  simp only [List.length_nil, Nat.sub_zero, List.nil_append] at hc1 hc2
  subst hc1
  by_cases hM : limit.toNat ≤ (matchEntries f (descRegion st
      (cursor.map (fun c => "trade:" ++ c)))).length
  · rw [if_pos hM]
    have hlen : (((matchEntries f (descRegion st
        (cursor.map (fun c => "trade:" ++ c)))).map Prod.snd).take
        limit.toNat).length = limit.toNat := by
      rw [List.length_take, List.length_map]
      omega
    rw [hlen]
    rw [if_pos (by omega : (limit.toNat : ℤ) = limit)]
    rw [hc2 hM]
  · rw [if_neg hM]
    have hlen : (((matchEntries f (descRegion st
        (cursor.map (fun c => "trade:" ++ c)))).map Prod.snd).take
        limit.toNat).length = (matchEntries f (descRegion st
        (cursor.map (fun c => "trade:" ++ c)))).length := by
      rw [List.length_take, List.length_map]
      omega
    rw [hlen, if_neg (by omega)]

/-- Splitting a `filterMap` at the source position of its `j`-th
output. -/
theorem filterMap_index_split {α β : Type} (g : α → Option β) :
    ∀ (R : List α) (j : Nat) (e : β),
      (R.filterMap g).get? j = some e →
      ∃ (p : Nat) (hp : p < R.length),
        g (R.get ⟨p, hp⟩) = some e ∧
        (R.drop (p + 1)).filterMap g = (R.filterMap g).drop (j + 1) := by
  intro R
  induction R with
  | nil =>
    intro j e h
    rw [List.filterMap_nil] at h
    simp at h
  | cons x rest ih =>
    intro j e h
    cases hg : g x with
    | none =>
      rw [List.filterMap_cons_none hg] at h
      obtain ⟨p, hp, hgp, hdrop⟩ := ih j e h
      refine ⟨p + 1, by simpa using Nat.succ_lt_succ hp, hgp, ?_⟩
      rw [List.drop_succ_cons, hdrop, List.filterMap_cons_none hg]
    | some b =>
      rw [List.filterMap_cons_some hg] at h
      cases j with
      | zero =>
        rw [List.get?_cons_zero] at h
        refine ⟨0, by simp, ?_, ?_⟩
        · show g x = some e
          rw [hg]
          exact h
        · rw [List.drop_succ_cons, List.drop_zero,
            List.filterMap_cons_some hg, List.drop_succ_cons,
            List.drop_zero]
      | succ j2 =>
        rw [List.get?_cons_succ] at h
        obtain ⟨p, hp, hgp, hdrop⟩ := ih j2 e h
        refine ⟨p + 1, by simpa using Nat.succ_lt_succ hp, hgp, ?_⟩
        rw [List.drop_succ_cons, hdrop, List.filterMap_cons_some hg,
          List.drop_succ_cons]

theorem descRegion_mem_pfx (st : Store) (sa : Option String)
    (e : String × StoreVal) (he : e ∈ descRegion st sa) :
    strStartsWith e.1 "trade:" = true := by
  rw [descRegion, List.mem_reverse] at he
  have hpred := List.of_mem_filter he
  simp only [Bool.and_eq_true] at hpred
  exact hpred.1

theorem ascRegion_mem_pfx (st : Store) (sa : Option String)
    (e : String × StoreVal) (he : e ∈ ascRegion st sa) :
    strStartsWith e.1 "trade:" = true := by
  rw [ascRegion] at he
  have hpred := List.of_mem_filter he
  simp only [Bool.and_eq_true] at hpred
  exact hpred.1

/-- On keys carrying the `trade:` prefix, stripping and re-prefixing is
the identity. -/
theorem tradeKey_stripTradePfx (k : String)
    (h : strStartsWith k "trade:" = true) :
    tradeKey (stripTradePfx k) = k := by
  rw [stripTradePfx, if_pos h]
  rw [strStartsWith, List.isPrefixOf_iff_prefix] at h
  obtain ⟨t, ht⟩ := h
  have hdrop : k.data.drop 6 = t := by
    rw [← ht]
    rw [show (6 : ℕ) = "trade:".data.length from rfl, List.drop_left]
  apply String.ext
  show ("trade:" ++ String.mk (k.data.drop 6)).data = k.data
  rw [String.data_append, hdrop, ← ht]

/-- The `j`-th matching row of a reverse scan region carries a
`trade:`-prefixed key, and resuming the scan strictly after that key
yields exactly the matching rows after position `j`. -/
theorem matchEntries_region_advance (st : Store) (f : Filters)
    (sa : Option String) (hwf : StoreWF st) (j : Nat) (e : String × Trade)
    (he : (matchEntries f (descRegion st sa)).get? j = some e) :
    strStartsWith e.1 "trade:" = true ∧
    matchEntries f (descRegion st (some e.1)) =
      (matchEntries f (descRegion st sa)).drop (j + 1) := by
  rw [matchEntries] at he
  obtain ⟨p, hp, hgp, hdrop⟩ :=
    filterMap_index_split _ (descRegion st sa) j e he
  have hmem : (descRegion st sa).get ⟨p, hp⟩ ∈ descRegion st sa :=
    List.get_mem _ _ _
  have hkey : e.1 = ((descRegion st sa).get ⟨p, hp⟩).1 := by
    rcases hv : ((descRegion st sa).get ⟨p, hp⟩).2 with tr | _
    · rw [hv] at hgp
      dsimp only [] at hgp
      by_cases hmf : matchesFilters tr f
      · rw [if_pos hmf] at hgp
        rw [← Option.some.inj hgp]
      · rw [if_neg hmf] at hgp
        exact absurd hgp (by simp)
    · rw [hv] at hgp
      dsimp only [] at hgp
      exact absurd hgp (by simp)
  have hadv : descRegion st
      (some ((descRegion st sa).get ⟨p, hp⟩).1) =
      (descRegion st sa).drop (p + 1) := by
    rw [descRegion_advance_filter st sa _ ?_]
    · exact desc_filter_drop _ (descRegion_wf st hwf sa) p hp
    · intro x hx
      cases sa with
      | none => rfl
      | some s =>
        exact keyLt_trans _ _ _ hx (descRegion_mem_lt st s _ hmem)
  constructor
  · rw [hkey]
    exact descRegion_mem_pfx st sa _ hmem
  · rw [hkey, hadv]
    exact hdrop

/-- C6: for a list request with limit `N ≥ 1` against a well-formed
store, (i) the next cursor is non-null iff exactly `N` matching rows
were returned; (ii) the returned rows are exactly the first `N`
matching rows of the remaining reverse-chronological region; (iii)
fewer than `N` rows come back only with a null cursor and only when
every matching row of the remaining region was returned — the scan does
not stop merely because filters excluded an over-fetched page; (iv) a
returned cursor names the last returned row, and resuming strictly
after its key scans exactly the not-yet-returned matching rows. -/
theorem listTrades_pagination (st : Store) (f : Filters) (limit : ℤ)
    (cursor : Option String) (hwf : StoreWF st) (hlim : 1 ≤ limit) :
    ((listTrades st f limit cursor).2.isSome = true ↔
      ((listTrades st f limit cursor).1.length : ℤ) = limit) ∧
    (listTrades st f limit cursor).1 =
      ((matchEntries f (descRegion st
        (cursor.map (fun c => "trade:" ++ c)))).map Prod.snd).take
        limit.toNat ∧
    (((listTrades st f limit cursor).1.length : ℤ) < limit →
      (listTrades st f limit cursor).2 = none ∧
      (listTrades st f limit cursor).1 =
        (matchEntries f (descRegion st
          (cursor.map (fun c => "trade:" ++ c)))).map Prod.snd) ∧
    ∀ id, (listTrades st f limit cursor).2 = some id →
      ∃ e, (matchEntries f (descRegion st
          (cursor.map (fun c => "trade:" ++ c)))).get?
          (limit.toNat - 1) = some e ∧
        stripTradePfx e.1 = id ∧
        (listTrades st f limit cursor).1.getLast? = some e.2 ∧
        matchEntries f (descRegion st (some (tradeKey id))) =
          (matchEntries f (descRegion st
            (cursor.map (fun c => "trade:" ++ c)))).drop limit.toNat := by
  rw [listTrades_char st f limit cursor hwf hlim]
  dsimp only []
  by_cases hM : limit.toNat ≤ (matchEntries f (descRegion st
      (cursor.map (fun c => "trade:" ++ c)))).length
  · rw [if_pos hM]
    have hlen : (((matchEntries f (descRegion st
        (cursor.map (fun c => "trade:" ++ c)))).map Prod.snd).take
        limit.toNat).length = limit.toNat := by
      rw [List.length_take, List.length_map]
      omega
    have hlt : limit.toNat - 1 < (matchEntries f (descRegion st
        (cursor.map (fun c => "trade:" ++ c)))).length := by omega
    have hget : (matchEntries f (descRegion st
        (cursor.map (fun c => "trade:" ++ c)))).get?
        (limit.toNat - 1) = some ((matchEntries f (descRegion st
        (cursor.map (fun c => "trade:" ++ c)))).get
        ⟨limit.toNat - 1, hlt⟩) := by
      rw [List.get?_eq_get hlt]
    have hgetD : (matchEntries f (descRegion st
        (cursor.map (fun c => "trade:" ++ c)))).getD
        (limit.toNat - 1) ("", default) = (matchEntries f (descRegion st
        (cursor.map (fun c => "trade:" ++ c)))).get
        ⟨limit.toNat - 1, hlt⟩ := by
      rw [List.getD_eq_getElem?_getD, List.getElem?_eq_getElem hlt]
      rfl
    refine ⟨?_, rfl, ?_, ?_⟩
    · rw [hlen]
      simp only [Option.isSome_some, true_iff]
      omega
    · intro h
      rw [hlen] at h
      omega
    · intro id hid
      have hid' : stripTradePfx ((matchEntries f (descRegion st
          (cursor.map (fun c => "trade:" ++ c)))).getD
          (limit.toNat - 1) ("", default)).1 = id := Option.some.inj hid
      obtain ⟨hpfx, hadv⟩ := matchEntries_region_advance st f
        (cursor.map (fun c => "trade:" ++ c)) hwf (limit.toNat - 1)
        ((matchEntries f (descRegion st
          (cursor.map (fun c => "trade:" ++ c)))).get
          ⟨limit.toNat - 1, hlt⟩) hget
      refine ⟨(matchEntries f (descRegion st
          (cursor.map (fun c => "trade:" ++ c)))).get
          ⟨limit.toNat - 1, hlt⟩, hget, ?_, ?_, ?_⟩
      · rw [← hgetD]
        exact hid'
      · obtain ⟨hp', hgl⟩ := getLast?_take_full ((matchEntries f
            (descRegion st (cursor.map (fun c => "trade:" ++ c)))).map
            Prod.snd) limit.toNat (by rw [List.length_map]; omega)
            (by omega)
        rw [hgl, List.get_map]
      · rw [← hid', hgetD, tradeKey_stripTradePfx _ hpfx, hadv,
          show limit.toNat - 1 + 1 = limit.toNat from by omega]
  · rw [if_neg hM]
    have hlen : (((matchEntries f (descRegion st
        (cursor.map (fun c => "trade:" ++ c)))).map Prod.snd).take
        limit.toNat).length = (matchEntries f (descRegion st
        (cursor.map (fun c => "trade:" ++ c)))).length := by
      rw [List.length_take, List.length_map]
      omega
    refine ⟨?_, rfl, ?_, ?_⟩
    · rw [hlen]
      constructor
      · intro h
        simp at h
      · intro h
        exfalso
        omega
    · intro _
      refine ⟨rfl, ?_⟩
      exact List.take_of_length_le (by rw [List.length_map]; omega)
    · intro id hid
      exact absurd hid (by simp)

/-- C6 witness: on the five-trade store with limit 2 and no cursor, the
claim theorem's hypotheses hold and its conclusion is verified. -/
theorem listTrades_pagination_witness :
    ((listTrades storeFive {} 2 none).2.isSome = true ↔
      ((listTrades storeFive {} 2 none).1.length : ℤ) = 2) ∧
    (listTrades storeFive {} 2 none).1 =
      ((matchEntries {} (descRegion storeFive
        ((none : Option String).map (fun c => "trade:" ++ c)))).map
        Prod.snd).take (2 : ℤ).toNat ∧
    ((((listTrades storeFive {} 2 none).1.length : ℤ)) < 2 →
      (listTrades storeFive {} 2 none).2 = none ∧
      (listTrades storeFive {} 2 none).1 =
        (matchEntries {} (descRegion storeFive
          ((none : Option String).map (fun c => "trade:" ++ c)))).map
          Prod.snd) ∧
    ∀ id, (listTrades storeFive {} 2 none).2 = some id →
      ∃ e, (matchEntries {} (descRegion storeFive
          ((none : Option String).map (fun c => "trade:" ++ c)))).get?
          ((2 : ℤ).toNat - 1) = some e ∧
        stripTradePfx e.1 = id ∧
        (listTrades storeFive {} 2 none).1.getLast? = some e.2 ∧
        matchEntries {} (descRegion storeFive (some (tradeKey id))) =
          (matchEntries {} (descRegion storeFive
            ((none : Option String).map (fun c => "trade:" ++ c)))).drop
            (2 : ℤ).toNat :=
  listTrades_pagination storeFive {} 2 none (by decide) (by decide)

/-- C10: the effective page limit of a list request is the requested
limit capped at 500, defaulting to 100 when no limit parameter is
supplied, and consequently no list response ever contains more than 500
trades (`count` always equals the number of returned trades). -/
theorem handleList_limit_cap (st : Store) (limitParam : Option ℤ)
    (cursor : Option String) (f : Filters) :
    (handleList st limitParam cursor f).trades =
      (listTrades st f (min (limitParam.getD 100) 500) cursor).1 ∧
    (handleList st none cursor f).trades =
      (listTrades st f 100 cursor).1 ∧
    (handleList st limitParam cursor f).count =
      (handleList st limitParam cursor f).trades.length ∧
    (handleList st limitParam cursor f).trades.length ≤ 500 := by
  refine ⟨?_, ?_, ?_, ?_⟩
  · rw [handleList]
  · rw [handleList]
    rcases hlt : listTrades st f ((100 : ℤ)) cursor with ⟨trades, nc⟩
    have : min ((none : Option ℤ).getD 100) 500 = 100 := by decide
    rw [this, hlt]
  · rw [handleList]
  · have hb := listTrades_length_le st f (min (limitParam.getD 100) 500) cursor
    have hcap : max (min (limitParam.getD 100) 500) 0 ≤ (500 : ℤ) := by
      have : min (limitParam.getD 100) 500 ≤ (500 : ℤ) := min_le_right _ _
      omega
    have hle : (((listTrades st f (min (limitParam.getD 100) 500) cursor).1.length : ℤ))
        ≤ 500 := le_trans hb hcap
    rw [handleList]
    rcases hlt : listTrades st f (min (limitParam.getD 100) 500) cursor
      with ⟨trades, nc⟩
    rw [hlt] at hle
    simp only []
    exact_mod_cast hle

/-! ### The ascending scan (`loadAllTrades`) and index independence -/

theorem tradesOfEntries_append (a b : List (String × StoreVal)) :
    tradesOfEntries (a ++ b) = tradesOfEntries a ++ tradesOfEntries b := by
  rw [tradesOfEntries, tradesOfEntries, tradesOfEntries,
    List.filterMap_append]

/-- `listTrades` with a non-positive limit returns nothing, for any
store. -/
theorem listTrades_nonpos (st : Store) (f : Filters) (limit : ℤ)
    (cursor : Option String) (h : ¬(1 ≤ limit)) :
    listTrades st f limit cursor = ([], none) := by
  rw [listTrades]
  dsimp only []
  rw [listLoop, if_neg (by simp; omega)]
  by_cases h0 : ((([] : List Trade).length : ℤ)) = limit
  · rw [if_pos h0]
  · rw [if_neg h0]

/-- The `loadAllTrades` paging loop, characterized: it accumulates the
trade values of the ascending scan region. -/
theorem loadLoop_char (st : Store) (hwf : StoreWF st) :
    ∀ (fuel : Nat) (cursor : Option String) (acc : List Trade),
      (ascRegion st cursor).length + 1 ≤ fuel * 256 →
      loadLoop st fuel cursor acc =
        acc ++ tradesOfEntries (ascRegion st cursor) := by
  intro fuel
  induction fuel with
  | zero =>
    intro cursor acc hfuel
    rw [Nat.zero_mul] at hfuel
    omega
  | succ fuel ih =>
    intro cursor acc hfuel
    simp only [loadLoop]
    have hpage : storageListAsc st "trade:" cursor 256 =
        (ascRegion st cursor).take 256 := rfl
    rw [hpage]
    by_cases hpz : ((ascRegion st cursor).take 256).length = 0
    · rw [if_pos hpz]
      have hR : ascRegion st cursor = [] := by
        rw [List.length_take] at hpz
        exact List.length_eq_zero.mp (by omega)
      rw [hR]
      simp [tradesOfEntries]
    · rw [if_neg hpz]
      by_cases hsmall : ((ascRegion st cursor).take 256).length < 256
      · rw [if_pos hsmall]
        have hRsh : (ascRegion st cursor).length < 256 := by
          rw [List.length_take] at hsmall
          omega
        rw [List.take_of_length_le (by omega)]
        rfl
      · rw [if_neg hsmall]
        have hplen : ((ascRegion st cursor).take 256).length = 256 := by
          rw [List.length_take] at hsmall ⊢
          omega
        have hpsle : 256 ≤ (ascRegion st cursor).length := by
          rw [List.length_take] at hplen
          omega
        obtain ⟨hp, hgl⟩ := getLast?_take_full (ascRegion st cursor) 256
          hpsle (by omega)
        rw [hgl]
        have hadv : ascRegion st
            (some ((ascRegion st cursor).get ⟨256 - 1, hp⟩).1) =
            (ascRegion st cursor).drop 256 := by
          rw [ascRegion_advance_filter st cursor _ ?_]
          · rw [asc_filter_drop _ (ascRegion_wf st hwf cursor) (256 - 1) hp]
          · intro x hx
            have he : (ascRegion st cursor).get ⟨256 - 1, hp⟩ ∈
                ascRegion st cursor := List.get_mem _ _ _
            cases cursor with
            | none => rfl
            | some s =>
              exact keyLt_trans _ _ _ (ascRegion_mem_gt st s _ he) hx
        have hfuel' : (ascRegion st
            (some ((ascRegion st cursor).get ⟨256 - 1, hp⟩).1)).length + 1 ≤
            fuel * 256 := by
          rw [hadv, List.length_drop]
          have hkey : (ascRegion st cursor).length + 1 ≤
              fuel * 256 + 256 := by
            rw [Nat.succ_mul] at hfuel
            exact hfuel
          have e5 : (ascRegion st cursor).length - 256 + 1 ≤
              (ascRegion st cursor).length + 1 - 256 := by omega
          exact le_trans e5 (Nat.sub_le_iff_le_add.mpr hkey)
        simp only [Option.map_some']
        rw [ih _ _ hfuel']
        rw [hadv]
        conv_rhs => rw [← List.take_append_drop 256 (ascRegion st cursor),
          tradesOfEntries_append]
        rw [← List.append_assoc]
        rfl

/-- Scan regions depend only on the primary `trade:` entries. -/
theorem descRegion_eq_of_tradeEntries (st1 st2 : Store)
    (h : tradeEntriesOf st1 = tradeEntriesOf st2) (sa : Option String) :
    descRegion st1 sa = descRegion st2 sa := by
  have key : ∀ st : Store, descRegion st sa =
      ((tradeEntriesOf st).filter (fun e =>
        match sa with | none => true | some s => keyLt e.1 s)).reverse := by
    intro st
    rw [descRegion, tradeEntriesOf, List.filter_filter]
    congr 1
    exact List.filter_congr (fun e _ => Bool.and_comm _ _)
  rw [key st1, key st2, h]

theorem ascRegion_eq_of_tradeEntries (st1 st2 : Store)
    (h : tradeEntriesOf st1 = tradeEntriesOf st2) (sa : Option String) :
    ascRegion st1 sa = ascRegion st2 sa := by
  have key : ∀ st : Store, ascRegion st sa =
      (tradeEntriesOf st).filter (fun e =>
        match sa with | none => true | some s => keyLt s e.1) := by
    intro st
    rw [ascRegion, tradeEntriesOf, List.filter_filter]
    exact List.filter_congr (fun e _ => Bool.and_comm _ _)
  rw [key st1, key st2, h]

/-- C9: the secondary indexes are write-only.  For any two well-formed
stores that agree on all primary `trade:` records (in order) but differ
arbitrarily in by-asset / by-taxyear index entries, listing (for every
filter, limit and cursor), the full ascending load, and every tax
report computation return identical results. -/
theorem indexes_write_only (st1 st2 : Store)
    (hwf1 : StoreWF st1) (hwf2 : StoreWF st2)
    (heq : tradeEntriesOf st1 = tradeEntriesOf st2) :
    (∀ (f : Filters) (limit : ℤ) (cursor : Option String),
      listTrades st1 f limit cursor = listTrades st2 f limit cursor) ∧
    loadAllTrades st1 = loadAllTrades st2 ∧
    ∀ (dayOf : ℤ → ℤ) (fromTs toTs : ℤ),
      computeWindow dayOf st1 fromTs toTs =
        computeWindow dayOf st2 fromTs toTs := by
  have hload : loadAllTrades st1 = loadAllTrades st2 := by
    have hfc : ∀ st : Store, (ascRegion st (none : Option String)).length
        + 1 ≤ (st.length + 1) * 256 := by
      intro st
      have h1 : (ascRegion st none).length ≤ st.length :=
        List.length_filter_le _ _
      have h2 : st.length + 1 ≤ (st.length + 1) * 256 :=
        Nat.le_mul_of_pos_right _ (by omega)
      omega
    rw [loadAllTrades, loadAllTrades,
      loadLoop_char st1 hwf1 (st1.length + 1) none [] (hfc st1),
      loadLoop_char st2 hwf2 (st2.length + 1) none [] (hfc st2),
      ascRegion_eq_of_tradeEntries st1 st2 heq none]
  refine ⟨?_, hload, ?_⟩
  · intro f limit cursor
    by_cases hlim : 1 ≤ limit
    · rw [listTrades_char st1 f limit cursor hwf1 hlim,
        listTrades_char st2 f limit cursor hwf2 hlim,
        descRegion_eq_of_tradeEntries st1 st2 heq]
    · rw [listTrades_nonpos st1 f limit cursor hlim,
        listTrades_nonpos st2 f limit cursor hlim]
  · intro dayOf fromTs toTs
    rw [computeWindow, computeWindow, hload]

/-- C9 witness: the store holding `tradeA1` with its two index entries
and the store holding only the primary record agree on every listing,
load and report computation. -/
theorem indexes_write_only_witness :
    (∀ (f : Filters) (limit : ℤ) (cursor : Option String),
      listTrades storeA1 f limit cursor =
        listTrades storeTradeOnly f limit cursor) ∧
    loadAllTrades storeA1 = loadAllTrades storeTradeOnly ∧
    ∀ (dayOf : ℤ → ℤ) (fromTs toTs : ℤ),
      computeWindow dayOf storeA1 fromTs toTs =
        computeWindow dayOf storeTradeOnly fromTs toTs :=
  indexes_write_only storeA1 storeTradeOnly (by decide) (by decide)
    (by with_unfolding_all rfl)

/-- C7 (amended): `deleteTrade(id)` of a locked trade fails with the
`"Trade locked"` error before any of the three deletes run, so the
primary record and both index entries are untouched; `deleteTrade(id)`
of a nonexistent id is a silent no-op success (it returns with the store
unchanged), not a not-found failure. -/
theorem deleteTrade_locked_error_missing_noop (lYM : ℤ → ℤ × ℤ)
    (st : Store) (id : String) :
    (∀ t : Trade, storGet st (tradeKey id) = some (.trade t) →
      t.locked = true → deleteTrade lYM st id = .error "Trade locked") ∧
    (storGet st (tradeKey id) = none → deleteTrade lYM st id = .ok st) := by
  constructor
  · intro t hget hl
    simp [deleteTrade, hget, hl]
  · intro hget
    simp [deleteTrade, hget]

/-- C7 witness: on the concrete one-trade locked store, deleting the
locked trade errors and deleting an absent id silently succeeds. -/
theorem deleteTrade_locked_error_missing_noop_witness :
    deleteTrade lYMconst storeLocked "a" = .error "Trade locked" ∧
    deleteTrade lYMconst storeLocked "b" = .ok storeLocked :=
  ⟨(deleteTrade_locked_error_missing_noop lYMconst storeLocked "a").1
      { tradeA1 with locked := true } (by with_unfolding_all rfl) rfl,
   (deleteTrade_locked_error_missing_noop lYMconst storeLocked "b").2
      (by with_unfolding_all rfl)⟩

/-- C7 counterexample: deleting a nonexistent id succeeds silently on a
concrete store, refuting "fails with a not-found error rather than
succeeding silently". -/
theorem deleteTrade_missing_not_an_error :
    deleteTrade lYMconst storeA1 "zzz" = .ok storeA1 := by
  with_unfolding_all rfl

end Arbi
